import Mathlib

/-!
# containers::BiDirectionalList

A shallow embedding of `src/bidirectional_list.h` and a verification of its
contract.

Modelling conventions.

* A `Node*` is a `Ptr := Option Nat`: `none` is `nullptr`, `some a` is the
  address `a`.
* All nodes of all lists live in one `Heap`: a table of cells indexed by
  address.  `new` takes the first address past the table, `delete` empties the
  cell.  Reading, writing or deleting through `nullptr` or through an address
  whose cell is empty is undefined behaviour.
* A list object is the triple `begin_ptr_`, `last_ptr_`, `size_`.  A member
  function takes the object and the heap and returns, in `Except`, the new
  object and the new heap.
* `assert` is enabled.  A failing assertion is the fault
  `Fault.assertion st`, where `st` is the state in which the assertion was
  evaluated.  Undefined behaviour is the fault `Fault.undefinedBehaviour`.
* `int` is modelled by `Int`, and a well-formed list has
  `0 <= size_ <= INT_MAX`.  `size_++` with `size_ == INT_MAX` is a signed
  overflow, which is undefined behaviour (`increment`).  `size_--`, loop
  counters and indices do not overflow on a well-formed list, where they stay
  between 0 and `size_`, and are exact.  `new` never runs out of memory.
* A loop that the source does not bound (`ToVector`, the copy loop,
  `CleanTheList`, the destructor) takes its fuel from the number of heap cells;
  running out of fuel is the fault `Fault.nonTermination`.
* An assignment operator is a function of the two list objects and the heap.
  When both arguments name the same object their `begin_ptr_` are equal, and
  the operators return at once in that case, so the function of the two values
  also describes self-assignment.
* `T` is a type with decidable equality; `==` and `!=` on `T` are equality and
  its negation; copying and moving a `T` both yield the value.
-/

namespace containers

/-! ## Memory -/

/-- A node pointer: `none` is `nullptr`. -/
abbrev Ptr := Option Nat

/-- The struct `Node`: the stored value and the two links. -/
structure Node (α : Type) where
  value : α
  prev_ptr_ : Ptr
  next_ptr_ : Ptr
deriving DecidableEq

/-- The heap: cell `a` holds the node stored at address `a`, or `none` when
nothing is allocated there. -/
structure Heap (α : Type) where
  cells : List (Option (Node α))
deriving DecidableEq

/-- How a call can fail: an `assert` that does not hold (with the state at
that moment), undefined behaviour, a loop that never ends, or the
`std::length_error` that `std::vector::reserve` throws. -/
inductive Fault (σ : Type) where
  | assertion : σ → Fault σ
  | undefinedBehaviour : Fault σ
  | nonTermination : Fault σ
  | lengthError : Fault σ
deriving DecidableEq

/-- The heap without any cell. -/
def Heap.empty {α : Type} : Heap α := ⟨[]⟩

/-- The node stored at address `a`, if any. -/
def Heap.read {α : Type} (h : Heap α) (a : Nat) : Option (Node α) :=
  (h.cells[a]?).join

/-- The heap with cell `a` overwritten. -/
def Heap.write {α : Type} (h : Heap α) (a : Nat) (n : Node α) : Heap α :=
  ⟨h.cells.set a (some n)⟩

/-- The heap with cell `a` emptied. -/
def Heap.free {α : Type} (h : Heap α) (a : Nat) : Heap α :=
  ⟨h.cells.set a none⟩

/-- Evaluation of `new Node(...)`: the address of the new node and the new heap. -/
def Heap.alloc {α : Type} (h : Heap α) (n : Node α) : Nat × Heap α :=
  (h.cells.length, ⟨h.cells ++ [some n]⟩)

/-- Evaluation of `*p`: the node `p` points to. -/
def Heap.deref {α σ : Type} (h : Heap α) (p : Ptr) : Except (Fault σ) (Node α) :=
  match p with
  | none => .error .undefinedBehaviour
  | some a =>
    match h.read a with
    | none => .error .undefinedBehaviour
    | some n => .ok n

/-- Evaluation of `p->prev_ptr_ = q`. -/
def Heap.setPrev {α σ : Type} (h : Heap α) (p q : Ptr) : Except (Fault σ) (Heap α) :=
  match p with
  | none => .error .undefinedBehaviour
  | some a =>
    match h.read a with
    | none => .error .undefinedBehaviour
    | some n => .ok (h.write a { n with prev_ptr_ := q })

/-- Evaluation of `p->next_ptr_ = q`. -/
def Heap.setNext {α σ : Type} (h : Heap α) (p q : Ptr) : Except (Fault σ) (Heap α) :=
  match p with
  | none => .error .undefinedBehaviour
  | some a =>
    match h.read a with
    | none => .error .undefinedBehaviour
    | some n => .ok (h.write a { n with next_ptr_ := q })

/-- Evaluation of `delete p`: nothing for `nullptr`, undefined behaviour for an
address that holds no node. -/
def Heap.delete {α σ : Type} (h : Heap α) (p : Ptr) : Except (Fault σ) (Heap α) :=
  match p with
  | none => .ok h
  | some a =>
    match h.read a with
    | none => .error .undefinedBehaviour
    | some _ => .ok (h.free a)

/-! ## The type `int` -/

/-- The largest value of an `int` (32 bits, two's complement). -/
def INT_MAX : Int := 2147483647

/-- The statement `n++` on an `int`: at `INT_MAX` it is a signed overflow, which
is undefined behaviour. -/
def increment {σ : Type} (n : Int) : Except (Fault σ) Int :=
  if n < INT_MAX then .ok (n + 1) else .error .undefinedBehaviour

/-! ## The list object -/

/-- The data members of `BiDirectionalList<T>`, with their default member
initialisers. -/
structure BiDirectionalList where
  begin_ptr_ : Ptr := none
  last_ptr_ : Ptr := none
  size_ : Int := 0
deriving DecidableEq

/-- A list object together with the heap its nodes live in. -/
abbrev State (α : Type) := BiDirectionalList × Heap α

/-- The outcome of a call of a member function: a fault or the returned value. -/
abbrev Call (α : Type) := Except (Fault (State α))

/-- The constructor `BiDirectionalList() = default`. -/
def BiDirectionalList.default_ctor : BiDirectionalList := {}

/-- The member function `Size`. -/
def Size (l : BiDirectionalList) : Int := l.size_

/-- The member function `IsEmpty`. -/
def IsEmpty (l : BiDirectionalList) : Bool := decide (l.size_ = 0)

/-- The loop of `ToVector`: `fuel` bounds the number of iterations. -/
def toVectorLoop {α : Type} (h : Heap α) :
    Nat → Ptr → List α → Call α (List α)
  | _, none, result => .ok result
  | 0, some _, _ => .error .nonTermination
  | fuel + 1, some a, result =>
    match h.read a with
    | none => .error .undefinedBehaviour
    | some n => toVectorLoop h fuel n.next_ptr_ (result ++ [n.value])

/-- The member function `ToVector`.  `result.reserve(size_)` throws when
`size_` is negative (it is converted to an unsigned size).  The loop runs until
`cur` is null; a walk that takes more steps than the heap has cells visits a
cell twice and so never ends. -/
def ToVector {α : Type} (l : BiDirectionalList) (h : Heap α) : Call α (List α) :=
  if l.size_ < 0 then .error .lengthError
  else toVectorLoop h (h.cells.length + 1) l.begin_ptr_ []

/-- The member function `Front`. -/
def Front {α : Type} (l : BiDirectionalList) (h : Heap α) : Call α Ptr :=
  if l.size_ = 0 then .error (.assertion (l, h)) else .ok l.begin_ptr_

/-- The member function `Back`. -/
def Back {α : Type} (l : BiDirectionalList) (h : Heap α) : Call α Ptr :=
  if l.size_ = 0 then .error (.assertion (l, h)) else .ok l.last_ptr_

/-- The loop of `Find`: `k` iterations remain, `i` is the loop counter. -/
def findLoop {α : Type} [DecidableEq α] (h : Heap α) (value : α) :
    Nat → Ptr → Int → Call α Int
  | 0, _, _ => .ok (-1)
  | k + 1, cur, i =>
    match cur with
    | none => .error .undefinedBehaviour
    | some a =>
      match h.read a with
      | none => .error .undefinedBehaviour
      | some n => if n.value = value then .ok i else findLoop h value k n.next_ptr_ (i + 1)

/-- The member function `Find`. -/
def Find {α : Type} [DecidableEq α] (l : BiDirectionalList) (h : Heap α) (value : α) :
    Call α Int :=
  findLoop h value l.size_.toNat l.begin_ptr_ 0

/-- The loop of `FindAll`. -/
def findAllLoop {α : Type} [DecidableEq α] (h : Heap α) (value : α) :
    Nat → Ptr → Int → List Int → Call α (List Int)
  | 0, _, _, result => .ok result
  | k + 1, cur, i, result =>
    match cur with
    | none => .error .undefinedBehaviour
    | some a =>
      match h.read a with
      | none => .error .undefinedBehaviour
      | some n =>
        findAllLoop h value k n.next_ptr_ (i + 1)
          (if n.value = value then result ++ [i] else result)

/-- The member function `FindAll`. -/
def FindAll {α : Type} [DecidableEq α] (l : BiDirectionalList) (h : Heap α) (value : α) :
    Call α (List Int) :=
  findAllLoop h value l.size_.toNat l.begin_ptr_ 0 []

/-- The loop of `At`: `k` iterations remain. -/
def atLoop {α : Type} (h : Heap α) : Nat → Ptr → Call α Ptr
  | 0, proper_ptr => .ok proper_ptr
  | k + 1, proper_ptr =>
    match proper_ptr with
    | none => .error .undefinedBehaviour
    | some a =>
      match h.read a with
      | none => .error .undefinedBehaviour
      | some n => atLoop h k n.next_ptr_

/-- The private member function `At`. -/
def At {α : Type} (l : BiDirectionalList) (h : Heap α) (index : Int) : Call α Ptr :=
  if 0 ≤ index ∧ index < l.size_ then atLoop h index.toNat l.begin_ptr_
  else .error (.assertion (l, h))

/-- The member function `operator[]`. -/
def subscript {α : Type} (l : BiDirectionalList) (h : Heap α) (index : Int) : Call α Ptr :=
  At l h index

/-- The member function `PopFront`. -/
def PopFront {α : Type} (l : BiDirectionalList) (h : Heap α) : Call α (State α) :=
  if l.begin_ptr_ = none then .error (.assertion (l, h)) else do
    let temp := l.begin_ptr_
    let b ← h.deref l.begin_ptr_
    let l1 := { l with begin_ptr_ := b.next_ptr_ }
    let h1 ← h.delete temp
    if l1.begin_ptr_ ≠ none then
      let h2 ← h1.setPrev l1.begin_ptr_ none
      pure ({ l1 with size_ := l1.size_ - 1 }, h2)
    else
      pure ({ l1 with last_ptr_ := none, size_ := l1.size_ - 1 }, h1)

/-- The member function `PopBack`. -/
def PopBack {α : Type} (l : BiDirectionalList) (h : Heap α) : Call α (State α) :=
  if l.last_ptr_ = none then .error (.assertion (l, h)) else do
    let temp := l.last_ptr_
    let b ← h.deref l.last_ptr_
    let l1 := { l with last_ptr_ := b.prev_ptr_ }
    let h1 ← h.delete temp
    if l1.last_ptr_ ≠ none then
      let h2 ← h1.setNext l1.last_ptr_ none
      pure ({ l1 with size_ := l1.size_ - 1 }, h2)
    else
      pure ({ l1 with begin_ptr_ := none, size_ := l1.size_ - 1 }, h1)

/-- The member function `Erase`. -/
def Erase {α : Type} (l : BiDirectionalList) (h : Heap α) (element : Ptr) : Call α (State α) :=
  if element = none then .error (.assertion (l, h))
  else if element = l.last_ptr_ then PopBack l h
  else if element = l.begin_ptr_ then PopFront l h
  else do
    let e ← h.deref element
    let h1 ← h.setPrev e.next_ptr_ e.prev_ptr_
    let e1 ← h1.deref element
    let h2 ← h1.setNext e1.prev_ptr_ e1.next_ptr_
    let h3 ← h2.delete element
    pure ({ l with size_ := l.size_ - 1 }, h3)

/-- The member function `InsertBefore(Node*, const T&)`. -/
def InsertBefore {α : Type} (l : BiDirectionalList) (h : Heap α) (element : Ptr) (value : α) :
    Call α (State α) :=
  if element = none then .error (.assertion (l, h)) else do
    let size ← increment l.size_
    let l1 := { l with size_ := size }
    if element = l1.begin_ptr_ then
      let (q, h1) := h.alloc ⟨value, none, element⟩
      let h2 ← h1.setPrev element (some q)
      let e ← h2.deref element
      pure ({ l1 with begin_ptr_ := e.prev_ptr_ }, h2)
    else
      let e ← h.deref element
      let (q, h1) := h.alloc ⟨value, e.prev_ptr_, element⟩
      let e1 ← h1.deref element
      let h2 ← h1.setNext e1.prev_ptr_ (some q)
      let e2 ← h2.deref element
      let p ← h2.deref e2.prev_ptr_
      let h3 ← h2.setPrev element p.next_ptr_
      pure (l1, h3)

/-- The member function `InsertBefore(Node*, T&&)`. -/
def InsertBefore_move {α : Type} (l : BiDirectionalList) (h : Heap α) (element : Ptr)
    (value : α) : Call α (State α) :=
  if element = none then .error (.assertion (l, h)) else do
    let size ← increment l.size_
    let l1 := { l with size_ := size }
    if element = l1.begin_ptr_ then
      let (q, h1) := h.alloc ⟨value, none, element⟩
      let h2 ← h1.setPrev element (some q)
      let e ← h2.deref element
      pure ({ l1 with begin_ptr_ := e.prev_ptr_ }, h2)
    else
      let e ← h.deref element
      let (q, h1) := h.alloc ⟨value, e.prev_ptr_, element⟩
      let e1 ← h1.deref element
      let h2 ← h1.setNext e1.prev_ptr_ (some q)
      let e2 ← h2.deref element
      let p ← h2.deref e2.prev_ptr_
      let h3 ← h2.setPrev element p.next_ptr_
      pure (l1, h3)

/-- The member function `InsertAfter(Node*, const T&)`. -/
def InsertAfter {α : Type} (l : BiDirectionalList) (h : Heap α) (element : Ptr) (value : α) :
    Call α (State α) :=
  if element = none then .error (.assertion (l, h)) else do
    let size ← increment l.size_
    let l1 := { l with size_ := size }
    if element = l1.last_ptr_ then
      let (q, h1) := h.alloc ⟨value, element, none⟩
      let h2 ← h1.setNext element (some q)
      let e ← h2.deref element
      pure ({ l1 with last_ptr_ := e.next_ptr_ }, h2)
    else
      let e ← h.deref element
      let (q, h1) := h.alloc ⟨value, element, e.next_ptr_⟩
      let e1 ← h1.deref element
      let h2 ← h1.setPrev e1.next_ptr_ (some q)
      let e2 ← h2.deref element
      let n ← h2.deref e2.next_ptr_
      let h3 ← h2.setNext element n.prev_ptr_
      pure (l1, h3)

/-- The member function `InsertAfter(Node*, T&&)`. -/
def InsertAfter_move {α : Type} (l : BiDirectionalList) (h : Heap α) (element : Ptr)
    (value : α) : Call α (State α) :=
  if element = none then .error (.assertion (l, h)) else do
    let size ← increment l.size_
    let l1 := { l with size_ := size }
    if element = l1.last_ptr_ then
      let (q, h1) := h.alloc ⟨value, element, none⟩
      let h2 ← h1.setNext element (some q)
      let e ← h2.deref element
      pure ({ l1 with last_ptr_ := e.next_ptr_ }, h2)
    else
      let e ← h.deref element
      let (q, h1) := h.alloc ⟨value, element, e.next_ptr_⟩
      let e1 ← h1.deref element
      let h2 ← h1.setPrev e1.next_ptr_ (some q)
      let e2 ← h2.deref element
      let n ← h2.deref e2.next_ptr_
      let h3 ← h2.setNext element n.prev_ptr_
      pure (l1, h3)

/-- The member function `PushBack(const T&)`. -/
def PushBack {α : Type} (l : BiDirectionalList) (h : Heap α) (value : α) : Call α (State α) :=
  if l.size_ = 0 then do
    let size ← increment l.size_
    let l1 := { l with size_ := size }
    let (q, h1) := h.alloc ⟨value, none, none⟩
    let l2 := { l1 with begin_ptr_ := some q }
    pure ({ l2 with last_ptr_ := l2.begin_ptr_ }, h1)
  else InsertAfter l h l.last_ptr_ value

/-- The member function `PushBack(T&&)`. -/
def PushBack_move {α : Type} (l : BiDirectionalList) (h : Heap α) (value : α) :
    Call α (State α) :=
  if l.size_ = 0 then do
    let size ← increment l.size_
    let l1 := { l with size_ := size }
    let (q, h1) := h.alloc ⟨value, none, none⟩
    let l2 := { l1 with begin_ptr_ := some q }
    pure ({ l2 with last_ptr_ := l2.begin_ptr_ }, h1)
  else InsertAfter_move l h l.last_ptr_ value

/-- The member function `PushFront(const T&)`. -/
def PushFront {α : Type} (l : BiDirectionalList) (h : Heap α) (value : α) : Call α (State α) :=
  if l.size_ = 0 then do
    let size ← increment l.size_
    let l1 := { l with size_ := size }
    let (q, h1) := h.alloc ⟨value, none, none⟩
    let l2 := { l1 with begin_ptr_ := some q }
    pure ({ l2 with last_ptr_ := l2.begin_ptr_ }, h1)
  else InsertBefore l h l.begin_ptr_ value

/-- The member function `PushFront(T&&)`. -/
def PushFront_move {α : Type} (l : BiDirectionalList) (h : Heap α) (value : α) :
    Call α (State α) :=
  if l.size_ = 0 then do
    let size ← increment l.size_
    let l1 := { l with size_ := size }
    let (q, h1) := h.alloc ⟨value, none, none⟩
    let l2 := { l1 with begin_ptr_ := some q }
    pure ({ l2 with last_ptr_ := l2.begin_ptr_ }, h1)
  else InsertBefore_move l h l.begin_ptr_ value

/-- The loop of `operator==`: `k` iterations remain. -/
def eqLoop {α : Type} [DecidableEq α] (h : Heap α) : Nat → Ptr → Ptr → Call α Bool
  | 0, _, _ => .ok true
  | k + 1, lhs_elem, rhs_elem =>
    match lhs_elem, rhs_elem with
    | some a, some b =>
      match h.read a, h.read b with
      | some x, some y =>
        if x.value ≠ y.value then .ok false else eqLoop h k x.next_ptr_ y.next_ptr_
      | _, _ => .error .undefinedBehaviour
    | _, _ => .error .undefinedBehaviour

/-- The member function `operator==`. -/
def op_eq {α : Type} [DecidableEq α] (l rhs : BiDirectionalList) (h : Heap α) : Call α Bool :=
  if l.size_ ≠ rhs.size_ then .ok false
  else eqLoop h l.size_.toNat l.begin_ptr_ rhs.begin_ptr_

/-- The member function `operator!=`. -/
def op_ne {α : Type} [DecidableEq α] (l rhs : BiDirectionalList) (h : Heap α) : Call α Bool :=
  (op_eq l rhs h).map (fun b => !b)

/-! ## Well-formedness -/

/-- Walk `n` steps along the link `f` from `p`: the addresses visited, provided
each step finds a node and the walk reaches `nullptr` after exactly `n` nodes. -/
def walk {α : Type} (f : Node α → Ptr) (h : Heap α) : Nat → Ptr → Option (List Nat)
  | 0, none => some []
  | 0, some _ => none
  | _ + 1, none => none
  | n + 1, some a =>
    match h.read a with
    | none => none
    | some nd => (walk f h n (f nd)).map (fun as => a :: as)

/-- The nodes of the list in forward order: the walk along `next_ptr_` from
`begin_ptr_` over `size_` nodes (empty when there is no such walk). -/
def nodes {α : Type} (l : BiDirectionalList) (h : Heap α) : List Nat :=
  (walk Node.next_ptr_ h l.size_.toNat l.begin_ptr_).getD []

/-- The nodes of the list in backward order: the walk along `prev_ptr_` from
`last_ptr_` over `size_` nodes (empty when there is no such walk). -/
def nodesBackward {α : Type} (l : BiDirectionalList) (h : Heap α) : List Nat :=
  (walk Node.prev_ptr_ h l.size_.toNat l.last_ptr_).getD []

/-- The list is well-formed: `size_ == 0` iff `begin_ptr_` is null iff
`last_ptr_` is null; `size_` is not negative and, being an `int`, not above
`INT_MAX`; walking `next_ptr_` from `begin_ptr_` visits exactly `size_` nodes
and then reaches `nullptr`; and walking `prev_ptr_` from `last_ptr_` visits the
same nodes in reverse order and then reaches `nullptr`. -/
def WellFormed {α : Type} (l : BiDirectionalList) (h : Heap α) : Prop :=
  (l.size_ = 0 ↔ l.begin_ptr_ = none) ∧
  (l.begin_ptr_ = none ↔ l.last_ptr_ = none) ∧
  0 ≤ l.size_ ∧
  l.size_ ≤ INT_MAX ∧
  (walk Node.next_ptr_ h l.size_.toNat l.begin_ptr_).isSome = true ∧
  walk Node.prev_ptr_ h l.size_.toNat l.last_ptr_ =
    (walk Node.next_ptr_ h l.size_.toNat l.begin_ptr_).map List.reverse

instance {α : Type} (l : BiDirectionalList) (h : Heap α) :
    Decidable (WellFormed l h) := by
  unfold WellFormed; infer_instance

/-- The body of the constructor from an initializer list: `PushBack` of every
element, in order. -/
def pushBackAll {α : Type} (l : BiDirectionalList) (h : Heap α) :
    List α → Call α (State α)
  | [] => .ok (l, h)
  | elem :: rest =>
    match PushBack l h elem with
    | .ok (l1, h1) => pushBackAll l1 h1 rest
    | .error f => .error f

/-- The constructor `BiDirectionalList(const std::initializer_list<T>&)`. -/
def BiDirectionalList.init_list_ctor {α : Type} (h : Heap α) (init_list : List α) :
    Call α (State α) :=
  pushBackAll {} h init_list

/-- The loop shared by the copy constructor and the copy assignment: `PushBack`
of the value of every node reached from `parent_ptr` along `next_ptr_`.  The
link is read after the `PushBack`.  `fuel` bounds the number of iterations. -/
def copyLoop {α : Type} :
    Nat → BiDirectionalList → Heap α → Ptr → Call α (State α)
  | _, l, h, none => .ok (l, h)
  | 0, _, _, some _ => .error .nonTermination
  | fuel + 1, l, h, some a =>
    match h.read a with
    | none => .error .undefinedBehaviour
    | some nd =>
      match PushBack l h nd.value with
      | .error f => .error f
      | .ok (l1, h1) =>
        match h1.read a with
        | none => .error .undefinedBehaviour
        | some nd1 => copyLoop fuel l1 h1 nd1.next_ptr_

/-- The constructor `BiDirectionalList(const BiDirectionalList&)`: the new
object starts from the default member initialisers.  A walk that takes more
steps than the heap has cells never ends. -/
def BiDirectionalList.copy_ctor {α : Type} (list : BiDirectionalList) (h : Heap α) :
    Call α (State α) :=
  copyLoop (h.cells.length + 1) {} h list.begin_ptr_

/-- The constructor `BiDirectionalList(BiDirectionalList&&)`: the new object
and the state in which it leaves `list`. -/
def BiDirectionalList.move_ctor (list : BiDirectionalList) :
    BiDirectionalList × BiDirectionalList :=
  let this : BiDirectionalList := {}
  let this := { this with begin_ptr_ := list.begin_ptr_ }
  let this := { this with last_ptr_ := list.last_ptr_ }
  let this := { this with size_ := list.size_ }
  let list := { list with begin_ptr_ := none }
  let list := { list with last_ptr_ := none }
  let list := { list with size_ := 0 }
  (this, list)

/-- The loop of `CleanTheList`: `fuel` bounds the number of iterations. -/
def cleanLoop {α : Type} : Nat → Heap α → Ptr → Call α (Heap α)
  | _, h, none => .ok h
  | 0, _, some _ => .error .nonTermination
  | fuel + 1, h, some a =>
    match h.read a with
    | none => .error .undefinedBehaviour
    | some nd => cleanLoop fuel (h.free a) nd.prev_ptr_

/-- The private member function `CleanTheList`. -/
def CleanTheList {α : Type} (l : BiDirectionalList) (h : Heap α) : Call α (State α) :=
  let l1 := { l with size_ := 0 }
  match cleanLoop (h.cells.length + 1) h l1.last_ptr_ with
  | .error f => .error f
  | .ok h1 =>
    let l2 := { l1 with begin_ptr_ := none }
    .ok ({ l2 with last_ptr_ := none }, h1)

/-- The loop of the destructor: `PopBack` while the list is not empty.  `fuel`
bounds the number of iterations. -/
def destructorLoop {α : Type} : Nat → BiDirectionalList → Heap α → Call α (State α)
  | 0, l, h => if IsEmpty l then .ok (l, h) else .error .nonTermination
  | fuel + 1, l, h =>
    if IsEmpty l then .ok (l, h)
    else
      match PopBack l h with
      | .error f => .error f
      | .ok (l1, h1) => destructorLoop fuel l1 h1

/-- The destructor `~BiDirectionalList`.  Every `PopBack` that returns frees a
cell, so the loop cannot take more iterations than the heap has cells. -/
def BiDirectionalList.destructor {α : Type} (l : BiDirectionalList) (h : Heap α) :
    Call α (State α) :=
  destructorLoop (h.cells.length + 1) l h

/-- The copy assignment `operator=(const BiDirectionalList&)` called on `l`
with argument `list`.  When both name the same object their `begin_ptr_` are
equal and the call returns at once, so the function of the two values covers
self-assignment too; `list` is `const` and is not written otherwise. -/
def copy_assign {α : Type} (l list : BiDirectionalList) (h : Heap α) : Call α (State α) :=
  if l.begin_ptr_ = list.begin_ptr_ then .ok (l, h)
  else
    match CleanTheList l h with
    | .error f => .error f
    | .ok (l1, h1) => copyLoop (h1.cells.length + 1) l1 h1 list.begin_ptr_

/-- The move assignment `operator=(BiDirectionalList&&)` called on `l` with
argument `list`: the new `*this`, the new `list` and the new heap.  When both
name the same object their `begin_ptr_` are equal and the call returns at
once. -/
def move_assign {α : Type} (l list : BiDirectionalList) (h : Heap α) :
    Call α (BiDirectionalList × BiDirectionalList × Heap α) :=
  if l.begin_ptr_ = list.begin_ptr_ then .ok (l, list, h)
  else
    match CleanTheList l h with
    | .error f => .error f
    | .ok (l1, h1) =>
      let l2 := { l1 with begin_ptr_ := list.begin_ptr_ }
      let l3 := { l2 with last_ptr_ := list.last_ptr_ }
      let l4 := { l3 with size_ := list.size_ }
      let list1 := { list with begin_ptr_ := none }
      let list2 := { list1 with last_ptr_ := none }
      let list3 := { list2 with size_ := 0 }
      .ok (l4, list3, h1)

/-- The call `PopBack()` made `n` times in a row. -/
def popBackTimes {α : Type} : Nat → BiDirectionalList → Heap α → Call α (State α)
  | 0, l, h => .ok (l, h)
  | n + 1, l, h =>
    match PopBack l h with
    | .error f => .error f
    | .ok (l1, h1) => popBackTimes n l1 h1

/-- A call of one of the member functions that change the list. -/
inductive Op (α : Type) where
  | PushFront (value : α)
  | PushFront_move (value : α)
  | PushBack (value : α)
  | PushBack_move (value : α)
  | InsertBefore (element : Ptr) (value : α)
  | InsertBefore_move (element : Ptr) (value : α)
  | InsertAfter (element : Ptr) (value : α)
  | InsertAfter_move (element : Ptr) (value : α)
  | PopFront
  | PopBack
  | Erase (element : Ptr)

/-- The pointer `element` is a node of the list. -/
def IsNodeOf {α : Type} (l : BiDirectionalList) (h : Heap α) (element : Ptr) : Prop :=
  match element with
  | none => False
  | some a => a ∈ nodes l h

instance {α : Type} (l : BiDirectionalList) (h : Heap α) (element : Ptr) :
    Decidable (IsNodeOf l h element) := by
  unfold IsNodeOf; cases element <;> infer_instance

/-- The precondition of a call: `PopFront` and `PopBack` need a non-empty list,
a node reference must be a node of this list, and a call that adds a node needs
`size_ < INT_MAX`, so that `size_++` does not overflow. -/
def Op.pre {α : Type} (l : BiDirectionalList) (h : Heap α) : Op α → Prop
  | .PushFront _ => l.size_ < INT_MAX
  | .PushFront_move _ => l.size_ < INT_MAX
  | .PushBack _ => l.size_ < INT_MAX
  | .PushBack_move _ => l.size_ < INT_MAX
  | .InsertBefore element _ => IsNodeOf l h element ∧ l.size_ < INT_MAX
  | .InsertBefore_move element _ => IsNodeOf l h element ∧ l.size_ < INT_MAX
  | .InsertAfter element _ => IsNodeOf l h element ∧ l.size_ < INT_MAX
  | .InsertAfter_move element _ => IsNodeOf l h element ∧ l.size_ < INT_MAX
  | .PopFront => IsEmpty l = false
  | .PopBack => IsEmpty l = false
  | .Erase element => IsNodeOf l h element

instance {α : Type} (l : BiDirectionalList) (h : Heap α) (op : Op α) :
    Decidable (op.pre l h) := by
  cases op <;> unfold Op.pre <;> infer_instance

/-- The effect of a call. -/
def Op.call {α : Type} (l : BiDirectionalList) (h : Heap α) : Op α → Call α (State α)
  | .PushFront value => containers.PushFront l h value
  | .PushFront_move value => containers.PushFront_move l h value
  | .PushBack value => containers.PushBack l h value
  | .PushBack_move value => containers.PushBack_move l h value
  | .InsertBefore element value => containers.InsertBefore l h element value
  | .InsertBefore_move element value => containers.InsertBefore_move l h element value
  | .InsertAfter element value => containers.InsertAfter l h element value
  | .InsertAfter_move element value => containers.InsertAfter_move l h element value
  | .PopFront => containers.PopFront l h
  | .PopBack => containers.PopBack l h
  | .Erase element => containers.Erase l h element

/-- The effect of a sequence of calls, stopping at the first fault. -/
def callAll {α : Type} (l : BiDirectionalList) (h : Heap α) : List (Op α) → Call α (State α)
  | [] => .ok (l, h)
  | op :: rest =>
    match op.call l h with
    | .ok (l1, h1) => callAll l1 h1 rest
    | .error f => .error f

/-- Every call of the sequence is made within its precondition. -/
def Admissible {α : Type} (l : BiDirectionalList) (h : Heap α) : List (Op α) → Prop
  | [] => True
  | op :: rest =>
    op.pre l h ∧
      match op.call l h with
      | .ok (l1, h1) => Admissible l1 h1 rest
      | .error _ => True

/-- Whether a sequence of calls is admissible can be computed. -/
def Admissible.decide {α : Type} :
    (ops : List (Op α)) → (l : BiDirectionalList) → (h : Heap α) →
      Decidable (Admissible l h ops)
  | [], _, _ => isTrue trivial
  | op :: rest, l, h =>
    match hc : op.call l h with
    | .ok (l1, h1) =>
      have := Admissible.decide rest l1 h1
      decidable_of_iff (op.pre l h ∧ Admissible l1 h1 rest) (by simp [Admissible, hc])
    | .error _ => decidable_of_iff (op.pre l h) (by simp [Admissible, hc])

instance {α : Type} (l : BiDirectionalList) (h : Heap α) (ops : List (Op α)) :
    Decidable (Admissible l h ops) := Admissible.decide ops l h

/-- The call does not end in a failed assertion. -/
def NoAssert {σ β : Type} (r : Except (Fault σ) β) : Prop :=
  ∀ st, r ≠ .error (.assertion st)

/-! ## Sample lists -/

/-- The heap that `PushBack(10)`, `PushBack(20)`, `PushFront(5)` build on the
empty heap. -/
def sampleHeap3 : Heap Int :=
  ⟨[some ⟨10, some 2, some 1⟩, some ⟨20, some 0, none⟩, some ⟨5, none, some 0⟩]⟩

/-- The list `[5, 10, 20]` in `sampleHeap3`. -/
def sample3 : BiDirectionalList := ⟨some 2, some 1, 3⟩

/-- The heap that the initializer list `{10, 20, 10, 30}` builds on the empty
heap. -/
def sampleHeap4 : Heap Int :=
  ⟨[some ⟨10, none, some 1⟩, some ⟨20, some 0, some 2⟩, some ⟨10, some 1, some 3⟩,
    some ⟨30, some 2, none⟩]⟩

/-- The list `[10, 20, 10, 30]` in `sampleHeap4`. -/
def sample4 : BiDirectionalList := ⟨some 0, some 3, 4⟩

/-- The heap that the initializer lists `{1, 2, 3}` and `{1, 2}` build, one
after the other, on the empty heap. -/
def sampleHeap5 : Heap Int :=
  ⟨[some ⟨1, none, some 1⟩, some ⟨2, some 0, some 2⟩, some ⟨3, some 1, none⟩,
    some ⟨1, none, some 4⟩, some ⟨2, some 3, none⟩]⟩

/-- The list `[1, 2, 3]` in `sampleHeap5`. -/
def sample123 : BiDirectionalList := ⟨some 0, some 2, 3⟩

/-- The list `[1, 2]` in `sampleHeap5`. -/
def sample12 : BiDirectionalList := ⟨some 3, some 4, 2⟩

/-- The state that `InsertBefore(p, 7)` returns when it is called on the list
`[1, 2]` of `sampleHeap5` with `p` the middle node (address 1) of the list
`[1, 2, 3]`. -/
def foreignInsertBefore : State Int :=
  (⟨some 3, some 4, 3⟩,
    ⟨[some ⟨1, none, some 5⟩, some ⟨2, some 5, some 2⟩, some ⟨3, some 1, none⟩,
      some ⟨1, none, some 4⟩, some ⟨2, some 3, none⟩, some ⟨7, some 0, some 1⟩]⟩)

/-- The state that `InsertAfter(p, 7)` returns when it is called on the list
`[1, 2]` of `sampleHeap5` with `p` the middle node (address 1) of the list
`[1, 2, 3]`. -/
def foreignInsertAfter : State Int :=
  (⟨some 3, some 4, 3⟩,
    ⟨[some ⟨1, none, some 1⟩, some ⟨2, some 0, some 5⟩, some ⟨3, some 5, none⟩,
      some ⟨1, none, some 4⟩, some ⟨2, some 3, none⟩, some ⟨7, some 1, some 2⟩]⟩)

/-- The state that `Erase(p)` returns when it is called on the list `[1, 2]` of
`sampleHeap5` with `p` the middle node (address 1) of the list `[1, 2, 3]`. -/
def foreignErase : State Int :=
  (⟨some 3, some 4, 1⟩,
    ⟨[some ⟨1, none, some 2⟩, none, some ⟨3, some 0, none⟩,
      some ⟨1, none, some 4⟩, some ⟨2, some 3, none⟩]⟩)

/-- The heap that `n` calls of `PushBack(0)` build on the empty heap: `n` nodes
of value 0 chained in the order of their addresses. -/
def zerosHeap (n : Nat) : Heap Int :=
  ⟨(List.range n).map (fun i =>
    some ⟨0, if i = 0 then none else some (i - 1), if i + 1 = n then none else some (i + 1)⟩)⟩

/-- The list of `n` zeros that `n` calls of `PushBack(0)` build from the empty
list, in `zerosHeap n`. -/
def zerosList (n : Nat) : BiDirectionalList :=
  ⟨if n = 0 then none else some 0, if n = 0 then none else some (n - 1), n⟩

/-- The heap of the list of `INT_MAX` zeros: 2147483647 nodes, at the addresses
0 to 2147483646 in list order. -/
def fullHeap : Heap Int := zerosHeap 2147483647

/-- The list of `INT_MAX` zeros in `fullHeap`: the head is at address 0, the
tail at address 2147483646, and `size_ == INT_MAX`. -/
def fullList : BiDirectionalList := ⟨some 0, some 2147483646, 2147483647⟩

/-- A chain of nodes: starting at `p`, the addresses `ps` are visited in order
by following the link `f`, and the link of the last one is `q`. -/
def Path {α : Type} (f : Node α → Ptr) (h : Heap α) : Ptr → List Nat → Ptr → Prop
  | p, [], q => p = q
  | p, a :: as, q => p = some a ∧ ∃ nd, h.read a = some nd ∧ Path f h (f nd) as q

/-- The list object `l` is the doubly linked chain of the nodes `ps`, and its
`size_`, their number, is an `int`. -/
def Rep {α : Type} (l : BiDirectionalList) (h : Heap α) (ps : List Nat) : Prop :=
  Path Node.next_ptr_ h l.begin_ptr_ ps none ∧
  Path Node.prev_ptr_ h l.last_ptr_ ps.reverse none ∧
  l.size_ = ps.length ∧
  l.size_ ≤ INT_MAX

/-- The values stored in the nodes `ps`. -/
def vals {α : Type} (h : Heap α) (ps : List Nat) : List α :=
  ps.filterMap (fun a => (h.read a).map Node.value)

/-! ## Memory lemmas -/

section Memory

variable {α σ : Type}

@[simp] theorem bind_ok {ε β γ : Type} (a : β) (f : β → Except ε γ) :
    (Except.ok a >>= f) = f a := rfl

@[simp] theorem bind_error {ε β γ : Type} (e : ε) (f : β → Except ε γ) :
    ((Except.error e : Except ε β) >>= f) = Except.error e := rfl

@[simp] theorem pure_eq_ok {ε β : Type} (a : β) : (pure a : Except ε β) = Except.ok a := rfl

theorem read_lt {h : Heap α} {a : Nat} {n : Node α} (hr : h.read a = some n) :
    a < h.cells.length := by
  by_contra hlt
  have : h.cells[a]? = none := List.getElem?_eq_none (by omega)
  simp [Heap.read, this] at hr

theorem read_length (h : Heap α) : h.read h.cells.length = none := by
  cases hr : h.read h.cells.length with
  | none => rfl
  | some n => exact absurd (read_lt hr) (lt_irrefl _)

theorem read_write (h : Heap α) (a b : Nat) (n : Node α) :
    (h.write a n).read b =
      if b = a then (if a < h.cells.length then some n else none) else h.read b := by
  unfold Heap.write Heap.read
  rw [List.getElem?_set]
  by_cases hab : a = b
  · subst hab
    by_cases hl : a < h.cells.length <;> simp [hl]
  · have hba : ¬ b = a := fun e => hab e.symm
    simp [hab, hba]

theorem read_free (h : Heap α) (a b : Nat) :
    (h.free a).read b = if b = a then none else h.read b := by
  unfold Heap.free Heap.read
  rw [List.getElem?_set]
  by_cases hab : a = b
  · subst hab
    by_cases hl : a < h.cells.length <;> simp [hl]
  · have hba : ¬ b = a := fun e => hab e.symm
    simp [hab, hba]

theorem read_alloc (h : Heap α) (n : Node α) (b : Nat) :
    (h.alloc n).2.read b = if b = h.cells.length then some n else h.read b := by
  unfold Heap.alloc Heap.read
  by_cases hb : b = h.cells.length
  · subst hb
    simp
  · simp only [hb, if_false]
    by_cases hl : b < h.cells.length
    · rw [List.getElem?_append_left hl]
    · rw [List.getElem?_eq_none (by simp; omega), List.getElem?_eq_none (by omega)]

@[simp] theorem alloc_fst (h : Heap α) (n : Node α) : (h.alloc n).1 = h.cells.length := rfl

@[simp] theorem length_write (h : Heap α) (a : Nat) (n : Node α) :
    (h.write a n).cells.length = h.cells.length := by
  simp [Heap.write]

@[simp] theorem length_free (h : Heap α) (a : Nat) :
    (h.free a).cells.length = h.cells.length := by
  simp [Heap.free]

@[simp] theorem length_alloc (h : Heap α) (n : Node α) :
    (h.alloc n).2.cells.length = h.cells.length + 1 := by
  simp [Heap.alloc]

theorem deref_ok (σ : Type) {h : Heap α} {a : Nat} {n : Node α} (hr : h.read a = some n) :
    (h.deref (some a) : Except (Fault σ) (Node α)) = .ok n := by
  simp [Heap.deref, hr]

theorem setPrev_ok (σ : Type) {h : Heap α} {a : Nat} {n : Node α} (hr : h.read a = some n)
    (q : Ptr) :
    (h.setPrev (some a) q : Except (Fault σ) (Heap α)) =
      .ok (h.write a { n with prev_ptr_ := q }) := by
  simp [Heap.setPrev, hr]

theorem setNext_ok (σ : Type) {h : Heap α} {a : Nat} {n : Node α} (hr : h.read a = some n)
    (q : Ptr) :
    (h.setNext (some a) q : Except (Fault σ) (Heap α)) =
      .ok (h.write a { n with next_ptr_ := q }) := by
  simp [Heap.setNext, hr]

theorem delete_ok (σ : Type) {h : Heap α} {a : Nat} {n : Node α} (hr : h.read a = some n) :
    (h.delete (some a) : Except (Fault σ) (Heap α)) = .ok (h.free a) := by
  simp [Heap.delete, hr]

theorem read_write_self {h : Heap α} {a : Nat} {m : Node α} (hr : h.read a = some m)
    (n : Node α) : (h.write a n).read a = some n := by
  simp [read_write, read_lt hr]

theorem read_write_ne (h : Heap α) {a b : Nat} (hne : b ≠ a) (n : Node α) :
    (h.write a n).read b = h.read b := by
  simp [read_write, hne]

end Memory

/-! ## Chains of nodes -/

section Chains

variable {α : Type}

theorem path_nil (f : Node α → Ptr) (h : Heap α) (p q : Ptr) :
    Path f h p [] q ↔ p = q := Iff.rfl

theorem path_cons (f : Node α → Ptr) (h : Heap α) (p q : Ptr) (a : Nat) (as : List Nat) :
    Path f h p (a :: as) q ↔ p = some a ∧ ∃ nd, h.read a = some nd ∧ Path f h (f nd) as q :=
  Iff.rfl

theorem path_append (f : Node α → Ptr) (h : Heap α) (xs ys : List Nat) (p q : Ptr) :
    Path f h p (xs ++ ys) q ↔ ∃ m, Path f h p xs m ∧ Path f h m ys q := by
  induction xs generalizing p with
  | nil => simp [path_nil]
  | cons a as ih =>
    simp only [List.cons_append, path_cons, ih]
    constructor
    · rintro ⟨hp, nd, hr, m, h1, h2⟩
      exact ⟨m, ⟨hp, nd, hr, h1⟩, h2⟩
    · rintro ⟨m, ⟨hp, nd, hr, h1⟩, h2⟩
      exact ⟨hp, nd, hr, m, h1, h2⟩

theorem path_snoc (f : Node α → Ptr) (h : Heap α) (xs : List Nat) (a : Nat) (p q : Ptr) :
    Path f h p (xs ++ [a]) q ↔
      Path f h p xs (some a) ∧ ∃ nd, h.read a = some nd ∧ f nd = q := by
  rw [path_append]
  constructor
  · rintro ⟨m, h1, hm, nd, hr, h2⟩
    subst hm
    exact ⟨h1, nd, hr, h2⟩
  · rintro ⟨h1, nd, hr, h2⟩
    exact ⟨some a, h1, rfl, nd, hr, h2⟩

theorem path_congr {f : Node α → Ptr} {h h' : Heap α} {ps : List Nat} {p q : Ptr}
    (hc : ∀ a ∈ ps, (h'.read a).map f = (h.read a).map f) (hp : Path f h p ps q) :
    Path f h' p ps q := by
  induction ps generalizing p with
  | nil => exact hp
  | cons a as ih =>
    obtain ⟨hpa, nd, hr, hrest⟩ := hp
    have ha := hc a (List.mem_cons_self a as)
    rw [hr] at ha
    cases hr' : h'.read a with
    | none => simp [hr'] at ha
    | some nd' =>
      simp [hr'] at ha
      refine ⟨hpa, nd', hr', ?_⟩
      rw [ha]
      exact ih (fun b hb => hc b (List.mem_cons_of_mem a hb)) hrest

theorem path_head {f : Node α → Ptr} {h : Heap α} {ps : List Nat} {p : Ptr}
    (hp : Path f h p ps none) : p = ps.head? := by
  cases ps with
  | nil => exact hp
  | cons a as => exact hp.1

theorem path_read {f : Node α → Ptr} {h : Heap α} {ps : List Nat} {p q : Ptr}
    (hp : Path f h p ps q) {a : Nat} (ha : a ∈ ps) : ∃ nd, h.read a = some nd := by
  induction ps generalizing p with
  | nil => cases ha
  | cons b bs ih =>
    obtain ⟨_, nd, hr, hrest⟩ := hp
    rcases List.mem_cons.1 ha with rfl | hmem
    · exact ⟨nd, hr⟩
    · exact ih hrest hmem

theorem path_det {f : Node α → Ptr} {h : Heap α} {ps ps' : List Nat} {p : Ptr}
    (hp : Path f h p ps none) (hp' : Path f h p ps' none) : ps = ps' := by
  induction ps generalizing p ps' with
  | nil =>
    cases ps' with
    | nil => rfl
    | cons b bs =>
      have h1 : p = none := hp
      have h2 : p = some b := hp'.1
      rw [h1] at h2
      cases h2
  | cons a as ih =>
    obtain ⟨hpa, nd, hr, hrest⟩ := hp
    cases ps' with
    | nil =>
      have h1 : p = none := hp'
      rw [h1] at hpa
      cases hpa
    | cons b bs =>
      obtain ⟨hpb, nd', hr', hrest'⟩ := hp'
      rw [hpa] at hpb
      cases hpb
      rw [hr] at hr'
      cases hr'
      rw [ih hrest hrest']

theorem path_nodup {f : Node α → Ptr} {h : Heap α} {ps : List Nat} {p : Ptr}
    (hp : Path f h p ps none) : ps.Nodup := by
  induction ps generalizing p with
  | nil => exact List.nodup_nil
  | cons a as ih =>
    obtain ⟨_, nd, hr, hrest⟩ := hp
    refine List.nodup_cons.2 ⟨?_, ih hrest⟩
    intro hmem
    obtain ⟨l1, l2, hsplit⟩ := List.append_of_mem hmem
    have hrest2 := hrest
    rw [hsplit, path_append] at hrest2
    obtain ⟨m, _, _, nd', hr', htail⟩ := hrest2
    rw [hr] at hr'
    cases hr'
    have hlen := congrArg List.length (path_det hrest htail)
    rw [hsplit] at hlen
    simp at hlen
    omega

theorem path_lt {f : Node α → Ptr} {h : Heap α} {ps : List Nat} {p q : Ptr}
    (hp : Path f h p ps q) {a : Nat} (ha : a ∈ ps) : a < h.cells.length := by
  obtain ⟨nd, hr⟩ := path_read hp ha
  exact read_lt hr

theorem path_length_le {f : Node α → Ptr} {h : Heap α} {ps : List Nat} {p : Ptr}
    (hp : Path f h p ps none) : ps.length ≤ h.cells.length := by
  have hsub : ps ⊆ List.range h.cells.length := fun a ha =>
    List.mem_range.2 (path_lt hp ha)
  have := (List.subperm_of_subset (path_nodup hp) hsub).length_le
  simpa using this

theorem walk_eq_some (f : Node α → Ptr) (h : Heap α) (n : Nat) (p : Ptr) (ps : List Nat) :
    walk f h n p = some ps ↔ ps.length = n ∧ Path f h p ps none := by
  induction n generalizing p ps with
  | zero =>
    cases p with
    | none =>
      simp only [walk, Option.some.injEq]
      constructor
      · rintro rfl
        exact ⟨rfl, rfl⟩
      · rintro ⟨hl, _⟩
        exact (List.length_eq_zero.1 hl).symm
    | some a =>
      simp only [walk]
      constructor
      · intro hh
        cases hh
      · rintro ⟨hl, hp⟩
        rw [List.length_eq_zero.1 hl] at hp
        cases hp
  | succ n ih =>
    cases p with
    | none =>
      simp only [walk]
      constructor
      · intro hh
        cases hh
      · rintro ⟨hl, hp⟩
        cases ps with
        | nil => simp at hl
        | cons b bs => cases hp.1
    | some a =>
      simp only [walk]
      cases hr : h.read a with
      | none =>
        simp only
        constructor
        · intro hh
          cases hh
        · rintro ⟨hl, hp⟩
          cases ps with
          | nil => simp at hl
          | cons b bs =>
            obtain ⟨hpb, nd, hr', _⟩ := hp
            cases hpb
            rw [hr] at hr'
            cases hr'
      | some nd =>
        simp only [Option.map_eq_some']
        constructor
        · rintro ⟨as, hw, rfl⟩
          obtain ⟨hl, hp⟩ := (ih _ _).1 hw
          exact ⟨by simp [hl], rfl, nd, hr, hp⟩
        · rintro ⟨hl, hp⟩
          cases ps with
          | nil => simp at hl
          | cons b bs =>
            obtain ⟨hpb, nd', hr', hrest⟩ := hp
            cases hpb
            rw [hr] at hr'
            cases hr'
            exact ⟨bs, (ih _ _).2 ⟨by simpa using hl, hrest⟩, rfl⟩

end Chains

/-! ## The representation of a list -/

section Representation

variable {α : Type}

theorem wellFormed_iff (l : BiDirectionalList) (h : Heap α) :
    WellFormed l h ↔ ∃ ps, Rep l h ps := by
  constructor
  · rintro ⟨_, _, h0, hmax, hsome, hback⟩
    obtain ⟨ps, hps⟩ := Option.isSome_iff_exists.1 hsome
    rw [hps] at hback
    simp only [Option.map_some'] at hback
    obtain ⟨hl, hfwd⟩ := (walk_eq_some _ _ _ _ _).1 hps
    obtain ⟨_, hbwd⟩ := (walk_eq_some _ _ _ _ _).1 hback
    refine ⟨ps, hfwd, hbwd, ?_, hmax⟩
    rw [hl]
    exact (Int.toNat_of_nonneg h0).symm
  · rintro ⟨ps, hfwd, hbwd, hsize, hmax⟩
    have hn : l.size_.toNat = ps.length := by rw [hsize]; simp
    have h1 : walk Node.next_ptr_ h l.size_.toNat l.begin_ptr_ = some ps :=
      (walk_eq_some _ _ _ _ _).2 ⟨hn.symm, hfwd⟩
    have h2 : walk Node.prev_ptr_ h l.size_.toNat l.last_ptr_ = some ps.reverse :=
      (walk_eq_some _ _ _ _ _).2 ⟨by simp [hn], hbwd⟩
    have hb : l.begin_ptr_ = ps.head? := path_head hfwd
    have hl : l.last_ptr_ = ps.getLast? := by
      rw [path_head hbwd, List.head?_reverse]
    refine ⟨?_, ?_, by rw [hsize]; exact Int.ofNat_nonneg _, hmax, ?_, ?_⟩
    · rw [hsize, hb]
      cases ps with
      | nil => simp
      | cons a as =>
        simp only [List.length_cons, List.head?_cons]
        constructor
        · intro hh
          push_cast at hh
          omega
        · intro hh
          cases hh
    · rw [hb, hl]
      simp [List.head?_eq_none_iff, List.getLast?_eq_none_iff]
    · rw [h1]; rfl
    · rw [h1, h2]; rfl

theorem rep_nodes {l : BiDirectionalList} {h : Heap α} {ps : List Nat} (hr : Rep l h ps) :
    nodes l h = ps := by
  obtain ⟨hfwd, _, hsize, _⟩ := hr
  have hn : l.size_.toNat = ps.length := by rw [hsize]; simp
  unfold nodes
  rw [(walk_eq_some _ _ _ _ _).2 ⟨hn.symm, hfwd⟩]
  rfl

theorem rep_nodesBackward {l : BiDirectionalList} {h : Heap α} {ps : List Nat}
    (hr : Rep l h ps) : nodesBackward l h = ps.reverse := by
  obtain ⟨_, hbwd, hsize, _⟩ := hr
  have hn : l.size_.toNat = ps.length := by rw [hsize]; simp
  unfold nodesBackward
  rw [(walk_eq_some _ _ _ _ _).2 ⟨by simp [hn], hbwd⟩]
  rfl

theorem rep_of_wellFormed {l : BiDirectionalList} {h : Heap α} (hw : WellFormed l h) :
    Rep l h (nodes l h) := by
  obtain ⟨ps, hr⟩ := (wellFormed_iff l h).1 hw
  rw [rep_nodes hr]
  exact hr

theorem rep_unique {l : BiDirectionalList} {h : Heap α} {ps ps' : List Nat}
    (hr : Rep l h ps) (hr' : Rep l h ps') : ps = ps' :=
  path_det hr.1 hr'.1

theorem rep_nodup {l : BiDirectionalList} {h : Heap α} {ps : List Nat} (hr : Rep l h ps) :
    ps.Nodup := path_nodup hr.1

theorem rep_begin {l : BiDirectionalList} {h : Heap α} {ps : List Nat} (hr : Rep l h ps) :
    l.begin_ptr_ = ps.head? := path_head hr.1

theorem rep_last {l : BiDirectionalList} {h : Heap α} {ps : List Nat} (hr : Rep l h ps) :
    l.last_ptr_ = ps.getLast? := by
  rw [path_head hr.2.1, List.head?_reverse]

theorem rep_size {l : BiDirectionalList} {h : Heap α} {ps : List Nat} (hr : Rep l h ps) :
    l.size_ = ps.length := hr.2.2.1

theorem rep_le {l : BiDirectionalList} {h : Heap α} {ps : List Nat} (hr : Rep l h ps) :
    l.size_ ≤ INT_MAX := hr.2.2.2

theorem pred_le_INT_MAX {n : Int} (hn : n ≤ INT_MAX) : n - 1 ≤ INT_MAX := by
  unfold INT_MAX at *
  omega

theorem succ_le_INT_MAX {n : Int} (hn : n < INT_MAX) : n + 1 ≤ INT_MAX := by
  unfold INT_MAX at *
  omega

theorem increment_ok (σ : Type) {n : Int} (hn : n < INT_MAX) :
    (increment n : Except (Fault σ) Int) = .ok (n + 1) := by
  unfold increment
  rw [if_pos hn]

theorem increment_overflow (σ : Type) {n : Int} (hn : ¬ n < INT_MAX) :
    (increment n : Except (Fault σ) Int) = .error .undefinedBehaviour := by
  unfold increment
  rw [if_neg hn]

theorem rep_nil_iff (l : BiDirectionalList) (h : Heap α) :
    Rep l h [] ↔ l.begin_ptr_ = none ∧ l.last_ptr_ = none ∧ l.size_ = 0 := by
  simp only [Rep, path_nil, List.reverse_nil, List.length_nil, Nat.cast_zero]
  constructor
  · rintro ⟨h1, h2, h3, _⟩
    exact ⟨h1, h2, h3⟩
  · rintro ⟨h1, h2, h3⟩
    exact ⟨h1, h2, h3, by rw [h3]; decide⟩

/-- The view of a chain from one of its nodes `e`: the node itself, the two
chains leading to it and the two chains leaving it. -/
theorem rep_zip (l : BiDirectionalList) (h : Heap α) (xs ys : List Nat) (e : Nat) :
    Rep l h (xs ++ e :: ys) ↔
      ∃ nd, h.read e = some nd ∧
        Path Node.next_ptr_ h l.begin_ptr_ xs (some e) ∧
        Path Node.next_ptr_ h nd.next_ptr_ ys none ∧
        Path Node.prev_ptr_ h l.last_ptr_ ys.reverse (some e) ∧
        Path Node.prev_ptr_ h nd.prev_ptr_ xs.reverse none ∧
        l.size_ = xs.length + 1 + ys.length ∧ l.size_ ≤ INT_MAX := by
  unfold Rep
  rw [List.reverse_append, List.reverse_cons, List.append_assoc, path_append, path_append]
  simp only [List.singleton_append, path_cons, List.length_append, List.length_cons]
  constructor
  · rintro ⟨⟨m, h1, rfl, nd, hr, h2⟩, ⟨m', h3, rfl, nd', hr', h4⟩, hs, hmax⟩
    rw [hr] at hr'
    cases hr'
    exact ⟨nd, hr, h1, h2, h3, h4, by rw [hs]; push_cast; ring, hmax⟩
  · rintro ⟨nd, hr, h1, h2, h3, h4, hs, hmax⟩
    exact ⟨⟨some e, h1, rfl, nd, hr, h2⟩, ⟨some e, h3, rfl, nd, hr, h4⟩,
      by rw [hs]; push_cast; ring, hmax⟩

theorem rep_read {l : BiDirectionalList} {h : Heap α} {xs ys : List Nat} {e : Nat}
    (hr : Rep l h (xs ++ e :: ys)) :
    ∃ nd, h.read e = some nd ∧ nd.next_ptr_ = ys.head? ∧ nd.prev_ptr_ = xs.getLast? := by
  obtain ⟨nd, hrd, _, h2, _, h4, _⟩ := (rep_zip l h xs ys e).1 hr
  refine ⟨nd, hrd, path_head h2, ?_⟩
  rw [path_head h4, List.head?_reverse]

theorem rep_lt {l : BiDirectionalList} {h : Heap α} {ps : List Nat} (hr : Rep l h ps)
    {a : Nat} (ha : a ∈ ps) : a < h.cells.length := path_lt hr.1 ha

theorem rep_fresh {l : BiDirectionalList} {h : Heap α} {ps : List Nat} (hr : Rep l h ps) :
    h.cells.length ∉ ps := fun hm => lt_irrefl _ (rep_lt hr hm)

theorem vals_nil (h : Heap α) : vals h [] = [] := rfl

theorem vals_append (h : Heap α) (xs ys : List Nat) :
    vals h (xs ++ ys) = vals h xs ++ vals h ys := by
  simp [vals, List.filterMap_append]

theorem vals_cons {h : Heap α} {a : Nat} {nd : Node α} (hr : h.read a = some nd)
    (as : List Nat) : vals h (a :: as) = nd.value :: vals h as := by
  simp [vals, List.filterMap_cons, hr]

theorem vals_congr {h h' : Heap α} {ps : List Nat}
    (hc : ∀ a ∈ ps, (h'.read a).map Node.value = (h.read a).map Node.value) :
    vals h' ps = vals h ps := by
  unfold vals
  exact List.filterMap_congr hc

theorem vals_length {f : Node α → Ptr} {h : Heap α} {ps : List Nat} {p q : Ptr}
    (hp : Path f h p ps q) : (vals h ps).length = ps.length := by
  induction ps generalizing p with
  | nil => rfl
  | cons a as ih =>
    obtain ⟨_, nd, hr, hrest⟩ := hp
    rw [vals_cons hr]
    simp [ih hrest]

theorem toVectorLoop_path {h : Heap α} {ps : List Nat} {p : Ptr}
    (hp : Path Node.next_ptr_ h p ps none) (fuel : Nat) (hf : ps.length < fuel)
    (result : List α) : toVectorLoop h fuel p result = .ok (result ++ vals h ps) := by
  induction ps generalizing p fuel result with
  | nil =>
    have hp0 : p = none := hp
    subst hp0
    cases fuel <;> simp [toVectorLoop, vals_nil]
  | cons a as ih =>
    obtain ⟨hpa, nd, hr, hrest⟩ := hp
    subst hpa
    cases fuel with
    | zero => simp at hf
    | succ fuel =>
      simp only [toVectorLoop, hr]
      rw [ih hrest fuel (by simpa using hf), vals_cons hr]
      simp

theorem ToVector_rep {l : BiDirectionalList} {h : Heap α} {ps : List Nat} (hr : Rep l h ps) :
    ToVector l h = .ok (vals h ps) := by
  unfold ToVector
  rw [if_neg (by rw [rep_size hr]; omega),
    toVectorLoop_path hr.1 _ (Nat.lt_succ_of_le (path_length_le hr.1))]
  simp

end Representation

/-! ## The member functions on a represented list -/

section Operations

variable {α : Type}

theorem rep_last_iff {l : BiDirectionalList} {h : Heap α} {xs ys : List Nat} {e : Nat}
    (hr : Rep l h (xs ++ e :: ys)) : some e = l.last_ptr_ ↔ ys = [] := by
  have hnd := rep_nodup hr
  rw [rep_last hr]
  constructor
  · intro he
    cases ys with
    | nil => rfl
    | cons b ys0 =>
      exfalso
      have hmem : e ∈ (xs ++ e :: b :: ys0).getLast? := he.symm
      rw [List.getLast?_append, List.getLast?_cons_cons] at hmem
      have hsome : ((b :: ys0).getLast?).isSome = true := by simp [List.getLast?_cons]
      obtain ⟨c, hc⟩ := Option.isSome_iff_exists.1 hsome
      rw [hc] at hmem
      simp only [Option.or_some, Option.mem_def, Option.some.injEq] at hmem
      subst hmem
      have : c ∈ b :: ys0 := List.mem_of_mem_getLast? hc
      simp [List.nodup_append] at hnd
      simp at this
      tauto
  · rintro rfl
    simp

theorem rep_begin_iff {l : BiDirectionalList} {h : Heap α} {xs ys : List Nat} {e : Nat}
    (hr : Rep l h (xs ++ e :: ys)) : some e = l.begin_ptr_ ↔ xs = [] := by
  have hnd := rep_nodup hr
  rw [rep_begin hr]
  constructor
  · intro he
    cases xs with
    | nil => rfl
    | cons b xs0 =>
      exfalso
      simp at he
      subst he
      simp [List.nodup_append] at hnd
  · rintro rfl
    simp

theorem PopFront_rep {l : BiDirectionalList} {h : Heap α} {e : Nat} {ys : List Nat}
    (hr : Rep l h (e :: ys)) :
    ∃ l' h', PopFront l h = .ok (l', h') ∧ Rep l' h' ys ∧ vals h' ys = vals h ys ∧
      l'.size_ = l.size_ - 1 ∧
      (∀ x, x ∉ e :: ys → h'.read x = h.read x) ∧ h'.read e = none ∧
      h'.cells.length = h.cells.length := by
  have hnd := rep_nodup hr
  obtain ⟨nd, hre, h1, h2, h3, h4, hs, hmax⟩ := (rep_zip l h [] ys e).1 hr
  have hb : l.begin_ptr_ = some e := h1
  cases ys with
  | nil =>
    have hn : nd.next_ptr_ = none := h2
    refine ⟨⟨none, none, l.size_ - 1⟩, h.free e, ?_, ?_, rfl, rfl, ?_, ?_, ?_⟩
    · simp [PopFront, hb, deref_ok _ hre, delete_ok _ hre, hn]
    · exact (rep_nil_iff _ _).2 ⟨rfl, rfl, by simp at hs; simp [hs]⟩
    · intro x hx
      have : x ≠ e := by simpa using hx
      simp [read_free, this]
    · simp [read_free]
    · simp
  | cons b ys0 =>
    obtain ⟨hnb, nb, hrb, h2'⟩ := h2
    have hbe : b ≠ e := by
      intro hh; subst hh; simp at hnd
    have hrb1 : (h.free e).read b = some nb := by simp [read_free, hbe, hrb]
    have hread : ∀ x, ((h.free e).write b { nb with prev_ptr_ := none }).read x =
        if x = b then some { nb with prev_ptr_ := none } else if x = e then none
        else h.read x := by
      intro x
      by_cases hxb : x = b
      · subst hxb; simp [read_write_self hrb1]
      · simp [read_write_ne _ hxb, read_free, hxb]
    refine ⟨⟨some b, l.last_ptr_, l.size_ - 1⟩,
      (h.free e).write b { nb with prev_ptr_ := none }, ?_, ?_, ?_, rfl, ?_, ?_, ?_⟩
    · simp [PopFront, hb, deref_ok _ hre, delete_ok _ hre, hnb, setPrev_ok _ hrb1]
    · refine (rep_zip _ _ [] ys0 b).2
        ⟨{ nb with prev_ptr_ := none }, by simp [hread], rfl, ?_, ?_, rfl, ?_⟩
      · refine path_congr ?_ h2'
        intro a ha
        have hab : a ≠ b := by rintro rfl; simp_all
        have hae : a ≠ e := by rintro rfl; simp_all
        simp [hread, hab, hae]
      · simp only [List.reverse_cons] at h3
        obtain ⟨h3', _⟩ := (path_snoc _ _ _ _ _ _).1 h3
        refine path_congr ?_ h3'
        intro a ha
        have ha' : a ∈ ys0 := by simpa using ha
        have hab : a ≠ b := by rintro rfl; simp_all
        have hae : a ≠ e := by rintro rfl; simp_all
        simp [hread, hab, hae]
      · exact ⟨by simp at hs ⊢; rw [hs]; ring, pred_le_INT_MAX hmax⟩
    · have hv : vals h (b :: ys0) = nb.value :: vals h ys0 := vals_cons hrb _
      rw [hv, vals_cons (by simp [hread] : _ = some { nb with prev_ptr_ := none })]
      congr 1
      apply vals_congr
      intro a ha
      have hab : a ≠ b := by rintro rfl; simp_all
      have hae : a ≠ e := by rintro rfl; simp_all
      simp [hread, hab, hae]
    · intro x hx
      simp at hx
      simp [hread, hx]
    · simp [hread, hbe.symm]
    · simp

theorem PopBack_rep {l : BiDirectionalList} {h : Heap α} {e : Nat} {xs : List Nat}
    (hr : Rep l h (xs ++ [e])) :
    ∃ l' h', PopBack l h = .ok (l', h') ∧ Rep l' h' xs ∧ vals h' xs = vals h xs ∧
      l'.size_ = l.size_ - 1 ∧
      (∀ x, x ∉ xs ++ [e] → h'.read x = h.read x) ∧ h'.read e = none ∧
      h'.cells.length = h.cells.length := by
  have hnd := rep_nodup hr
  obtain ⟨nd, hre, h1, h2, h3, h4, hs, hmax⟩ := (rep_zip l h xs [] e).1 hr
  have hb : l.last_ptr_ = some e := h3
  rcases List.eq_nil_or_concat xs with rfl | ⟨xs0, a, rfl⟩
  · have hn : nd.prev_ptr_ = none := h4
    refine ⟨⟨none, none, l.size_ - 1⟩, h.free e, ?_, ?_, rfl, rfl, ?_, ?_, ?_⟩
    · simp [PopBack, hb, deref_ok _ hre, delete_ok _ hre, hn]
    · exact (rep_nil_iff _ _).2 ⟨rfl, rfl, by simp at hs; simp [hs]⟩
    · intro x hx
      have : x ≠ e := by simpa using hx
      simp [read_free, this]
    · simp [read_free]
    · simp
  · rw [List.concat_eq_append] at *
    rw [List.reverse_append] at h4
    obtain ⟨hna, na, hra, h4'⟩ := h4
    obtain ⟨h1', _⟩ := (path_snoc _ _ _ _ _ _).1 h1
    have hae : a ≠ e := by
      rintro rfl; simp [List.nodup_append] at hnd
    have hra1 : (h.free e).read a = some na := by simp [read_free, hae, hra]
    have hread : ∀ x, ((h.free e).write a { na with next_ptr_ := none }).read x =
        if x = a then some { na with next_ptr_ := none } else if x = e then none
        else h.read x := by
      intro x
      by_cases hxa : x = a
      · subst hxa; simp [read_write_self hra1]
      · simp [read_write_ne _ hxa, read_free, hxa]
    have hne : ∀ x ∈ xs0, x ≠ a ∧ x ≠ e := by
      intro x hx
      constructor <;> rintro rfl <;> simp [List.nodup_append] at hnd <;> tauto
    refine ⟨⟨l.begin_ptr_, some a, l.size_ - 1⟩,
      (h.free e).write a { na with next_ptr_ := none }, ?_, ?_, ?_, rfl, ?_, ?_, ?_⟩
    · simp [PopBack, hb, deref_ok _ hre, delete_ok _ hre, hna, setNext_ok _ hra1]
    · refine (rep_zip _ _ xs0 [] a).2
        ⟨{ na with next_ptr_ := none }, by simp [hread], ?_, rfl, rfl, ?_, ?_⟩
      · refine path_congr ?_ h1'
        intro x hx
        simp [hread, hne x hx]
      · refine path_congr ?_ h4'
        intro x hx
        simp [hread, hne x (by simpa using hx)]
      · exact ⟨by simp at hs ⊢; rw [hs]; ring, pred_le_INT_MAX hmax⟩
    · rw [vals_append, vals_append, vals_cons hra,
        vals_cons (by simp [hread] : _ = some { na with next_ptr_ := none })]
      congr 1
      apply vals_congr
      intro x hx
      simp [hread, hne x hx]
    · intro x hx
      simp at hx
      simp [hread, hx]
    · simp [hread, hae.symm]
    · simp

theorem Erase_last {l : BiDirectionalList} {h : Heap α} {xs : List Nat} {e : Nat}
    (hr : Rep l h (xs ++ [e])) : Erase l h (some e) = PopBack l h := by
  have := (rep_last_iff hr).2 rfl
  unfold Erase
  rw [if_neg (by simp), if_pos this]

theorem Erase_first {l : BiDirectionalList} {h : Heap α} {ys : List Nat} {e b : Nat}
    (hr : Rep l h (e :: b :: ys)) : Erase l h (some e) = PopFront l h := by
  have h1 : ¬ some e = l.last_ptr_ := by
    rw [rep_last_iff (show Rep l h ([] ++ e :: b :: ys) from hr)]; simp
  have h2 : some e = l.begin_ptr_ :=
    (rep_begin_iff (show Rep l h ([] ++ e :: b :: ys) from hr)).2 rfl
  unfold Erase
  rw [if_neg (by simp), if_neg h1, if_pos h2]

theorem Erase_rep {l : BiDirectionalList} {h : Heap α} {e : Nat} {xs ys : List Nat}
    (hr : Rep l h (xs ++ e :: ys)) :
    ∃ l' h', Erase l h (some e) = .ok (l', h') ∧ Rep l' h' (xs ++ ys) ∧
      vals h' (xs ++ ys) = vals h xs ++ vals h ys ∧
      l'.size_ = l.size_ - 1 ∧
      (∀ x, x ∉ xs ++ e :: ys → h'.read x = h.read x) ∧ h'.read e = none ∧
      h'.cells.length = h.cells.length := by
  cases ys with
  | nil =>
    obtain ⟨l', h', hop, hrep, hv, hsz, hfr, hre, hlen⟩ := PopBack_rep hr
    refine ⟨l', h', by rw [Erase_last hr, hop], by simpa using hrep, ?_, hsz, hfr, hre, hlen⟩
    simp [hv, vals_nil]
  | cons b ys0 =>
    rcases List.eq_nil_or_concat xs with rfl | ⟨xs0, a, rfl⟩
    · obtain ⟨l', h', hop, hrep, hv, hsz, hfr, hre, hlen⟩ := PopFront_rep (by simpa using hr)
      refine ⟨l', h', by rw [Erase_first (by simpa using hr), hop], by simpa using hrep,
        ?_, hsz, by simpa using hfr, hre, hlen⟩
      simp [hv, vals_nil]
    · rw [List.concat_eq_append] at *
      have hnd := rep_nodup hr
      obtain ⟨nd, hre, h1, h2, h3, h4, hs, hmax⟩ := (rep_zip l h _ _ e).1 hr
      have hnl : ¬ some e = l.last_ptr_ := by
        rw [rep_last_iff hr]; simp
      have hnb : ¬ some e = l.begin_ptr_ := by
        rw [rep_begin_iff hr]; simp
      obtain ⟨hnb', nb, hrb, h2'⟩ := h2
      rw [List.reverse_append] at h4
      obtain ⟨hna', na, hra, h4'⟩ := h4
      obtain ⟨h1', _⟩ := (path_snoc _ _ _ _ _ _).1 h1
      rw [List.reverse_cons] at h3
      obtain ⟨h3', _⟩ := (path_snoc _ _ _ _ _ _).1 h3
      have hab : a ≠ b := by rintro rfl; simp [List.nodup_append] at hnd
      have hae : a ≠ e := by rintro rfl; simp [List.nodup_append] at hnd
      have hbe : b ≠ e := by rintro rfl; simp [List.nodup_append] at hnd
      have hnx : ∀ x ∈ xs0, x ≠ a ∧ x ≠ b ∧ x ≠ e := by
        intro x hx
        refine ⟨?_, ?_, ?_⟩ <;> rintro rfl <;> simp [List.nodup_append] at hnd <;> tauto
      have hny : ∀ x ∈ ys0, x ≠ a ∧ x ≠ b ∧ x ≠ e := by
        intro x hx
        refine ⟨?_, ?_, ?_⟩ <;> rintro rfl <;> simp [List.nodup_append] at hnd <;> tauto
      let h1s := h.write b { nb with prev_ptr_ := some a }
      have hr1e : h1s.read e = some nd := by
        simp [h1s, read_write_ne _ hbe.symm, hre]
      have hr1a : h1s.read a = some na := by
        simp [h1s, read_write_ne _ hab, hra]
      let h2s := h1s.write a { na with next_ptr_ := some b }
      have hr2e : h2s.read e = some nd := by
        simp [h2s, read_write_ne _ hae.symm, hr1e]
      have hread : ∀ x, (h2s.free e).read x =
          if x = e then none else if x = a then some { na with next_ptr_ := some b }
          else if x = b then some { nb with prev_ptr_ := some a } else h.read x := by
        intro x
        rw [read_free]
        by_cases hxe : x = e
        · simp [hxe]
        · by_cases hxa : x = a
          · subst hxa; simp [hxe, h2s, read_write_self hr1a]
          · by_cases hxb : x = b
            · subst hxb
              simp [hxe, hxa, h2s, h1s, read_write_ne _ hxa, read_write_self hrb]
            · simp [hxe, hxa, hxb, h2s, h1s, read_write_ne _ hxa, read_write_ne _ hxb]
      have hra' : (h2s.free e).read a = some { na with next_ptr_ := some b } := by
        simp [hread, hae]
      have hrb' : (h2s.free e).read b = some { nb with prev_ptr_ := some a } := by
        simp [hread, hbe, hab.symm]
      refine ⟨{ l with size_ := l.size_ - 1 }, h2s.free e, ?_, ?_, ?_, rfl, ?_, ?_, ?_⟩
      · simp [Erase, hnl, hnb, deref_ok _ hre, hnb', hna', setPrev_ok _ hrb, deref_ok _ hr1e,
          setNext_ok _ hr1a, delete_ok _ hr2e, h2s, h1s]
      · rw [List.append_assoc]
        refine (rep_zip _ _ xs0 (b :: ys0) a).2
          ⟨{ na with next_ptr_ := some b }, hra', ?_, ?_, ?_, ?_, ?_⟩
        · refine path_congr ?_ h1'
          intro x hx
          simp [hread, hnx x hx]
        · refine ⟨rfl, { nb with prev_ptr_ := some a }, hrb', ?_⟩
          refine path_congr ?_ h2'
          intro x hx
          simp [hread, hny x hx]
        · rw [List.reverse_cons]
          refine (path_snoc _ _ _ _ _ _).2 ⟨?_, { nb with prev_ptr_ := some a }, hrb', rfl⟩
          refine path_congr ?_ h3'
          intro x hx
          simp [hread, hny x (by simpa using hx)]
        · refine path_congr ?_ h4'
          intro x hx
          simp [hread, hnx x (by simpa using hx)]
        · exact ⟨by simp at hs ⊢; rw [hs]; ring, pred_le_INT_MAX hmax⟩
      · have e1 : vals (h2s.free e) xs0 = vals h xs0 := by
          apply vals_congr
          intro x hx
          simp [hread, hnx x hx]
        have e2 : vals (h2s.free e) ys0 = vals h ys0 := by
          apply vals_congr
          intro x hx
          simp [hread, hny x hx]
        simp only [vals_append, List.append_assoc]
        rw [vals_cons hra, vals_cons hrb, vals_cons hra', vals_cons hrb', e1, e2]
        simp [vals_nil]
      · intro x hx
        simp at hx
        simp [hread, hx]
      · simp [hread]
      · simp [h2s, h1s]

theorem InsertBefore_rep {l : BiDirectionalList} {h : Heap α} {e : Nat} {xs ys : List Nat}
    (hr : Rep l h (xs ++ e :: ys)) (v : α) (hlt : l.size_ < INT_MAX) :
    ∃ l' h', InsertBefore l h (some e) v = .ok (l', h') ∧
      Rep l' h' (xs ++ h.cells.length :: e :: ys) ∧
      vals h' (xs ++ h.cells.length :: e :: ys) = vals h xs ++ v :: vals h (e :: ys) ∧
      l'.size_ = l.size_ + 1 ∧
      (∀ x, x ∉ xs ++ e :: ys → x ≠ h.cells.length → h'.read x = h.read x) ∧
      h'.read h.cells.length = some ⟨v, xs.getLast?, some e⟩ ∧
      h'.cells.length = h.cells.length + 1 := by
  have hnd := rep_nodup hr
  have hfresh := rep_fresh hr
  obtain ⟨nd, hre, h1, h2, h3, h4, hs, hmax⟩ := (rep_zip l h _ _ e).1 hr
  have heq : e ≠ h.cells.length := by rintro rfl; simp at hfresh
  have hny : ∀ x ∈ ys, x ≠ e ∧ x ≠ h.cells.length := by
    intro x hx
    constructor <;> rintro rfl <;> simp [List.nodup_append] at hnd hfresh <;> tauto
  have hfwd : Path Node.next_ptr_ h (some e) (e :: ys) none := ⟨rfl, nd, hre, h2⟩
  rcases List.eq_nil_or_concat xs with rfl | ⟨xs0, a, rfl⟩
  · have hb : some e = l.begin_ptr_ := (rep_begin_iff hr).2 rfl
    have hp : nd.prev_ptr_ = none := h4
    let nq : Node α := ⟨v, none, some e⟩
    let h1s := (h.alloc nq).2
    have hr1e : h1s.read e = some nd := by
      simp [h1s, read_alloc, heq, hre]
    let h2s := h1s.write e { nd with prev_ptr_ := some h.cells.length }
    have hread : ∀ x, h2s.read x =
        if x = e then some { nd with prev_ptr_ := some h.cells.length }
        else if x = h.cells.length then some nq else h.read x := by
      intro x
      by_cases hxe : x = e
      · subst hxe; simp [h2s, read_write_self hr1e]
      · simp [h2s, h1s, read_write_ne _ hxe, read_alloc, hxe]
    have hre' : h2s.read e = some { nd with prev_ptr_ := some h.cells.length } := by
      simp [hread]
    have hrq' : h2s.read h.cells.length = some nq := by
      simp [hread, heq.symm]
    refine ⟨{ l with begin_ptr_ := some h.cells.length, size_ := l.size_ + 1 }, h2s,
      ?_, ?_, ?_, rfl, ?_, by simpa [nq] using hrq', ?_⟩
    · unfold InsertBefore
      rw [if_neg (by simp)]
      rw [increment_ok (State α) hlt]
      simp only [bind_ok, pure_eq_ok, if_pos hb]
      have hsp := setPrev_ok (State α) hr1e (some h.cells.length)
      have hd := deref_ok (State α) hre'
      simp only [h2s, h1s, nq, Heap.alloc] at hsp hd ⊢
      rw [hsp]
      simp only [bind_ok]
      rw [hd]
      rfl
    · refine (rep_zip _ _ [] (e :: ys) _).2 ⟨nq, hrq', rfl, ?_, ?_, rfl, ?_⟩
      · refine path_congr ?_ hfwd
        intro x hx
        rcases List.mem_cons.1 hx with rfl | hx
        · simp [hread, hre]
        · simp [hread, hny x hx]
      · rw [List.reverse_cons]
        refine (path_snoc _ _ _ _ _ _).2 ⟨?_, _, hre', rfl⟩
        refine path_congr ?_ h3
        intro x hx
        simp [hread, hny x (by simpa using hx)]
      · exact ⟨by simp at hs ⊢; rw [hs]; ring, succ_le_INT_MAX hlt⟩
    · have e2 : vals h2s ys = vals h ys := by
        apply vals_congr
        intro x hx
        simp [hread, hny x hx]
      simp only [List.nil_append]
      rw [vals_cons hrq', vals_cons hre', vals_cons hre, e2]
      simp [vals_nil, nq]
    · intro x hx hxq
      simp at hx
      simp [hread, hx, hxq]
    · simp [h2s, h1s]
  · rw [List.concat_eq_append] at *
    have hnb : ¬ some e = l.begin_ptr_ := by
      rw [rep_begin_iff hr]; simp
    rw [List.reverse_append] at h4
    obtain ⟨hna', na, hra, h4'⟩ := h4
    obtain ⟨h1', _⟩ := (path_snoc _ _ _ _ _ _).1 h1
    have hae : a ≠ e := by rintro rfl; simp [List.nodup_append] at hnd
    have haq : a ≠ h.cells.length := by rintro rfl; simp at hfresh
    have hnx : ∀ x ∈ xs0, x ≠ a ∧ x ≠ e ∧ x ≠ h.cells.length := by
      intro x hx
      refine ⟨?_, ?_, ?_⟩ <;> rintro rfl <;> simp [List.nodup_append] at hnd hfresh <;> tauto
    have hny' : ∀ x ∈ ys, x ≠ a := by
      intro x hx
      rintro rfl
      simp [List.nodup_append] at hnd
      tauto
    let nq : Node α := ⟨v, some a, some e⟩
    let h1s := (h.alloc nq).2
    have hr1e : h1s.read e = some nd := by
      simp [h1s, read_alloc, heq, hre]
    have hr1a : h1s.read a = some na := by
      simp [h1s, read_alloc, haq, hra]
    let h2s := h1s.write a { na with next_ptr_ := some h.cells.length }
    have hr2e : h2s.read e = some nd := by
      simp [h2s, read_write_ne _ hae.symm, hr1e]
    have hr2a : h2s.read a = some { na with next_ptr_ := some h.cells.length } := by
      simp [h2s, read_write_self hr1a]
    let h3s := h2s.write e { nd with prev_ptr_ := some h.cells.length }
    have hread : ∀ x, h3s.read x =
        if x = e then some { nd with prev_ptr_ := some h.cells.length }
        else if x = a then some { na with next_ptr_ := some h.cells.length }
        else if x = h.cells.length then some nq else h.read x := by
      intro x
      by_cases hxe : x = e
      · subst hxe; simp [h3s, read_write_self hr2e]
      · by_cases hxa : x = a
        · subst hxa; simp [h3s, read_write_ne _ hxe, hr2a, hxe]
        · simp [h3s, h2s, h1s, read_write_ne _ hxe, read_write_ne _ hxa, read_alloc, hxe, hxa]
    have hre' : h3s.read e = some { nd with prev_ptr_ := some h.cells.length } := by
      simp [hread]
    have hra' : h3s.read a = some { na with next_ptr_ := some h.cells.length } := by
      simp [hread, hae]
    have hrq' : h3s.read h.cells.length = some nq := by
      simp [hread, heq.symm, haq.symm]
    refine ⟨{ l with size_ := l.size_ + 1 }, h3s,
      ?_, ?_, ?_, rfl, ?_, by simpa [nq] using hrq', ?_⟩
    · unfold InsertBefore
      rw [if_neg (by simp)]
      rw [increment_ok (State α) hlt]
      simp only [bind_ok, pure_eq_ok, if_neg hnb]
      have hd0 := deref_ok (State α) hre
      have hd1 := deref_ok (State α) hr1e
      have hsn := setNext_ok (State α) hr1a (some h.cells.length)
      have hd2 := deref_ok (State α) hr2e
      have hd3 := deref_ok (State α) hr2a
      have hsp := setPrev_ok (State α) hr2e (some h.cells.length)
      simp only [h3s, h2s, h1s, nq, Heap.alloc] at hd1 hsn hd2 hd3 hsp ⊢
      rw [hd0]
      simp only [bind_ok, hna']
      rw [hd1]
      simp only [bind_ok, hna']
      rw [hsn]
      simp only [bind_ok]
      rw [hd2]
      simp only [bind_ok, hna']
      rw [hd3]
      simp only [bind_ok]
      rw [hsp]
      rfl
    · refine (rep_zip _ _ (xs0 ++ [a]) (e :: ys) _).2 ⟨nq, hrq', ?_, ?_, ?_, ?_, ?_⟩
      · refine (path_snoc _ _ _ _ _ _).2 ⟨?_, _, hra', rfl⟩
        refine path_congr ?_ h1'
        intro x hx
        simp [hread, hnx x hx]
      · refine path_congr ?_ hfwd
        intro x hx
        rcases List.mem_cons.1 hx with rfl | hx
        · simp [hread, hre]
        · simp [hread, hny x hx, hny' x hx]
      · rw [List.reverse_cons]
        refine (path_snoc _ _ _ _ _ _).2 ⟨?_, _, hre', rfl⟩
        refine path_congr ?_ h3
        intro x hx
        simp [hread, hny x (by simpa using hx), hny' x (by simpa using hx)]
      · rw [List.reverse_append]
        refine ⟨rfl, _, hra', ?_⟩
        refine path_congr ?_ h4'
        intro x hx
        simp [hread, hnx x (by simpa using hx)]
      · exact ⟨by simp at hs ⊢; rw [hs]; ring, succ_le_INT_MAX hlt⟩
    · have e1 : vals h3s xs0 = vals h xs0 := by
        apply vals_congr
        intro x hx
        simp [hread, hnx x hx]
      have e2 : vals h3s ys = vals h ys := by
        apply vals_congr
        intro x hx
        simp [hread, hny x hx, hny' x hx]
      simp only [vals_append, List.append_assoc]
      rw [vals_cons hra', vals_cons hrq', vals_cons hre', vals_cons hre, vals_cons hra, e1, e2]
      simp [vals_nil, nq]
    · intro x hx hxq
      simp at hx
      simp [hread, hx, hxq]
    · simp [h3s, h2s, h1s]

theorem InsertAfter_rep {l : BiDirectionalList} {h : Heap α} {e : Nat} {xs ys : List Nat}
    (hr : Rep l h (xs ++ e :: ys)) (v : α) (hlt : l.size_ < INT_MAX) :
    ∃ l' h', InsertAfter l h (some e) v = .ok (l', h') ∧
      Rep l' h' (xs ++ e :: h.cells.length :: ys) ∧
      vals h' (xs ++ e :: h.cells.length :: ys) = vals h (xs ++ [e]) ++ v :: vals h ys ∧
      l'.size_ = l.size_ + 1 ∧
      (∀ x, x ∉ xs ++ e :: ys → x ≠ h.cells.length → h'.read x = h.read x) ∧
      h'.read h.cells.length = some ⟨v, some e, ys.head?⟩ ∧
      h'.cells.length = h.cells.length + 1 := by
  have hnd := rep_nodup hr
  have hfresh := rep_fresh hr
  obtain ⟨nd, hre, h1, h2, h3, h4, hs, hmax⟩ := (rep_zip l h _ _ e).1 hr
  have heq : e ≠ h.cells.length := by rintro rfl; simp at hfresh
  have hnx : ∀ x ∈ xs, x ≠ e ∧ x ≠ h.cells.length := by
    intro x hx
    constructor <;> rintro rfl <;> simp [List.nodup_append] at hnd hfresh <;> tauto
  have hbwd : Path Node.prev_ptr_ h (some e) (e :: xs.reverse) none := ⟨rfl, nd, hre, h4⟩
  have hlist : xs ++ e :: h.cells.length :: ys = (xs ++ [e]) ++ h.cells.length :: ys := by
    simp
  rw [hlist]
  cases ys with
  | nil =>
    have hb : some e = l.last_ptr_ := (rep_last_iff hr).2 rfl
    have hp : nd.next_ptr_ = none := h2
    let nq : Node α := ⟨v, some e, none⟩
    let h1s := (h.alloc nq).2
    have hr1e : h1s.read e = some nd := by
      simp [h1s, read_alloc, heq, hre]
    let h2s := h1s.write e { nd with next_ptr_ := some h.cells.length }
    have hread : ∀ x, h2s.read x =
        if x = e then some { nd with next_ptr_ := some h.cells.length }
        else if x = h.cells.length then some nq else h.read x := by
      intro x
      by_cases hxe : x = e
      · subst hxe; simp [h2s, read_write_self hr1e]
      · simp [h2s, h1s, read_write_ne _ hxe, read_alloc, hxe]
    have hre' : h2s.read e = some { nd with next_ptr_ := some h.cells.length } := by
      simp [hread]
    have hrq' : h2s.read h.cells.length = some nq := by
      simp [hread, heq.symm]
    refine ⟨{ l with last_ptr_ := some h.cells.length, size_ := l.size_ + 1 }, h2s,
      ?_, ?_, ?_, rfl, ?_, by simpa [nq] using hrq', ?_⟩
    · unfold InsertAfter
      rw [if_neg (by simp)]
      rw [increment_ok (State α) hlt]
      simp only [bind_ok, pure_eq_ok, if_pos hb]
      have hsp := setNext_ok (State α) hr1e (some h.cells.length)
      have hd := deref_ok (State α) hre'
      simp only [h2s, h1s, nq, Heap.alloc] at hsp hd ⊢
      rw [hsp]
      simp only [bind_ok]
      rw [hd]
      rfl
    · refine (rep_zip _ _ (xs ++ [e]) [] _).2 ⟨nq, hrq', ?_, rfl, rfl, ?_, ?_⟩
      · refine (path_snoc _ _ _ _ _ _).2 ⟨?_, _, hre', rfl⟩
        refine path_congr ?_ h1
        intro x hx
        simp [hread, hnx x hx]
      · rw [List.reverse_append]
        refine path_congr ?_ hbwd
        intro x hx
        rcases List.mem_cons.1 hx with rfl | hx
        · simp [hread, hre]
        · simp [hread, hnx x (by simpa using hx)]
      · exact ⟨by simp at hs ⊢; rw [hs], succ_le_INT_MAX hlt⟩
    · have e1 : vals h2s xs = vals h xs := by
        apply vals_congr
        intro x hx
        simp [hread, hnx x hx]
      simp only [vals_append]
      rw [vals_cons hrq', vals_cons hre', vals_cons hre, e1]
      simp [vals_nil, nq]
    · intro x hx hxq
      simp at hx
      simp [hread, hx, hxq]
    · simp [h2s, h1s]
  | cons b ys0 =>
    have hnl : ¬ some e = l.last_ptr_ := by
      rw [rep_last_iff hr]; simp
    obtain ⟨hnb', nb, hrb, h2'⟩ := h2
    rw [List.reverse_cons] at h3
    obtain ⟨h3', _⟩ := (path_snoc _ _ _ _ _ _).1 h3
    have hbe : b ≠ e := by rintro rfl; simp [List.nodup_append] at hnd
    have hbq : b ≠ h.cells.length := by rintro rfl; simp at hfresh
    have hny : ∀ x ∈ ys0, x ≠ b ∧ x ≠ e ∧ x ≠ h.cells.length := by
      intro x hx
      refine ⟨?_, ?_, ?_⟩ <;> rintro rfl <;> simp [List.nodup_append] at hnd hfresh <;> tauto
    have hnx' : ∀ x ∈ xs, x ≠ b := by
      intro x hx
      rintro rfl
      simp [List.nodup_append] at hnd
      tauto
    let nq : Node α := ⟨v, some e, some b⟩
    let h1s := (h.alloc nq).2
    have hr1e : h1s.read e = some nd := by
      simp [h1s, read_alloc, heq, hre]
    have hr1b : h1s.read b = some nb := by
      simp [h1s, read_alloc, hbq, hrb]
    let h2s := h1s.write b { nb with prev_ptr_ := some h.cells.length }
    have hr2e : h2s.read e = some nd := by
      simp [h2s, read_write_ne _ hbe.symm, hr1e]
    have hr2b : h2s.read b = some { nb with prev_ptr_ := some h.cells.length } := by
      simp [h2s, read_write_self hr1b]
    let h3s := h2s.write e { nd with next_ptr_ := some h.cells.length }
    have hread : ∀ x, h3s.read x =
        if x = e then some { nd with next_ptr_ := some h.cells.length }
        else if x = b then some { nb with prev_ptr_ := some h.cells.length }
        else if x = h.cells.length then some nq else h.read x := by
      intro x
      by_cases hxe : x = e
      · subst hxe; simp [h3s, read_write_self hr2e]
      · by_cases hxb : x = b
        · subst hxb; simp [h3s, read_write_ne _ hxe, hr2b, hxe]
        · simp [h3s, h2s, h1s, read_write_ne _ hxe, read_write_ne _ hxb, read_alloc, hxe, hxb]
    have hre' : h3s.read e = some { nd with next_ptr_ := some h.cells.length } := by
      simp [hread]
    have hrb' : h3s.read b = some { nb with prev_ptr_ := some h.cells.length } := by
      simp [hread, hbe]
    have hrq' : h3s.read h.cells.length = some nq := by
      simp [hread, heq.symm, hbq.symm]
    refine ⟨{ l with size_ := l.size_ + 1 }, h3s,
      ?_, ?_, ?_, rfl, ?_, by simpa [nq] using hrq', ?_⟩
    · unfold InsertAfter
      rw [if_neg (by simp)]
      rw [increment_ok (State α) hlt]
      simp only [bind_ok, pure_eq_ok, if_neg hnl]
      have hd0 := deref_ok (State α) hre
      have hd1 := deref_ok (State α) hr1e
      have hsn := setPrev_ok (State α) hr1b (some h.cells.length)
      have hd2 := deref_ok (State α) hr2e
      have hd3 := deref_ok (State α) hr2b
      have hsp := setNext_ok (State α) hr2e (some h.cells.length)
      simp only [h3s, h2s, h1s, nq, Heap.alloc] at hd1 hsn hd2 hd3 hsp ⊢
      rw [hd0]
      simp only [bind_ok, hnb']
      rw [hd1]
      simp only [bind_ok, hnb']
      rw [hsn]
      simp only [bind_ok]
      rw [hd2]
      simp only [bind_ok, hnb']
      rw [hd3]
      simp only [bind_ok]
      rw [hsp]
      rfl
    · refine (rep_zip _ _ (xs ++ [e]) (b :: ys0) _).2 ⟨nq, hrq', ?_, ?_, ?_, ?_, ?_⟩
      · refine (path_snoc _ _ _ _ _ _).2 ⟨?_, _, hre', rfl⟩
        refine path_congr ?_ h1
        intro x hx
        simp [hread, hnx x hx, hnx' x hx]
      · refine ⟨rfl, _, hrb', ?_⟩
        refine path_congr ?_ h2'
        intro x hx
        simp [hread, hny x hx]
      · rw [List.reverse_cons]
        refine (path_snoc _ _ _ _ _ _).2 ⟨?_, _, hrb', rfl⟩
        refine path_congr ?_ h3'
        intro x hx
        simp [hread, hny x (by simpa using hx)]
      · rw [List.reverse_append]
        refine path_congr ?_ hbwd
        intro x hx
        rcases List.mem_cons.1 hx with rfl | hx
        · simp [hread, hre]
        · simp [hread, hnx x (by simpa using hx), hnx' x (by simpa using hx)]
      · exact ⟨by simp at hs ⊢; rw [hs]; ring, succ_le_INT_MAX hlt⟩
    · have e1 : vals h3s xs = vals h xs := by
        apply vals_congr
        intro x hx
        simp [hread, hnx x hx, hnx' x hx]
      have e2 : vals h3s ys0 = vals h ys0 := by
        apply vals_congr
        intro x hx
        simp [hread, hny x hx]
      simp only [vals_append, List.append_assoc]
      rw [vals_cons hrq', vals_cons hrb', vals_cons hre', vals_cons hre, vals_cons hrb, e1, e2]
      simp [vals_nil, nq]
    · intro x hx hxq
      simp at hx
      simp [hread, hx, hxq]
    · simp [h3s, h2s, h1s]

theorem InsertAfter_move_eq (l : BiDirectionalList) (h : Heap α) (e : Ptr) (v : α) :
    InsertAfter_move l h e v = InsertAfter l h e v := rfl

theorem InsertBefore_move_eq (l : BiDirectionalList) (h : Heap α) (e : Ptr) (v : α) :
    InsertBefore_move l h e v = InsertBefore l h e v := rfl

theorem PushBack_move_eq (l : BiDirectionalList) (h : Heap α) (v : α) :
    PushBack_move l h v = PushBack l h v := rfl

theorem PushFront_move_eq (l : BiDirectionalList) (h : Heap α) (v : α) :
    PushFront_move l h v = PushFront l h v := rfl

theorem rep_size_zero_iff {l : BiDirectionalList} {h : Heap α} {ps : List Nat}
    (hr : Rep l h ps) : l.size_ = 0 ↔ ps = [] := by
  rw [rep_size hr]
  simp

theorem PushBack_rep {l : BiDirectionalList} {h : Heap α} {ps : List Nat}
    (hr : Rep l h ps) (v : α) (hlt : l.size_ < INT_MAX) :
    ∃ l' h', PushBack l h v = .ok (l', h') ∧
      Rep l' h' (ps ++ [h.cells.length]) ∧
      vals h' (ps ++ [h.cells.length]) = vals h ps ++ [v] ∧
      l'.size_ = l.size_ + 1 ∧
      (∀ x, x ∉ ps → x ≠ h.cells.length → h'.read x = h.read x) ∧
      h'.cells.length = h.cells.length + 1 := by
  rcases List.eq_nil_or_concat ps with rfl | ⟨xs, e, rfl⟩
  · have hz : l.size_ = 0 := (rep_size_zero_iff hr).2 rfl
    let nq : Node α := ⟨v, none, none⟩
    have hrq : (h.alloc nq).2.read h.cells.length = some nq := by simp [read_alloc]
    refine ⟨⟨some h.cells.length, some h.cells.length, l.size_ + 1⟩, (h.alloc nq).2,
      ?_, ?_, ?_, rfl, ?_, by simp⟩
    · simp [PushBack, hz, Heap.alloc, nq, increment, INT_MAX]
    · exact ⟨⟨rfl, nq, hrq, rfl⟩, ⟨rfl, nq, hrq, rfl⟩, by simp [hz],
        succ_le_INT_MAX hlt⟩
    · simp only [List.nil_append]
      rw [vals_cons hrq]
      simp [vals_nil, nq]
    · intro x _ hxq
      simp [read_alloc, hxq]
  · rw [List.concat_eq_append] at *
    have hnz : ¬ l.size_ = 0 := by
      rw [rep_size_zero_iff hr]; simp
    have hl : l.last_ptr_ = some e := by
      rw [rep_last hr]; simp
    obtain ⟨l', h', hop, hrep, hv, hsz, hfr, _, hlen⟩ := InsertAfter_rep hr v hlt
    refine ⟨l', h', ?_, by simpa using hrep, ?_, hsz, hfr, hlen⟩
    · unfold PushBack
      rw [if_neg hnz, hl, hop]
    · simpa [vals_nil] using hv

theorem PushFront_rep {l : BiDirectionalList} {h : Heap α} {ps : List Nat}
    (hr : Rep l h ps) (v : α) (hlt : l.size_ < INT_MAX) :
    ∃ l' h', PushFront l h v = .ok (l', h') ∧
      Rep l' h' (h.cells.length :: ps) ∧
      vals h' (h.cells.length :: ps) = v :: vals h ps ∧
      l'.size_ = l.size_ + 1 ∧
      (∀ x, x ∉ ps → x ≠ h.cells.length → h'.read x = h.read x) ∧
      h'.cells.length = h.cells.length + 1 := by
  cases ps with
  | nil =>
    have hz : l.size_ = 0 := (rep_size_zero_iff hr).2 rfl
    let nq : Node α := ⟨v, none, none⟩
    have hrq : (h.alloc nq).2.read h.cells.length = some nq := by simp [read_alloc]
    refine ⟨⟨some h.cells.length, some h.cells.length, l.size_ + 1⟩, (h.alloc nq).2,
      ?_, ?_, ?_, rfl, ?_, by simp⟩
    · simp [PushFront, hz, Heap.alloc, nq, increment, INT_MAX]
    · exact ⟨⟨rfl, nq, hrq, rfl⟩, ⟨rfl, nq, hrq, rfl⟩, by simp [hz],
        succ_le_INT_MAX hlt⟩
    · rw [vals_cons hrq]
      simp [vals_nil, nq]
    · intro x _ hxq
      simp [read_alloc, hxq]
  | cons e ys =>
    have hnz : ¬ l.size_ = 0 := by
      rw [rep_size_zero_iff hr]; simp
    have hl : l.begin_ptr_ = some e := by
      rw [rep_begin hr]; simp
    obtain ⟨l', h', hop, hrep, hv, hsz, hfr, _, hlen⟩ :=
      InsertBefore_rep (show Rep l h ([] ++ e :: ys) from hr) v hlt
    refine ⟨l', h', ?_, by simpa using hrep, ?_, hsz, by simpa using hfr, hlen⟩
    · unfold PushFront
      rw [if_neg hnz, hl, hop]
    · simpa [vals_nil] using hv

theorem atLoop_path {h : Heap α} {xs ys : List Nat} {e : Nat} {p q : Ptr}
    (hp : Path Node.next_ptr_ h p (xs ++ e :: ys) q) :
    atLoop h xs.length p = .ok (some e) := by
  induction xs generalizing p with
  | nil =>
    obtain ⟨hpe, _⟩ := hp
    simp [atLoop, hpe]
  | cons a as ih =>
    obtain ⟨hpa, nd, hrd, hrest⟩ := hp
    subst hpa
    simp only [List.length_cons, atLoop, hrd]
    exact ih hrest

theorem At_rep {l : BiDirectionalList} {h : Heap α} {xs ys : List Nat} {e : Nat}
    (hr : Rep l h (xs ++ e :: ys)) : At l h xs.length = .ok (some e) := by
  unfold At
  have hs := rep_size hr
  rw [if_pos (by rw [hs]; simp)]
  simpa using atLoop_path hr.1

theorem At_out_of_range (l : BiDirectionalList) (h : Heap α) (index : Int)
    (hi : index < 0 ∨ l.size_ ≤ index) : At l h index = .error (.assertion (l, h)) := by
  unfold At
  rw [if_neg (by omega)]

theorem split_at_index (ps : List Nat) (i : Nat) (hi : i < ps.length) :
    ∃ xs e ys, ps = xs ++ e :: ys ∧ xs.length = i :=
  ⟨ps.take i, ps[i], ps.drop (i + 1), by
    rw [List.getElem_cons_drop, List.take_append_drop], by
    simp [List.length_take]; omega⟩

theorem findLoop_path [DecidableEq α] {h : Heap α} {ps : List Nat} {p : Ptr}
    (hp : Path Node.next_ptr_ h p ps none) (v : α) (i : Int) :
    ∃ r, findLoop h v ps.length p i = .ok r ∧
      ((r = -1 ∧ v ∉ vals h ps) ∨
        ∃ k : Nat, r = i + k ∧ k < ps.length ∧ (vals h ps)[k]? = some v ∧
          ∀ j, j < k → (vals h ps)[j]? ≠ some v) := by
  induction ps generalizing p i with
  | nil => exact ⟨-1, rfl, Or.inl ⟨rfl, by simp [vals_nil]⟩⟩
  | cons a as ih =>
    obtain ⟨hpa, nd, hrd, hrest⟩ := hp
    subst hpa
    simp only [List.length_cons, findLoop, hrd, vals_cons hrd]
    by_cases hv : nd.value = v
    · rw [if_pos hv]
      exact ⟨i, rfl, Or.inr ⟨0, by simp, by simp, by simp [hv], by simp⟩⟩
    · rw [if_neg hv]
      obtain ⟨r, hres, hcase⟩ := ih hrest (i + 1)
      refine ⟨r, hres, ?_⟩
      rcases hcase with ⟨hr1, hnot⟩ | ⟨k, hrk, hk, hget, hfirst⟩
      · left
        refine ⟨hr1, ?_⟩
        simp only [List.mem_cons, not_or]
        exact ⟨fun e => hv e.symm, hnot⟩
      · right
        refine ⟨k + 1, by rw [hrk]; push_cast; ring, by omega, by simpa using hget, ?_⟩
        intro j hj
        cases j with
        | zero => simpa using hv
        | succ j => simpa using hfirst j (by omega)

theorem findAllLoop_path [DecidableEq α] {h : Heap α} {ps : List Nat} {p : Ptr}
    (hp : Path Node.next_ptr_ h p ps none) (v : α) (i : Int) (result : List Int) :
    findAllLoop h v ps.length p i result =
      .ok (result ++ ((List.range ps.length).filter
        (fun k => decide ((vals h ps)[k]? = some v))).map (fun (k : Nat) => i + (k : Int))) := by
  induction ps generalizing p i result with
  | nil => simp [findAllLoop]
  | cons a as ih =>
    obtain ⟨hpa, nd, hrd, hrest⟩ := hp
    subst hpa
    simp only [List.length_cons, findAllLoop, hrd, vals_cons hrd]
    rw [ih hrest, List.range_succ_eq_map, List.filter_cons, List.filter_map]
    have hfun : ((fun k => decide ((nd.value :: vals h as)[k]? = some v)) ∘ Nat.succ) =
        fun k => decide ((vals h as)[k]? = some v) := by
      funext k
      simp
    have hfun2 : ((fun k : Nat => i + (k : Int)) ∘ Nat.succ) =
        fun k : Nat => i + 1 + (k : Int) := by
      funext k
      simp only [Function.comp, Nat.succ_eq_add_one]
      push_cast
      ring
    rw [hfun]
    by_cases hv : nd.value = v
    · simp [hv, List.map_map, hfun2]
    · simp [hv, List.map_map, hfun2]

theorem eqLoop_path [DecidableEq α] {h : Heap α} {ps ps' : List Nat} {p p' : Ptr}
    (hp : Path Node.next_ptr_ h p ps none) (hp' : Path Node.next_ptr_ h p' ps' none)
    (hl : ps.length = ps'.length) :
    eqLoop h ps.length p p' = .ok (decide (vals h ps = vals h ps')) := by
  induction ps generalizing p p' ps' with
  | nil =>
    cases ps' with
    | nil => simp [eqLoop]
    | cons b bs => simp at hl
  | cons a as ih =>
    cases ps' with
    | nil => simp at hl
    | cons b bs =>
      obtain ⟨hpa, nd, hrd, hrest⟩ := hp
      obtain ⟨hpb, nd', hrd', hrest'⟩ := hp'
      subst hpa
      subst hpb
      simp only [List.length_cons, eqLoop, hrd, hrd', vals_cons hrd, vals_cons hrd']
      by_cases hv : nd.value = nd'.value
      · rw [if_neg (by simpa using hv), ih hrest hrest' (by simpa using hl)]
        simp [hv]
      · rw [if_pos hv]
        simp [hv]

theorem wellFormed_of_rep {l : BiDirectionalList} {h : Heap α} {ps : List Nat}
    (hr : Rep l h ps) : WellFormed l h := (wellFormed_iff l h).2 ⟨ps, hr⟩

theorem contents_of_rep {l : BiDirectionalList} {h : Heap α} {ps : List Nat} {s : List α}
    (hr : Rep l h ps) (hs : ToVector l h = .ok s) : s = vals h ps := by
  rw [ToVector_rep hr] at hs
  cases hs
  rfl

theorem rep_length_vals {l : BiDirectionalList} {h : Heap α} {ps : List Nat}
    (hr : Rep l h ps) : (vals h ps).length = ps.length := vals_length hr.1

theorem isEmpty_false_iff (l : BiDirectionalList) : IsEmpty l = false ↔ l.size_ ≠ 0 := by
  simp [IsEmpty]

theorem isNodeOf_split {l : BiDirectionalList} {h : Heap α} {ps : List Nat} {element : Ptr}
    (hr : Rep l h ps) (hn : IsNodeOf l h element) :
    ∃ e xs ys, element = some e ∧ ps = xs ++ e :: ys := by
  cases element with
  | none => exact absurd hn (by simp [IsNodeOf])
  | some e =>
    have hmem : e ∈ ps := by
      have : e ∈ nodes l h := hn
      rwa [rep_nodes hr] at this
    obtain ⟨xs, ys, hsplit⟩ := List.append_of_mem hmem
    exact ⟨e, xs, ys, rfl, hsplit⟩

theorem op_call_wellFormed (op : Op α) (l : BiDirectionalList) (h : Heap α)
    (hw : WellFormed l h) (hpre : op.pre l h) :
    ∃ l' h', op.call l h = .ok (l', h') ∧ WellFormed l' h' := by
  have hr := rep_of_wellFormed hw
  cases op with
  | PushFront v =>
    obtain ⟨l', h', hop, hrep, _⟩ := PushFront_rep hr v hpre
    exact ⟨l', h', hop, wellFormed_of_rep hrep⟩
  | PushFront_move v =>
    obtain ⟨l', h', hop, hrep, _⟩ := PushFront_rep hr v hpre
    exact ⟨l', h', hop, wellFormed_of_rep hrep⟩
  | PushBack v =>
    obtain ⟨l', h', hop, hrep, _⟩ := PushBack_rep hr v hpre
    exact ⟨l', h', hop, wellFormed_of_rep hrep⟩
  | PushBack_move v =>
    obtain ⟨l', h', hop, hrep, _⟩ := PushBack_rep hr v hpre
    exact ⟨l', h', hop, wellFormed_of_rep hrep⟩
  | InsertBefore element v =>
    obtain ⟨e, xs, ys, rfl, hsplit⟩ := isNodeOf_split hr hpre.1
    rw [hsplit] at hr
    obtain ⟨l', h', hop, hrep, _⟩ := InsertBefore_rep hr v hpre.2
    exact ⟨l', h', hop, wellFormed_of_rep hrep⟩
  | InsertBefore_move element v =>
    obtain ⟨e, xs, ys, rfl, hsplit⟩ := isNodeOf_split hr hpre.1
    rw [hsplit] at hr
    obtain ⟨l', h', hop, hrep, _⟩ := InsertBefore_rep hr v hpre.2
    exact ⟨l', h', hop, wellFormed_of_rep hrep⟩
  | InsertAfter element v =>
    obtain ⟨e, xs, ys, rfl, hsplit⟩ := isNodeOf_split hr hpre.1
    rw [hsplit] at hr
    obtain ⟨l', h', hop, hrep, _⟩ := InsertAfter_rep hr v hpre.2
    exact ⟨l', h', hop, wellFormed_of_rep hrep⟩
  | InsertAfter_move element v =>
    obtain ⟨e, xs, ys, rfl, hsplit⟩ := isNodeOf_split hr hpre.1
    rw [hsplit] at hr
    obtain ⟨l', h', hop, hrep, _⟩ := InsertAfter_rep hr v hpre.2
    exact ⟨l', h', hop, wellFormed_of_rep hrep⟩
  | PopFront =>
    have hne : l.size_ ≠ 0 := (isEmpty_false_iff l).1 hpre
    cases hps : nodes l h with
    | nil =>
      rw [hps] at hr
      exact absurd ((rep_size_zero_iff hr).2 rfl) hne
    | cons e ys =>
      rw [hps] at hr
      obtain ⟨l', h', hop, hrep, _⟩ := PopFront_rep hr
      exact ⟨l', h', hop, wellFormed_of_rep hrep⟩
  | PopBack =>
    have hne : l.size_ ≠ 0 := (isEmpty_false_iff l).1 hpre
    rcases List.eq_nil_or_concat (nodes l h) with hps | ⟨xs, e, hps⟩
    · rw [hps] at hr
      exact absurd ((rep_size_zero_iff hr).2 rfl) hne
    · rw [hps, List.concat_eq_append] at hr
      obtain ⟨l', h', hop, hrep, _⟩ := PopBack_rep hr
      exact ⟨l', h', hop, wellFormed_of_rep hrep⟩
  | Erase element =>
    obtain ⟨e, xs, ys, rfl, hsplit⟩ := isNodeOf_split hr hpre
    rw [hsplit] at hr
    obtain ⟨l', h', hop, hrep, _⟩ := Erase_rep hr
    exact ⟨l', h', hop, wellFormed_of_rep hrep⟩

theorem callAll_wellFormed (ops : List (Op α)) (l : BiDirectionalList) (h : Heap α)
    (hw : WellFormed l h) (ha : Admissible l h ops) :
    ∃ l' h', callAll l h ops = .ok (l', h') ∧ WellFormed l' h' := by
  induction ops generalizing l h with
  | nil => exact ⟨l, h, rfl, hw⟩
  | cons op rest ih =>
    obtain ⟨hpre, hrest⟩ := ha
    obtain ⟨l1, h1, hop, hw1⟩ := op_call_wellFormed op l h hw hpre
    rw [hop] at hrest
    obtain ⟨l', h', hall, hw'⟩ := ih l1 h1 hw1 hrest
    refine ⟨l', h', ?_, hw'⟩
    simp only [callAll, hop]
    exact hall

theorem default_ctor_wellFormed (h : Heap α) : WellFormed BiDirectionalList.default_ctor h :=
  wellFormed_of_rep ((rep_nil_iff _ _).2 ⟨rfl, rfl, rfl⟩)

theorem eq_empty_of_rep_nil {l : BiDirectionalList} {h : Heap α} (hr : Rep l h []) :
    l = ⟨none, none, 0⟩ := by
  obtain ⟨hb, hl, hs⟩ := (rep_nil_iff _ _).1 hr
  cases l
  simp only at hb hl hs
  rw [hb, hl, hs]

theorem heap_ext {h h' : Heap α} (hl : h.cells.length = h'.cells.length)
    (hr : ∀ a, h.read a = h'.read a) : h = h' := by
  cases h with
  | mk c =>
    cases h' with
    | mk c' =>
      simp only [Heap.mk.injEq]
      apply List.ext_getElem?
      intro a
      have := hr a
      simp only [Heap.read] at this hl
      by_cases ha : a < c.length
      · have ha' : a < c'.length := by omega
        rw [List.getElem?_eq_getElem ha, List.getElem?_eq_getElem ha'] at this ⊢
        simpa using this
      · rw [List.getElem?_eq_none (by omega), List.getElem?_eq_none (by omega)]

theorem rep_frame {l : BiDirectionalList} {h h' : Heap α} {ps : List Nat}
    (hr : Rep l h ps) (hf : ∀ x ∈ ps, h'.read x = h.read x) :
    Rep l h' ps ∧ vals h' ps = vals h ps := by
  refine ⟨⟨path_congr ?_ hr.1, path_congr ?_ hr.2.1, hr.2.2⟩, vals_congr ?_⟩
  · intro a ha
    rw [hf a ha]
  · intro a ha
    rw [hf a (by simpa using ha)]
  · intro a ha
    rw [hf a ha]

theorem rep_shared {a b : BiDirectionalList} {h : Heap α} {ps qs : List Nat}
    (ha : Rep a h ps) (hb : Rep b h qs) {x : Nat} (hxp : x ∈ ps) (hxq : x ∈ qs) :
    ps = qs := by
  obtain ⟨xs, ys, rfl⟩ := List.append_of_mem hxp
  obtain ⟨xs', ys', rfl⟩ := List.append_of_mem hxq
  obtain ⟨nd, hrd, _, h2, _, h4, _⟩ := (rep_zip a h xs ys x).1 ha
  obtain ⟨nd', hrd', _, h2', _, h4', _⟩ := (rep_zip b h xs' ys' x).1 hb
  rw [hrd] at hrd'
  cases hrd'
  have e1 : ys = ys' := path_det h2 h2'
  have e2 : xs.reverse = xs'.reverse := path_det h4 h4'
  rw [e1, List.reverse_injective e2]

theorem rep_disjoint_of_begin_ne {a b : BiDirectionalList} {h : Heap α} {ps qs : List Nat}
    (ha : Rep a h ps) (hb : Rep b h qs) (hne : a.begin_ptr_ ≠ b.begin_ptr_) :
    ∀ x ∈ ps, x ∉ qs := by
  intro x hxp hxq
  apply hne
  rw [rep_begin ha, rep_begin hb, rep_shared ha hb hxp hxq]

theorem rep_eq_of_begin_eq {a b : BiDirectionalList} {h : Heap α} {ps qs : List Nat}
    (ha : Rep a h ps) (hb : Rep b h qs) (heq : a.begin_ptr_ = b.begin_ptr_) :
    ps = qs := by
  have h1 := ha.1
  rw [heq] at h1
  exact path_det h1 hb.1

theorem cleanLoop_path {h : Heap α} {qs : List Nat} {p : Ptr}
    (hp : Path Node.prev_ptr_ h p qs none) (fuel : Nat) (hf : qs.length ≤ fuel) :
    ∃ h', cleanLoop fuel h p = .ok h' ∧ (∀ x ∈ qs, h'.read x = none) ∧
      (∀ x, x ∉ qs → h'.read x = h.read x) ∧ h'.cells.length = h.cells.length := by
  induction qs generalizing h p fuel with
  | nil =>
    have hp0 : p = none := hp
    subst hp0
    refine ⟨h, ?_, by simp, fun _ _ => rfl, rfl⟩
    cases fuel <;> rfl
  | cons a as ih =>
    have hnd := path_nodup hp
    obtain ⟨hpa, nd, hrd, hrest⟩ := hp
    subst hpa
    cases fuel with
    | zero => simp at hf
    | succ fuel =>
      have hnotin : a ∉ as := (List.nodup_cons.1 hnd).1
      have hrest' : Path Node.prev_ptr_ (h.free a) nd.prev_ptr_ as none := by
        refine path_congr ?_ hrest
        intro x hx
        have : x ≠ a := by rintro rfl; exact hnotin hx
        simp [read_free, this]
      obtain ⟨h', hres, hnone, hfr, hlen⟩ := ih hrest' fuel (by simpa using hf)
      refine ⟨h', by simp only [cleanLoop, hrd]; exact hres, ?_, ?_, by simpa using hlen⟩
      · intro x hx
        rcases List.mem_cons.1 hx with rfl | hx
        · rw [hfr x hnotin]
          simp [read_free]
        · exact hnone x hx
      · intro x hx
        simp only [List.mem_cons, not_or] at hx
        rw [hfr x hx.2]
        simp [read_free, hx.1]

theorem CleanTheList_rep {l : BiDirectionalList} {h : Heap α} {ps : List Nat}
    (hr : Rep l h ps) :
    ∃ h', CleanTheList l h = .ok (⟨none, none, 0⟩, h') ∧
      (∀ x ∈ ps, h'.read x = none) ∧
      (∀ x, x ∉ ps → h'.read x = h.read x) ∧ h'.cells.length = h.cells.length := by
  have hlen : ps.reverse.length ≤ h.cells.length + 1 := by
    have := path_length_le hr.1
    simp
    omega
  obtain ⟨h', hres, hnone, hfr, hl⟩ := cleanLoop_path hr.2.1 _ hlen
  refine ⟨h', ?_, fun x hx => hnone x (by simpa using hx),
    fun x hx => hfr x (by simpa using hx), hl⟩
  simp only [CleanTheList, hres]

theorem vals_length_of_read {h : Heap α} {ps : List Nat}
    (hall : ∀ x ∈ ps, ∃ nd, h.read x = some nd) : (vals h ps).length = ps.length := by
  induction ps with
  | nil => rfl
  | cons a as ih =>
    obtain ⟨nd, hrd⟩ := hall a (List.mem_cons_self a as)
    rw [vals_cons hrd]
    simp [ih (fun x hx => hall x (List.mem_cons_of_mem a hx))]

theorem vals_prefix_eq {h h' : Heap α} {xs ys : List Nat}
    (hr : ∀ x ∈ xs, ∃ nd, h.read x = some nd)
    (hr' : ∀ x ∈ xs, ∃ nd, h'.read x = some nd)
    (hv : vals h' (xs ++ ys) = vals h (xs ++ ys)) : vals h' xs = vals h xs := by
  rw [vals_append, vals_append] at hv
  refine List.append_inj_left hv ?_
  rw [vals_length_of_read hr, vals_length_of_read hr']

theorem popBackTimes_rep {l : BiDirectionalList} {h : Heap α} (ys : List Nat) {xs : List Nat}
    (hr : Rep l h (xs ++ ys)) :
    ∃ l' h', popBackTimes ys.length l h = .ok (l', h') ∧ Rep l' h' xs ∧
      vals h' xs = vals h xs ∧
      (∀ x ∈ ys, h'.read x = none) ∧ (∀ x, x ∉ xs ++ ys → h'.read x = h.read x) ∧
      h'.cells.length = h.cells.length := by
  induction ys using List.reverseRecOn generalizing l h with
  | nil =>
    refine ⟨l, h, rfl, by simpa using hr, rfl, by simp, fun _ _ => rfl, rfl⟩
  | append_singleton ys e ih =>
    have hnd := rep_nodup hr
    rw [← List.append_assoc] at hr
    obtain ⟨l1, h1, hop, hrep, hv, _, hfr, hfree, hlen⟩ := PopBack_rep hr
    obtain ⟨l', h', hop', hrep', hv', hnone, hfr', hlen'⟩ := ih hrep
    have he : e ∉ xs ++ ys := by
      intro hmem
      simp [List.nodup_append] at hnd
      simp at hmem
      tauto
    refine ⟨l', h', ?_, hrep', ?_, ?_, ?_, by rw [hlen', hlen]⟩
    · simp only [List.length_append, List.length_singleton, popBackTimes, hop]
      exact hop'
    · rw [hv']
      exact vals_prefix_eq
        (fun x hx => path_read hr.1 (by simp [hx]))
        (fun x hx => path_read hrep.1 (by simp [hx])) hv
    · intro x hx
      rcases List.mem_append.1 hx with hx | hx
      · exact hnone x hx
      · have : x = e := by simpa using hx
        subst this
        rw [hfr' x he, hfree]
    · intro x hx
      rw [hfr' x (by simp at hx ⊢; tauto), hfr x (by simp at hx ⊢; tauto)]

theorem isEmpty_true_iff (l : BiDirectionalList) : IsEmpty l = true ↔ l.size_ = 0 := by
  simp [IsEmpty]

theorem destructorLoop_rep (ps : List Nat) {l : BiDirectionalList} {h : Heap α}
    (hr : Rep l h ps) (fuel : Nat) (hf : ps.length ≤ fuel) :
    destructorLoop fuel l h = popBackTimes ps.length l h := by
  induction ps using List.reverseRecOn generalizing l h fuel with
  | nil =>
    have hz : IsEmpty l = true := (isEmpty_true_iff l).2 ((rep_size_zero_iff hr).2 rfl)
    cases fuel <;> simp [destructorLoop, hz, popBackTimes]
  | append_singleton ys e ih =>
    have hz : IsEmpty l = false := by
      rw [isEmpty_false_iff, Ne, rep_size_zero_iff hr]
      simp
    obtain ⟨l1, h1, hop, hrep, _⟩ := PopBack_rep hr
    cases fuel with
    | zero => simp at hf
    | succ fuel =>
      simp only [destructorLoop, hz, List.length_append, List.length_singleton, popBackTimes,
        hop]
      exact ih hrep fuel (by simp at hf; omega)

theorem destructor_rep {l : BiDirectionalList} {h : Heap α} {ps : List Nat}
    (hr : Rep l h ps) :
    ∃ h', BiDirectionalList.destructor l h = .ok (⟨none, none, 0⟩, h') ∧
      popBackTimes ps.length l h = .ok (⟨none, none, 0⟩, h') ∧
      (∀ x ∈ ps, h'.read x = none) ∧ (∀ x, x ∉ ps → h'.read x = h.read x) ∧
      h'.cells.length = h.cells.length := by
  obtain ⟨l', h', hop, hrep, _, hnone, hfr, hlen⟩ :=
    popBackTimes_rep ps (show Rep l h ([] ++ ps) from hr)
  have hl' := eq_empty_of_rep_nil hrep
  subst hl'
  refine ⟨h', ?_, hop, hnone, by simpa using hfr, hlen⟩
  unfold BiDirectionalList.destructor
  rw [destructorLoop_rep ps hr _ (Nat.le_succ_of_le (path_length_le hr.1)), hop]

theorem popBackTimes_nonempty {l : BiDirectionalList} {h : Heap α} {ps : List Nat}
    (hr : Rep l h ps) (k : Nat) (hk : k < ps.length) :
    ∃ lk hk, popBackTimes k l h = .ok (lk, hk) ∧ IsEmpty lk = false := by
  have hsplit : ps = ps.take (ps.length - k) ++ ps.drop (ps.length - k) :=
    (List.take_append_drop _ _).symm
  have hlen : (ps.drop (ps.length - k)).length = k := by
    simp
    omega
  rw [hsplit] at hr
  obtain ⟨l', h', hop, hrep, _⟩ := popBackTimes_rep _ hr
  rw [hlen] at hop
  refine ⟨l', h', hop, ?_⟩
  rw [isEmpty_false_iff, Ne, rep_size_zero_iff hrep]
  intro hnil
  have := congrArg List.length hnil
  simp at this
  omega

theorem CleanTheList_eq_destructor {l : BiDirectionalList} {h : Heap α} {ps : List Nat}
    (hr : Rep l h ps) : CleanTheList l h = BiDirectionalList.destructor l h := by
  obtain ⟨h1, hc, hn1, hf1, hl1⟩ := CleanTheList_rep hr
  obtain ⟨h2, hd, _, hn2, hf2, hl2⟩ := destructor_rep hr
  rw [hc, hd]
  have : h1 = h2 := by
    apply heap_ext (by rw [hl1, hl2])
    intro a
    by_cases ha : a ∈ ps
    · rw [hn1 a ha, hn2 a ha]
    · rw [hf1 a ha, hf2 a ha]
  rw [this]

theorem pushBackAll_rep (init : List α) {l : BiDirectionalList} {h : Heap α} {ps : List Nat}
    (hr : Rep l h ps) (hb : l.size_ + init.length ≤ INT_MAX) :
    ∃ l' h' ns, pushBackAll l h init = .ok (l', h') ∧ Rep l' h' (ps ++ ns) ∧
      vals h' (ps ++ ns) = vals h ps ++ init ∧ l'.size_ = l.size_ + init.length ∧
      (∀ x ∈ ns, h.cells.length ≤ x) ∧
      (∀ x, x ∉ ps → x < h.cells.length → h'.read x = h.read x) ∧
      h.cells.length ≤ h'.cells.length := by
  induction init generalizing l h ps with
  | nil =>
    exact ⟨l, h, [], rfl, by simpa using hr, by simp, by simp, by simp, fun _ _ _ => rfl,
      le_refl _⟩
  | cons v rest ih =>
    have hlt : l.size_ < INT_MAX := by
      simp only [List.length_cons] at hb
      push_cast at hb
      omega
    obtain ⟨l1, h1, hop, hrep, hv, hsz, hfr, hlen⟩ := PushBack_rep hr v hlt
    obtain ⟨l', h', ns, hall, hrep', hv', hsz', hnew, hfr', hlen'⟩ := ih hrep (by
      simp only [List.length_cons] at hb
      push_cast at hb
      omega)
    refine ⟨l', h', h.cells.length :: ns, ?_, by simpa using hrep', ?_, ?_, ?_, ?_, by omega⟩
    · simp only [pushBackAll, hop]
      exact hall
    · have : ps ++ h.cells.length :: ns = ps ++ [h.cells.length] ++ ns := by simp
      rw [this, hv', hv]
      simp
    · rw [hsz', hsz]
      simp
      ring
    · intro x hx
      rcases List.mem_cons.1 hx with rfl | hx
      · exact le_refl _
      · have := hnew x hx
        omega
    · intro x hx hlt
      rw [hfr' x (by simp; exact ⟨hx, by omega⟩) (by omega), hfr x hx (by omega)]

theorem copyLoop_rep (qs : List Nat) {l : BiDirectionalList} {h : Heap α} {ps : List Nat}
    {p : Ptr} (hr : Rep l h ps) (hp : Path Node.next_ptr_ h p qs none)
    (hdis : ∀ x ∈ qs, x ∉ ps) (fuel : Nat) (hf : qs.length ≤ fuel)
    (hb : l.size_ + qs.length ≤ INT_MAX) :
    ∃ l' h' ns, copyLoop fuel l h p = .ok (l', h') ∧ Rep l' h' (ps ++ ns) ∧
      vals h' (ps ++ ns) = vals h ps ++ vals h qs ∧ l'.size_ = l.size_ + qs.length ∧
      (∀ x ∈ ns, h.cells.length ≤ x) ∧
      (∀ x, x ∉ ps → x < h.cells.length → h'.read x = h.read x) ∧
      h.cells.length ≤ h'.cells.length := by
  induction qs generalizing l h ps p fuel with
  | nil =>
    have hp0 : p = none := hp
    subst hp0
    refine ⟨l, h, [], ?_, by simpa using hr, by simp [vals_nil], by simp, by simp,
      fun _ _ _ => rfl, le_refl _⟩
    cases fuel <;> rfl
  | cons a as ih =>
    obtain ⟨hpa, nd, hrd, hrest⟩ := hp
    subst hpa
    cases fuel with
    | zero => simp at hf
    | succ fuel =>
      have hlt : l.size_ < INT_MAX := by
        simp only [List.length_cons] at hb
        push_cast at hb
        omega
      obtain ⟨l1, h1, hop, hrep, hv, hsz, hfr, hlen⟩ := PushBack_rep hr nd.value hlt
      have halt : a < h.cells.length := read_lt hrd
      have hanot : a ∉ ps := hdis a (List.mem_cons_self a as)
      have hrd1 : h1.read a = some nd := by
        rw [hfr a hanot (by omega), hrd]
      have hrest1 : Path Node.next_ptr_ h1 nd.next_ptr_ as none := by
        refine path_congr ?_ hrest
        intro x hx
        have hxlt : x < h.cells.length := path_lt hrest hx
        rw [hfr x (hdis x (List.mem_cons_of_mem a hx)) (by omega)]
      have hdis1 : ∀ x ∈ as, x ∉ ps ++ [h.cells.length] := by
        intro x hx
        have hxlt : x < h.cells.length := path_lt hrest hx
        simp only [List.mem_append, List.mem_singleton, not_or]
        exact ⟨hdis x (List.mem_cons_of_mem a hx), by omega⟩
      obtain ⟨l', h', ns, hall, hrep', hv', hsz', hnew, hfr', hlen'⟩ :=
        ih hrep hrest1 hdis1 fuel (by simpa using hf) (by
          simp only [List.length_cons] at hb
          push_cast at hb
          omega)
      have hvas : vals h1 as = vals h as := by
        apply vals_congr
        intro x hx
        have hxlt : x < h.cells.length := path_lt hrest hx
        rw [hfr x (hdis x (List.mem_cons_of_mem a hx)) (by omega)]
      refine ⟨l', h', h.cells.length :: ns, ?_, by simpa using hrep', ?_, ?_, ?_, ?_,
        by omega⟩
      · simp only [copyLoop, hrd, hop, hrd1]
        exact hall
      · have : ps ++ h.cells.length :: ns = ps ++ [h.cells.length] ++ ns := by simp
        rw [this, hv', hv, hvas, vals_cons hrd]
        simp
      · rw [hsz', hsz]
        simp
        ring
      · intro x hx
        rcases List.mem_cons.1 hx with rfl | hx
        · exact le_refl _
        · have := hnew x hx
          omega
      · intro x hx hlt
        rw [hfr' x (by simp; exact ⟨hx, by omega⟩) (by omega), hfr x hx (by omega)]

theorem op_call_rep (op : Op α) {l : BiDirectionalList} {h : Heap α} {ps : List Nat}
    (hr : Rep l h ps) (hpre : op.pre l h) :
    ∃ l' h' ps', op.call l h = .ok (l', h') ∧ Rep l' h' ps' ∧
      (∀ x ∈ ps', x ∈ ps ∨ x = h.cells.length) ∧
      (∀ x, x ∉ ps → x ≠ h.cells.length → h'.read x = h.read x) ∧
      h.cells.length ≤ h'.cells.length := by
  cases op with
  | PushFront v =>
    obtain ⟨l', h', hop, hrep, _, _, hfr, hlen⟩ := PushFront_rep hr v hpre
    exact ⟨l', h', _, hop, hrep, by intro x hx; simp at hx; tauto, hfr, by omega⟩
  | PushFront_move v =>
    obtain ⟨l', h', hop, hrep, _, _, hfr, hlen⟩ := PushFront_rep hr v hpre
    exact ⟨l', h', _, hop, hrep, by intro x hx; simp at hx; tauto, hfr, by omega⟩
  | PushBack v =>
    obtain ⟨l', h', hop, hrep, _, _, hfr, hlen⟩ := PushBack_rep hr v hpre
    exact ⟨l', h', _, hop, hrep, by intro x hx; simp at hx; tauto, hfr, by omega⟩
  | PushBack_move v =>
    obtain ⟨l', h', hop, hrep, _, _, hfr, hlen⟩ := PushBack_rep hr v hpre
    exact ⟨l', h', _, hop, hrep, by intro x hx; simp at hx; tauto, hfr, by omega⟩
  | InsertBefore element v =>
    obtain ⟨e, xs, ys, rfl, rfl⟩ := isNodeOf_split hr hpre.1
    obtain ⟨l', h', hop, hrep, _, _, hfr, _, hlen⟩ := InsertBefore_rep hr v hpre.2
    exact ⟨l', h', _, hop, hrep, by intro x hx; simp at hx ⊢; tauto, hfr, by omega⟩
  | InsertBefore_move element v =>
    obtain ⟨e, xs, ys, rfl, rfl⟩ := isNodeOf_split hr hpre.1
    obtain ⟨l', h', hop, hrep, _, _, hfr, _, hlen⟩ := InsertBefore_rep hr v hpre.2
    exact ⟨l', h', _, hop, hrep, by intro x hx; simp at hx ⊢; tauto, hfr, by omega⟩
  | InsertAfter element v =>
    obtain ⟨e, xs, ys, rfl, rfl⟩ := isNodeOf_split hr hpre.1
    obtain ⟨l', h', hop, hrep, _, _, hfr, _, hlen⟩ := InsertAfter_rep hr v hpre.2
    exact ⟨l', h', _, hop, hrep, by intro x hx; simp at hx ⊢; tauto, hfr, by omega⟩
  | InsertAfter_move element v =>
    obtain ⟨e, xs, ys, rfl, rfl⟩ := isNodeOf_split hr hpre.1
    obtain ⟨l', h', hop, hrep, _, _, hfr, _, hlen⟩ := InsertAfter_rep hr v hpre.2
    exact ⟨l', h', _, hop, hrep, by intro x hx; simp at hx ⊢; tauto, hfr, by omega⟩
  | PopFront =>
    have hne : l.size_ ≠ 0 := (isEmpty_false_iff l).1 hpre
    cases ps with
    | nil => exact absurd ((rep_size_zero_iff hr).2 rfl) hne
    | cons e ys =>
      obtain ⟨l', h', hop, hrep, _, _, hfr, _, hlen⟩ := PopFront_rep hr
      exact ⟨l', h', _, hop, hrep, by intro x hx; simp; tauto, fun x hx _ => hfr x hx,
        by omega⟩
  | PopBack =>
    have hne : l.size_ ≠ 0 := (isEmpty_false_iff l).1 hpre
    rcases List.eq_nil_or_concat ps with rfl | ⟨xs, e, rfl⟩
    · exact absurd ((rep_size_zero_iff hr).2 rfl) hne
    · rw [List.concat_eq_append] at hr ⊢
      obtain ⟨l', h', hop, hrep, _, _, hfr, _, hlen⟩ := PopBack_rep hr
      exact ⟨l', h', _, hop, hrep, by intro x hx; simp; tauto, fun x hx _ => hfr x hx,
        by omega⟩
  | Erase element =>
    obtain ⟨e, xs, ys, rfl, rfl⟩ := isNodeOf_split hr hpre
    obtain ⟨l', h', hop, hrep, _, _, hfr, _, hlen⟩ := Erase_rep hr
    exact ⟨l', h', _, hop, hrep, by intro x hx; simp at hx ⊢; tauto,
      fun x hx _ => hfr x hx, by omega⟩

theorem callAll_frame (ops : List (Op α)) {l a : BiDirectionalList} {h : Heap α}
    {ps qs : List Nat} (hr : Rep l h ps) (ha : Rep a h qs) (hdis : ∀ x ∈ qs, x ∉ ps)
    (hadm : Admissible l h ops) :
    ∃ l' h' ps', callAll l h ops = .ok (l', h') ∧ Rep l' h' ps' ∧ Rep a h' qs ∧
      vals h' qs = vals h qs ∧ (∀ x ∈ qs, x ∉ ps') ∧
      (∀ x ∈ qs, h'.read x = h.read x) := by
  induction ops generalizing l h ps with
  | nil => exact ⟨l, h, ps, rfl, hr, ha, rfl, hdis, fun _ _ => rfl⟩
  | cons op rest ih =>
    obtain ⟨hpre, hrest⟩ := hadm
    obtain ⟨l1, h1, ps1, hop, hrep, hsub, hfr, _⟩ := op_call_rep op hr hpre
    rw [hop] at hrest
    have hqlt : ∀ x ∈ qs, x ≠ h.cells.length := fun x hx => Nat.ne_of_lt (rep_lt ha hx)
    have hfq : ∀ x ∈ qs, h1.read x = h.read x := fun x hx => hfr x (hdis x hx) (hqlt x hx)
    obtain ⟨ha1, hv1⟩ := rep_frame ha hfq
    have hdis1 : ∀ x ∈ qs, x ∉ ps1 := by
      intro x hx hmem
      rcases hsub x hmem with h1' | h2'
      · exact hdis x hx h1'
      · exact hqlt x hx h2'
    obtain ⟨l', h', ps', hall, hrep', ha', hv', hdis', hfr'⟩ := ih hrep ha1 hdis1 hrest
    refine ⟨l', h', ps', ?_, hrep', ha', by rw [hv', hv1], hdis', ?_⟩
    · simp only [callAll, hop]
      exact hall
    · intro x hx
      rw [hfr' x hx, hfq x hx]

theorem copy_ctor_rep {a : BiDirectionalList} {h : Heap α} {qs : List Nat}
    (ha : Rep a h qs) :
    ∃ b h' ns, BiDirectionalList.copy_ctor a h = .ok (b, h') ∧ Rep b h' ns ∧
      vals h' ns = vals h qs ∧ b.size_ = a.size_ ∧
      (∀ x ∈ ns, h.cells.length ≤ x) ∧
      (∀ x, x < h.cells.length → h'.read x = h.read x) ∧
      h.cells.length ≤ h'.cells.length := by
  have hempty : Rep ({} : BiDirectionalList) h [] := (rep_nil_iff _ _).2 ⟨rfl, rfl, rfl⟩
  obtain ⟨b, h', ns, hop, hrep, hv, hsz, hnew, hfr, hlen⟩ :=
    copyLoop_rep qs hempty ha.1 (by simp) (h.cells.length + 1)
      (Nat.le_succ_of_le (path_length_le ha.1)) (by
        have hle := rep_le ha
        rw [rep_size ha] at hle
        show (0 : Int) + _ ≤ _
        simpa using hle)
  refine ⟨b, h', ns, hop, by simpa using hrep, by simpa [vals_nil] using hv, ?_, hnew,
    fun x hx => hfr x (by simp) hx, hlen⟩
  rw [hsz, rep_size ha]
  show (0 : Int) + _ = _
  simp

theorem copy_assign_rep {a b : BiDirectionalList} {h : Heap α} {ps qs : List Nat}
    (ha : Rep a h ps) (hb : Rep b h qs) (hne : a.begin_ptr_ ≠ b.begin_ptr_) :
    ∃ a' h' ns, copy_assign a b h = .ok (a', h') ∧ Rep a' h' ns ∧
      vals h' ns = vals h qs ∧ a'.size_ = b.size_ ∧
      (∀ x ∈ ns, h.cells.length ≤ x) ∧
      (∀ x ∈ ps, h'.read x = none) ∧
      (∀ x, x ∉ ps → x < h.cells.length → h'.read x = h.read x) ∧
      h.cells.length ≤ h'.cells.length := by
  have hdis := rep_disjoint_of_begin_ne ha hb hne
  obtain ⟨h1, hc, hnone, hfr1, hlen1⟩ := CleanTheList_rep ha
  have hempty : Rep (⟨none, none, 0⟩ : BiDirectionalList) h1 [] :=
    (rep_nil_iff _ _).2 ⟨rfl, rfl, rfl⟩
  have hfq : ∀ x ∈ qs, h1.read x = h.read x := fun x hx =>
    hfr1 x (fun hxp => hdis x hxp hx)
  obtain ⟨hb1, hv1⟩ := rep_frame hb hfq
  obtain ⟨a', h', ns, hop, hrep, hv, hsz, hnew, hfr, hlen⟩ :=
    copyLoop_rep qs hempty hb1.1 (by simp) (h1.cells.length + 1)
      (Nat.le_succ_of_le (path_length_le hb1.1)) (by
        have hle := rep_le hb
        rw [rep_size hb] at hle
        show (0 : Int) + _ ≤ _
        simpa using hle)
  refine ⟨a', h', ns, ?_, by simpa using hrep, ?_, ?_, ?_, ?_, ?_, by omega⟩
  · unfold copy_assign
    rw [if_neg hne, hc]
    exact hop
  · rw [← hv1]
    simpa [vals_nil] using hv
  · rw [hsz, rep_size hb]
    show (0 : Int) + _ = _
    simp
  · intro x hx
    have := hnew x hx
    omega
  · intro x hx
    rw [hfr x (by simp) (by rw [hlen1]; exact rep_lt ha hx), hnone x hx]
  · intro x hx hlt
    rw [hfr x (by simp) (by omega), hfr1 x hx]

theorem findLoop_findAllLoop [DecidableEq α] {h : Heap α} {ps : List Nat} {p : Ptr}
    (hp : Path Node.next_ptr_ h p ps none) (v : α) (i : Int) (hi : 0 ≤ i) :
    ∃ r rs, findLoop h v ps.length p i = .ok r ∧
      (∀ acc, findAllLoop h v ps.length p i acc = .ok (acc ++ rs)) ∧
      (r = -1 ↔ rs = []) ∧ (r ≠ -1 → rs.head? = some r) ∧ rs.length ≤ ps.length ∧
      ∀ j ∈ rs, i ≤ j ∧ j < i + ps.length := by
  induction ps generalizing p i with
  | nil =>
    exact ⟨-1, [], rfl, fun acc => by simp [findAllLoop], by simp, by simp, by simp, by simp⟩
  | cons a as ih =>
    obtain ⟨hpa, nd, hrd, hrest⟩ := hp
    subst hpa
    obtain ⟨r', rs', hf, hfa, hiff, hhead, hlen, hmem⟩ := ih hrest (i + 1) (by omega)
    by_cases hv : nd.value = v
    · refine ⟨i, i :: rs', ?_, ?_, ?_, ?_, ?_, ?_⟩
      · simp only [List.length_cons, findLoop, hrd, if_pos hv]
      · intro acc
        simp only [List.length_cons, findAllLoop, hrd, if_pos hv]
        rw [hfa]
        simp
      · constructor
        · intro hneg
          omega
        · intro hnil
          cases hnil
      · intro _
        rfl
      · simp
        omega
      · intro j hj
        rcases List.mem_cons.1 hj with rfl | hj
        · simp
        · have := hmem j hj
          simp only [List.length_cons]
          push_cast
          omega
    · refine ⟨r', rs', ?_, ?_, hiff, hhead, ?_, ?_⟩
      · simp only [List.length_cons, findLoop, hrd, if_neg hv]
        exact hf
      · intro acc
        simp only [List.length_cons, findAllLoop, hrd, if_neg hv]
        exact hfa acc
      · simp
        omega
      · intro j hj
        have := hmem j hj
        simp only [List.length_cons]
        push_cast
        omega

theorem noAssert_ok {σ β : Type} (b : β) : NoAssert (.ok b : Except (Fault σ) β) := by
  intro st hh
  cases hh

theorem noAssert_bind {σ β γ : Type} {x : Except (Fault σ) β} {f : β → Except (Fault σ) γ}
    (hx : NoAssert x) (hf : ∀ b, NoAssert (f b)) : NoAssert (x >>= f) := by
  cases x with
  | ok b => exact hf b
  | error e =>
    intro st hh
    apply hx st
    cases hh
    rfl

theorem noAssert_deref {σ : Type} (h : Heap α) (p : Ptr) :
    NoAssert (h.deref p : Except (Fault σ) (Node α)) := by
  intro st
  unfold Heap.deref
  split
  · simp
  · split <;> simp

theorem noAssert_setPrev {σ : Type} (h : Heap α) (p q : Ptr) :
    NoAssert (h.setPrev p q : Except (Fault σ) (Heap α)) := by
  intro st
  unfold Heap.setPrev
  split
  · simp
  · split <;> simp

theorem noAssert_setNext {σ : Type} (h : Heap α) (p q : Ptr) :
    NoAssert (h.setNext p q : Except (Fault σ) (Heap α)) := by
  intro st
  unfold Heap.setNext
  split
  · simp
  · split <;> simp

theorem noAssert_delete {σ : Type} (h : Heap α) (p : Ptr) :
    NoAssert (h.delete p : Except (Fault σ) (Heap α)) := by
  intro st
  unfold Heap.delete
  split
  · simp
  · split <;> simp

theorem noAssert_increment {σ : Type} (n : Int) :
    NoAssert (increment n : Except (Fault σ) Int) := by
  intro st
  unfold increment
  split <;> simp

theorem noAssert_PopBack (l : BiDirectionalList) (h : Heap α) (hl : l.last_ptr_ ≠ none) :
    NoAssert (PopBack l h) := by
  unfold PopBack
  rw [if_neg hl]
  refine noAssert_bind (noAssert_deref _ _) (fun b => ?_)
  refine noAssert_bind (noAssert_delete _ _) (fun h1 => ?_)
  split
  · exact noAssert_bind (noAssert_setNext _ _ _) (fun h2 => noAssert_ok _)
  · exact noAssert_ok _

theorem noAssert_PopFront (l : BiDirectionalList) (h : Heap α) (hl : l.begin_ptr_ ≠ none) :
    NoAssert (PopFront l h) := by
  unfold PopFront
  rw [if_neg hl]
  refine noAssert_bind (noAssert_deref _ _) (fun b => ?_)
  refine noAssert_bind (noAssert_delete _ _) (fun h1 => ?_)
  split
  · exact noAssert_bind (noAssert_setPrev _ _ _) (fun h2 => noAssert_ok _)
  · exact noAssert_ok _

theorem noAssert_Erase (l : BiDirectionalList) (h : Heap α) (e : Nat) :
    NoAssert (Erase l h (some e)) := by
  unfold Erase
  rw [if_neg (by simp)]
  split
  · rename_i hl
    exact noAssert_PopBack l h (by rw [← hl]; simp)
  · split
    · rename_i hb
      exact noAssert_PopFront l h (by rw [← hb]; simp)
    · refine noAssert_bind (noAssert_deref _ _) (fun b => ?_)
      refine noAssert_bind (noAssert_setPrev _ _ _) (fun h1 => ?_)
      refine noAssert_bind (noAssert_deref _ _) (fun b1 => ?_)
      refine noAssert_bind (noAssert_setNext _ _ _) (fun h2 => ?_)
      exact noAssert_bind (noAssert_delete _ _) (fun h3 => noAssert_ok _)

theorem noAssert_InsertBefore (l : BiDirectionalList) (h : Heap α) (e : Nat) (v : α) :
    NoAssert (InsertBefore l h (some e) v) := by
  unfold InsertBefore
  rw [if_neg (by simp)]
  refine noAssert_bind (noAssert_increment _) (fun size => ?_)
  simp only [Heap.alloc]
  split
  · refine noAssert_bind (noAssert_setPrev _ _ _) (fun h2 => ?_)
    exact noAssert_bind (noAssert_deref _ _) (fun b => noAssert_ok _)
  · refine noAssert_bind (noAssert_deref _ _) (fun b => ?_)
    refine noAssert_bind (noAssert_deref _ _) (fun b1 => ?_)
    refine noAssert_bind (noAssert_setNext _ _ _) (fun h2 => ?_)
    refine noAssert_bind (noAssert_deref _ _) (fun b2 => ?_)
    refine noAssert_bind (noAssert_deref _ _) (fun b3 => ?_)
    exact noAssert_bind (noAssert_setPrev _ _ _) (fun h3 => noAssert_ok _)

theorem noAssert_InsertAfter (l : BiDirectionalList) (h : Heap α) (e : Nat) (v : α) :
    NoAssert (InsertAfter l h (some e) v) := by
  unfold InsertAfter
  rw [if_neg (by simp)]
  refine noAssert_bind (noAssert_increment _) (fun size => ?_)
  simp only [Heap.alloc]
  split
  · refine noAssert_bind (noAssert_setNext _ _ _) (fun h2 => ?_)
    exact noAssert_bind (noAssert_deref _ _) (fun b => noAssert_ok _)
  · refine noAssert_bind (noAssert_deref _ _) (fun b => ?_)
    refine noAssert_bind (noAssert_deref _ _) (fun b1 => ?_)
    refine noAssert_bind (noAssert_setPrev _ _ _) (fun h2 => ?_)
    refine noAssert_bind (noAssert_deref _ _) (fun b2 => ?_)
    refine noAssert_bind (noAssert_deref _ _) (fun b3 => ?_)
    exact noAssert_bind (noAssert_setNext _ _ _) (fun h3 => noAssert_ok _)

theorem zerosHeap_read (n i : Nat) (hi : i < n) :
    (zerosHeap n).read i =
      some ⟨0, if i = 0 then none else some (i - 1),
        if i + 1 = n then none else some (i + 1)⟩ := by
  simp [zerosHeap, Heap.read, List.getElem?_range hi]

theorem zerosHeap_length (n : Nat) : (zerosHeap n).cells.length = n := by
  simp [zerosHeap]

theorem zerosHeap_next (n : Nat) (m k : Nat) (hk : k + m = n) :
    Path Node.next_ptr_ (zerosHeap n) (if m = 0 then none else some k) (List.range' k m)
      none := by
  induction m generalizing k with
  | zero => simp [Path]
  | succ m ih =>
    simp only [List.range'_succ, Nat.succ_ne_zero, if_false]
    refine ⟨rfl, _, zerosHeap_read n k (by omega), ?_⟩
    have := ih (k + 1) (by omega)
    have hiff : (k + 1 = n) ↔ m = 0 := by omega
    simp only [hiff]
    exact this

theorem zerosHeap_prev (n : Nat) (k : Nat) (hk : k ≤ n) :
    Path Node.prev_ptr_ (zerosHeap n) (if k = 0 then none else some (k - 1))
      (List.range k).reverse none := by
  induction k with
  | zero => simp [Path]
  | succ k ih =>
    simp only [List.range_succ, List.reverse_append, List.reverse_cons, List.reverse_nil,
      List.nil_append, List.singleton_append, Nat.succ_ne_zero, if_false, Nat.add_sub_cancel]
    exact ⟨rfl, _, zerosHeap_read n k (by omega), ih (by omega)⟩

theorem zeros_rep (n : Nat) (hn : (n : Int) ≤ INT_MAX) :
    Rep (zerosList n) (zerosHeap n) (List.range n) := by
  refine ⟨?_, ?_, by simp [zerosList], hn⟩
  · rw [List.range_eq_range']
    exact zerosHeap_next n n 0 (by omega)
  · exact zerosHeap_prev n n (le_refl _)

theorem zeros_vals (n : Nat) : vals (zerosHeap n) (List.range n) = List.replicate n 0 := by
  unfold vals
  rw [List.filterMap_congr (g := fun _ => some (0 : Int))]
  · have hsome : (fun _ : Nat => some (0 : Int)) = some ∘ (fun _ => 0) := rfl
    rw [hsome, List.filterMap_eq_map]
    apply List.ext_getElem
    · simp
    · intro i h1 h2
      simp
  · intro a ha
    rw [zerosHeap_read n a (List.mem_range.1 ha)]
    rfl

theorem zerosHeap_read_none (n i : Nat) (hi : n ≤ i) : (zerosHeap n).read i = none := by
  simp [zerosHeap, Heap.read, List.getElem?_eq_none, hi]

theorem PushBack_zeros (k : Nat) (hk : (k : Int) < INT_MAX) :
    PushBack (zerosList k) (zerosHeap k) 0 = .ok (zerosList (k + 1), zerosHeap (k + 1)) := by
  cases k with
  | zero => rfl
  | succ j =>
    let nd : Node Int := ⟨0, if j = 0 then none else some (j - 1), none⟩
    have hrj : (zerosHeap (j + 1)).read j = some nd := by
      rw [zerosHeap_read (j + 1) j (by omega)]
      simp [nd]
    let nq : Node Int := ⟨0, some j, none⟩
    have hlen := zerosHeap_length (j + 1)
    have hr1 : ((zerosHeap (j + 1)).alloc nq).2.read j = some nd := by
      rw [read_alloc, if_neg (by rw [hlen]; omega), hrj]
    have hnz : ¬ (zerosList (j + 1)).size_ = 0 := by
      simp [zerosList]
      omega
    have hlast : (zerosList (j + 1)).last_ptr_ = some j := by simp [zerosList]
    have hk' : (zerosList (j + 1)).size_ < INT_MAX := hk
    have hb : some j = (zerosList (j + 1)).last_ptr_ := hlast.symm
    unfold PushBack
    rw [if_neg hnz, hlast]
    unfold InsertAfter
    rw [if_neg (by simp), increment_ok (State Int) hk']
    simp only [bind_ok, pure_eq_ok, if_pos hb]
    have hsn := setNext_ok (State Int) hr1 (some (zerosHeap (j + 1)).cells.length)
    have hr2' := read_write_self hr1
      { nd with next_ptr_ := some (zerosHeap (j + 1)).cells.length }
    have hd := deref_ok (State Int) hr2'
    simp only [nq, Heap.alloc] at hsn hd ⊢
    rw [hsn]
    simp only [bind_ok]
    rw [hd]
    simp only [bind_ok, pure_eq_ok]
    congr 1
    refine Prod.ext ?_ ?_
    · simp [zerosList, hlen]
    · apply heap_ext
      · simp [zerosHeap_length]
      · intro a
        show (((zerosHeap (j + 1)).alloc nq).2.write j
          { nd with next_ptr_ := some (zerosHeap (j + 1)).cells.length }).read a =
          (zerosHeap (j + 1 + 1)).read a
        by_cases haj : a = j
        · subst haj
          rw [hr2', zerosHeap_read (a + 1 + 1) a (by omega)]
          simp [nd, hlen]
        · rw [read_write_ne _ haj, read_alloc, hlen]
          by_cases haq : a = j + 1
          · subst haq
            rw [if_pos rfl, zerosHeap_read (j + 1 + 1) (j + 1) (by omega)]
            simp [nq]
          · rw [if_neg haq]
            by_cases hlt : a < j
            · rw [zerosHeap_read (j + 1) a (by omega), zerosHeap_read (j + 1 + 1) a (by omega)]
              have h1 : ¬ a + 1 = j + 1 := by omega
              have h2 : ¬ a + 1 = j + 1 + 1 := by omega
              simp [h1, h2]
            · rw [zerosHeap_read_none _ _ (by omega), zerosHeap_read_none _ _ (by omega)]

theorem callAll_PushBack_zeros (m k : Nat) (hk : ((k + m : Nat) : Int) ≤ INT_MAX) :
    callAll (zerosList k) (zerosHeap k) (List.replicate m (Op.PushBack 0)) =
      .ok (zerosList (k + m), zerosHeap (k + m)) := by
  induction m generalizing k with
  | zero => rfl
  | succ m ih =>
    have hlt : (k : Int) < INT_MAX := by
      push_cast at hk
      omega
    have hstep : (Op.PushBack (0 : Int)).call (zerosList k) (zerosHeap k) =
        .ok (zerosList (k + 1), zerosHeap (k + 1)) := PushBack_zeros k hlt
    simp only [List.replicate_succ, callAll, hstep]
    rw [ih (k + 1) (by rw [show k + 1 + m = k + (m + 1) by omega]; exact hk)]
    rw [show k + 1 + m = k + (m + 1) by omega]

theorem full_built :
    callAll {} (Heap.empty : Heap Int) (List.replicate 2147483647 (Op.PushBack 0)) =
      .ok (fullList, fullHeap) :=
  callAll_PushBack_zeros 2147483647 0 (by decide)

theorem full_rep : Rep fullList fullHeap (List.range 2147483647) :=
  zeros_rep 2147483647 (by decide)


theorem InsertBefore_overflow (l : BiDirectionalList) (h : Heap α) (e : Nat) (v : α)
    (hmax : ¬ l.size_ < INT_MAX) :
    InsertBefore l h (some e) v = .error .undefinedBehaviour := by
  unfold InsertBefore
  rw [if_neg (by simp), increment_overflow (State α) hmax]
  rfl

theorem InsertAfter_overflow (l : BiDirectionalList) (h : Heap α) (e : Nat) (v : α)
    (hmax : ¬ l.size_ < INT_MAX) :
    InsertAfter l h (some e) v = .error .undefinedBehaviour := by
  unfold InsertAfter
  rw [if_neg (by simp), increment_overflow (State α) hmax]
  rfl

theorem PushBack_overflow {l : BiDirectionalList} {h : Heap α} {ps : List Nat}
    (hr : Rep l h ps) (v : α) (hmax : ¬ l.size_ < INT_MAX) :
    PushBack l h v = .error .undefinedBehaviour := by
  have hnz : ¬ l.size_ = 0 := by
    intro hz
    apply hmax
    rw [hz]
    decide
  have hne : ps ≠ [] := fun hnil => hnz ((rep_size_zero_iff hr).2 hnil)
  obtain ⟨e, he⟩ : ∃ e, l.last_ptr_ = some e := by
    rw [rep_last hr]
    exact ⟨ps.getLast hne, List.getLast?_eq_getLast ps hne⟩
  unfold PushBack
  rw [if_neg hnz, he]
  exact InsertAfter_overflow l h e v hmax

theorem PushFront_overflow {l : BiDirectionalList} {h : Heap α} {ps : List Nat}
    (hr : Rep l h ps) (v : α) (hmax : ¬ l.size_ < INT_MAX) :
    PushFront l h v = .error .undefinedBehaviour := by
  have hnz : ¬ l.size_ = 0 := by
    intro hz
    apply hmax
    rw [hz]
    decide
  have hne : ps ≠ [] := fun hnil => hnz ((rep_size_zero_iff hr).2 hnil)
  obtain ⟨e, he⟩ : ∃ e, l.begin_ptr_ = some e := by
    rw [rep_begin hr]
    cases ps with
    | nil => exact absurd rfl hne
    | cons a as => exact ⟨a, rfl⟩
  unfold PushFront
  rw [if_neg hnz, he]
  exact InsertBefore_overflow l h e v hmax

theorem pushBackAll_overflow (init : List α) (v : α) {l : BiDirectionalList} {h : Heap α}
    {ps : List Nat} (hr : Rep l h ps) (hb : l.size_ + init.length = INT_MAX) :
    pushBackAll l h (init ++ [v]) = .error .undefinedBehaviour := by
  induction init generalizing l h ps with
  | nil =>
    have hmax : ¬ l.size_ < INT_MAX := by
      simp at hb
      omega
    simp only [List.nil_append, pushBackAll, PushBack_overflow hr v hmax]
  | cons a rest ih =>
    simp only [List.length_cons] at hb
    push_cast at hb
    obtain ⟨l1, h1, hop, hrep, _, hsz, _⟩ := PushBack_rep hr a (by omega)
    simp only [List.cons_append, pushBackAll, hop]
    exact ih hrep (by omega)

theorem full_contents :
    ToVector fullList fullHeap = .ok (List.replicate 2147483647 0) := by
  rw [ToVector_rep full_rep]
  exact congrArg _ (zeros_vals _)

theorem full_isNodeOf : IsNodeOf fullList fullHeap (some 0) := by
  show 0 ∈ nodes fullList fullHeap
  rw [rep_nodes full_rep]
  exact List.mem_range.2 (by decide)

theorem replicate_succ_overflow (n : Nat) (hn : (n : Int) = INT_MAX) :
    BiDirectionalList.init_list_ctor (Heap.empty : Heap Int) (List.replicate (n + 1) 0) =
      .error .undefinedBehaviour := by
  unfold BiDirectionalList.init_list_ctor
  rw [List.replicate_succ']
  exact pushBackAll_overflow _ _ ((rep_nil_iff _ _).2 ⟨rfl, rfl, rfl⟩) (by
    show (0 : Int) + _ = _
    rw [List.length_replicate, zero_add]
    exact hn)

end Operations

/-! ## The contract -/

section Contract

variable {α : Type}

/-- C1, as amended: well-formedness is an invariant.  The default-constructed
list is well-formed; every call of `PushFront`, `PushBack`, `InsertBefore`,
`InsertAfter`, `PopFront`, `PopBack` or `Erase` made on a well-formed list
within its precondition `Op.pre`, which for the four calls that add a node
includes `Size() < INT_MAX`, returns and leaves a well-formed list; hence after
every sequence of such calls `Size()` is the length of `ToVector()` and the
backward walk is the reverse of the forward walk. -/
theorem wellFormed_invariant (α : Type) :
    (∀ h : Heap α, WellFormed BiDirectionalList.default_ctor h) ∧
    (∀ (op : Op α) (l : BiDirectionalList) (h : Heap α), WellFormed l h → op.pre l h →
      ∃ l' h', op.call l h = .ok (l', h') ∧ WellFormed l' h') ∧
    (∀ (ops : List (Op α)) (l : BiDirectionalList) (h : Heap α),
      WellFormed l h → Admissible l h ops →
      ∃ l' h', callAll l h ops = .ok (l', h') ∧ WellFormed l' h' ∧
        (∃ s, ToVector l' h' = .ok s ∧ Size l' = s.length) ∧
        nodesBackward l' h' = (nodes l' h').reverse) := by
  refine ⟨default_ctor_wellFormed, op_call_wellFormed, ?_⟩
  intro ops l h hw ha
  obtain ⟨l', h', hall, hw'⟩ := callAll_wellFormed ops l h hw ha
  have hr := rep_of_wellFormed hw'
  refine ⟨l', h', hall, hw', ⟨_, ToVector_rep hr, ?_⟩, ?_⟩
  · rw [rep_length_vals hr]
    exact rep_size hr
  · rw [rep_nodesBackward hr]

/-- Witness of C1: on the well-formed list `[5, 10, 20]`, erasing the middle
node, pushing `7` at the back and popping the front is an admissible sequence
of calls. -/
theorem wellFormed_invariant_witness :
    WellFormed sample3 sampleHeap3 ∧
    Admissible sample3 sampleHeap3
      [Op.Erase (some 0), Op.PushBack 7, Op.PopFront] ∧
    ∃ l' h', callAll sample3 sampleHeap3
      [Op.Erase (some 0), Op.PushBack 7, Op.PopFront] = .ok (l', h') ∧ WellFormed l' h' ∧
        (∃ s, ToVector l' h' = .ok s ∧ Size l' = s.length) ∧
        nodesBackward l' h' = (nodes l' h').reverse :=
  ⟨by decide, by decide, (wellFormed_invariant Int).2.2 _ _ _ (by decide) (by decide)⟩

/-- Counterexample to C1 as stated: the list `fullList` of `INT_MAX` zeros,
which 2147483647 calls of `PushBack(0)` build from the empty list, is
well-formed and address 0 is its head, yet none of `PushFront(7)`,
`PushBack(7)`, `InsertBefore(head, 7)` and `InsertAfter(head, 7)` leaves a
well-formed list: each executes `size_++` with `size_ == INT_MAX`, a signed
overflow, which is undefined behaviour (where the overflow wraps around, it
leaves `size_ == -2147483648` for a chain of 2147483648 nodes). -/
theorem size_overflow_breaks_invariant :
    callAll {} (Heap.empty : Heap Int) (List.replicate 2147483647 (Op.PushBack 0)) =
      .ok (fullList, fullHeap) ∧
    WellFormed fullList fullHeap ∧ Size fullList = 2147483647 ∧
    IsNodeOf fullList fullHeap (some 0) ∧
    (Op.PushFront 7).call fullList fullHeap = .error .undefinedBehaviour ∧
    (Op.PushBack 7).call fullList fullHeap = .error .undefinedBehaviour ∧
    (Op.InsertBefore (some 0) 7).call fullList fullHeap = .error .undefinedBehaviour ∧
    (Op.InsertAfter (some 0) 7).call fullList fullHeap = .error .undefinedBehaviour :=
  ⟨full_built, wellFormed_of_rep full_rep, rfl, full_isNodeOf, rfl, rfl, rfl, rfl⟩

/-- C2, as amended: on a well-formed list with contents `s` and
`Size() < INT_MAX`, `PushBack(v)` returns with contents `s` followed by `v` and
`PushFront(v)` returns with contents `v` followed by `s`; both grow `Size()` by
exactly 1; when `s` is empty the head and the tail are the same, newly
allocated node holding `v`; and the move overloads give the same result as the
copy overloads. -/
theorem PushBack_PushFront_contents (l : BiDirectionalList) (h : Heap α) (s : List α) (v : α)
    (hw : WellFormed l h) (hs : ToVector l h = .ok s) (hlt : Size l < INT_MAX) :
    (∃ l' h', PushBack l h v = .ok (l', h') ∧ WellFormed l' h' ∧
      ToVector l' h' = .ok (s ++ [v]) ∧ Size l' = Size l + 1 ∧
      (s = [] → l'.begin_ptr_ = l'.last_ptr_ ∧ ∃ q, l'.begin_ptr_ = some q ∧
        h.read q = none ∧ h'.read q = some ⟨v, none, none⟩)) ∧
    (∃ l' h', PushFront l h v = .ok (l', h') ∧ WellFormed l' h' ∧
      ToVector l' h' = .ok (v :: s) ∧ Size l' = Size l + 1 ∧
      (s = [] → l'.begin_ptr_ = l'.last_ptr_ ∧ ∃ q, l'.begin_ptr_ = some q ∧
        h.read q = none ∧ h'.read q = some ⟨v, none, none⟩)) ∧
    PushBack_move l h v = PushBack l h v ∧ PushFront_move l h v = PushFront l h v := by
  have hr := rep_of_wellFormed hw
  have hsv := contents_of_rep hr hs
  have hempty : s = [] → nodes l h = [] := by
    intro he
    have hlen := rep_length_vals hr
    rw [← hsv, he] at hlen
    exact List.length_eq_zero.1 hlen.symm
  have hsingle : ∀ (l' : BiDirectionalList) (h' : Heap α),
      Rep l' h' [h.cells.length] → vals h' [h.cells.length] = [v] →
      l'.begin_ptr_ = l'.last_ptr_ ∧ ∃ q, l'.begin_ptr_ = some q ∧
        h.read q = none ∧ h'.read q = some ⟨v, none, none⟩ := by
    intro l' h' hrep hv
    have hb := rep_begin hrep
    have hl := rep_last hrep
    obtain ⟨nd, hrd, hn, hp⟩ := rep_read (show Rep l' h' ([] ++ h.cells.length :: []) from hrep)
    rw [vals_cons hrd] at hv
    have hval : nd.value = v := by simpa [vals_nil] using hv
    refine ⟨by rw [hb, hl]; rfl, h.cells.length, by rw [hb]; rfl, read_length h, ?_⟩
    rw [hrd]
    cases nd
    simp_all
  refine ⟨?_, ?_, rfl, rfl⟩
  · obtain ⟨l', h', hop, hrep, hv, hsz, _⟩ := PushBack_rep hr v hlt
    refine ⟨l', h', hop, wellFormed_of_rep hrep, ?_, hsz, ?_⟩
    · rw [ToVector_rep hrep, hv, hsv]
    · intro he
      rw [hempty he] at hrep hv
      exact hsingle l' h' hrep (by simpa [vals_nil] using hv)
  · obtain ⟨l', h', hop, hrep, hv, hsz, _⟩ := PushFront_rep hr v hlt
    refine ⟨l', h', hop, wellFormed_of_rep hrep, ?_, hsz, ?_⟩
    · rw [ToVector_rep hrep, hv, hsv]
    · intro he
      rw [hempty he] at hrep hv
      exact hsingle l' h' hrep (by simpa [vals_nil] using hv)

/-- Witness of C2 on the list `[5, 10, 20]`. -/
theorem PushBack_PushFront_contents_witness :
    WellFormed sample3 sampleHeap3 ∧
    ∃ l' h', PushBack sample3 sampleHeap3
      7 = .ok (l', h') ∧ ToVector l' h' = .ok [5, 10, 20, 7] :=
  ⟨by decide,
    let ⟨l', h', hop, _, hv, _⟩ := (PushBack_PushFront_contents sample3 sampleHeap3
      [5, 10, 20] 7 (by decide) rfl (by decide)).1
    ⟨l', h', hop, hv⟩⟩

/-- Counterexample to C2 as stated: on the well-formed list `fullList` of
`INT_MAX` zeros, which 2147483647 calls of `PushBack(0)` build from the empty
list, neither `PushBack(7)` nor `PushFront(7)`, in either overload, returns a
list with one more element: `size_ != 0`, so the call goes to
`InsertAfter(last_ptr_, 7)` or `InsertBefore(begin_ptr_, 7)`, and there
`size_++` overflows, which is undefined behaviour. -/
theorem PushBack_PushFront_overflow :
    callAll {} (Heap.empty : Heap Int) (List.replicate 2147483647 (Op.PushBack 0)) =
      .ok (fullList, fullHeap) ∧
    WellFormed fullList fullHeap ∧
    ToVector fullList fullHeap = .ok (List.replicate 2147483647 0) ∧
    Size fullList = 2147483647 ∧
    PushBack fullList fullHeap 7 = .error .undefinedBehaviour ∧
    PushBack_move fullList fullHeap 7 = .error .undefinedBehaviour ∧
    PushFront fullList fullHeap 7 = .error .undefinedBehaviour ∧
    PushFront_move fullList fullHeap 7 = .error .undefinedBehaviour :=
  ⟨full_built, wellFormed_of_rep full_rep, full_contents, rfl, rfl, rfl, rfl, rfl⟩

/-- C3: on a well-formed list with contents `s` and for `0 <= i < Size()`,
`Erase(At(i))` returns with contents `s` without the element at position `i`
and with `Size()` decreased by exactly 1; the tail is erased by `PopBack`, the
head of a longer list by `PopFront`; erasing the sole element leaves
`begin_ptr_` and `last_ptr_` null and `size_ == 0`. -/
theorem Erase_At_contents (l : BiDirectionalList) (h : Heap α) (s : List α) (i : Int)
    (hw : WellFormed l h) (hs : ToVector l h = .ok s) (h0 : 0 ≤ i) (hi : i < Size l) :
    ∃ p l' h', At l h i = .ok p ∧ Erase l h p = .ok (l', h') ∧ WellFormed l' h' ∧
      ToVector l' h' = .ok (s.eraseIdx i.toNat) ∧ Size l' = Size l - 1 ∧
      (i = Size l - 1 → Erase l h p = PopBack l h) ∧
      (i = 0 → 1 < Size l → Erase l h p = PopFront l h) ∧
      (Size l = 1 → l'.begin_ptr_ = none ∧ l'.last_ptr_ = none ∧ l'.size_ = 0) := by
  have hr := rep_of_wellFormed hw
  have hsv := contents_of_rep hr hs
  have hsz := rep_size hr
  have hilt : i.toNat < (nodes l h).length := by
    unfold Size at hi
    omega
  obtain ⟨xs, e, ys, hsplit, hxs⟩ := split_at_index _ _ hilt
  rw [hsplit] at hr hsv hsz
  have hix : i = (xs.length : Int) := by omega
  obtain ⟨l', h', hop, hrep, hv, hsz', _⟩ := Erase_rep hr
  obtain ⟨nd, hrd, hpre, _, _, _, _⟩ := (rep_zip l h xs ys e).1 hr
  have hlx : (vals h xs).length = xs.length := vals_length hpre
  refine ⟨some e, l', h', by rw [hix]; exact At_rep hr, hop, wellFormed_of_rep hrep, ?_, hsz',
    ?_, ?_, ?_⟩
  · rw [ToVector_rep hrep, hv, hsv, vals_append, vals_cons hrd,
      List.eraseIdx_append_of_length_le (by rw [hlx, hxs])]
    simp [hlx, hxs]
  · intro hlast
    have hys : ys = [] := by
      unfold Size at hlast
      rw [hsz] at hlast
      simp at hlast
      have : ys.length = 0 := by omega
      exact List.length_eq_zero.1 this
    subst hys
    exact Erase_last hr
  · intro hzero hlong
    have hxs0 : xs = [] := List.length_eq_zero.1 (by omega)
    subst hxs0
    unfold Size at hlong
    rw [hsz] at hlong
    cases ys with
    | nil => simp at hlong
    | cons b ys0 => exact Erase_first hr
  · intro hone
    unfold Size at hone
    rw [hsz] at hone
    simp at hone
    have hx0 : xs = [] := List.length_eq_zero.1 (by omega)
    have hy0 : ys = [] := List.length_eq_zero.1 (by omega)
    subst hx0
    subst hy0
    exact (rep_nil_iff _ _).1 hrep

/-- Witness of C3: erasing the middle node of `[5, 10, 20]`. -/
theorem Erase_At_contents_witness :
    WellFormed sample3 sampleHeap3 ∧
    ∃ p l' h', At sample3 sampleHeap3
      1 = .ok p ∧
      Erase sample3 sampleHeap3
      p = .ok (l', h') ∧ ToVector l' h' = .ok [5, 20] :=
  ⟨by decide,
    let ⟨p, l', h', hat, hop, _, hv, _⟩ := Erase_At_contents sample3 sampleHeap3
      [5, 10, 20] 1 (by decide) rfl (by decide) (by decide)
    ⟨p, l', h', hat, hop, hv⟩⟩

/-- C4, as amended: on a well-formed list with contents `s` and
`Size() < INT_MAX`, for `0 <= i < Size()`, `InsertBefore(At(i), v)`, in the
overload `InsertBefore(Node*, const T&)` and in the overload
`InsertBefore(Node*, T&&)` alike, returns with contents the first `i` elements
of `s`, then `v`, then the remaining elements of `s`, and with `Size()`
increased by exactly 1; when `i = 0` the new node is the head, so `Front()` has
value `v`. -/
theorem InsertBefore_At_contents (l : BiDirectionalList) (h : Heap α) (s : List α) (i : Int)
    (v : α) (hw : WellFormed l h) (hs : ToVector l h = .ok s) (h0 : 0 ≤ i)
    (hi : i < Size l) (hlt : Size l < INT_MAX) :
    ∃ p l' h', At l h i = .ok p ∧ InsertBefore l h p v = .ok (l', h') ∧
      InsertBefore_move l h p v = .ok (l', h') ∧ WellFormed l' h' ∧
      ToVector l' h' = .ok (s.take i.toNat ++ v :: s.drop i.toNat) ∧
      Size l' = Size l + 1 ∧
      (i = 0 →
        ∃ q nd, Front l' h' = .ok (some q) ∧ h'.read q = some nd ∧ nd.value = v) := by
  have hr := rep_of_wellFormed hw
  have hsv := contents_of_rep hr hs
  have hilt : i.toNat < (nodes l h).length := by
    have := rep_size hr
    unfold Size at hi
    omega
  obtain ⟨xs, e, ys, hsplit, hxs⟩ := split_at_index _ _ hilt
  rw [hsplit] at hr hsv
  have hix : i = (xs.length : Int) := by omega
  obtain ⟨l', h', hop, hrep, hv, hsz', _, hrq, _⟩ := InsertBefore_rep hr v hlt
  obtain ⟨nd, hrd, hpre, _, _, _, _⟩ := (rep_zip l h xs ys e).1 hr
  have hlx : (vals h xs).length = i.toNat := by rw [vals_length hpre, hxs]
  refine ⟨some e, l', h', by rw [hix]; exact At_rep hr, hop,
    by rw [InsertBefore_move_eq]; exact hop, wellFormed_of_rep hrep, ?_, hsz', ?_⟩
  · rw [ToVector_rep hrep, hv, hsv, vals_append, List.take_left' hlx, List.drop_left' hlx]
  · intro hzero
    have hxs0 : xs = [] := List.length_eq_zero.1 (by omega)
    subst hxs0
    have hb := rep_begin hrep
    have hne : l'.size_ ≠ 0 := by
      rw [rep_size hrep]
      simp
      omega
    refine ⟨h.cells.length, _, ?_, hrq, rfl⟩
    unfold Front
    rw [if_neg hne, hb]
    rfl

/-- Witness of C4: inserting `7` before the middle node of `[5, 10, 20]`. -/
theorem InsertBefore_At_contents_witness :
    WellFormed sample3 sampleHeap3 ∧
    ∃ p l' h', At sample3 sampleHeap3
      1 = .ok p ∧
      InsertBefore sample3 sampleHeap3
      p 7 = .ok (l', h') ∧
      InsertBefore_move sample3 sampleHeap3
      p 7 = .ok (l', h') ∧ ToVector l' h' = .ok [5, 7, 10, 20] :=
  ⟨by decide,
    let ⟨p, l', h', hat, hop, hmv, _, hv, _⟩ := InsertBefore_At_contents sample3 sampleHeap3
      [5, 10, 20] 1 7 (by decide) rfl (by decide) (by decide) (by decide)
    ⟨p, l', h', hat, hop, hmv, hv⟩⟩

/-- Counterexample to C4 as stated: on the well-formed list `fullList` of
`INT_MAX` zeros, which 2147483647 calls of `PushBack(0)` build from the empty
list, `At(0)` is the head, at address 0, and `InsertBefore(At(0), 7)`, in
either overload, does not return a list of `Size() + 1` elements: its `size_++`
overflows, which is undefined behaviour. -/
theorem InsertBefore_At_overflow :
    callAll {} (Heap.empty : Heap Int) (List.replicate 2147483647 (Op.PushBack 0)) =
      .ok (fullList, fullHeap) ∧
    WellFormed fullList fullHeap ∧
    ToVector fullList fullHeap = .ok (List.replicate 2147483647 0) ∧
    Size fullList = 2147483647 ∧
    At fullList fullHeap 0 = .ok (some 0) ∧
    InsertBefore fullList fullHeap (some 0) 7 = .error .undefinedBehaviour ∧
    InsertBefore_move fullList fullHeap (some 0) 7 = .error .undefinedBehaviour :=
  ⟨full_built, wellFormed_of_rep full_rep, full_contents, rfl, rfl, rfl, rfl⟩

/-- C5, as amended: on a well-formed list with contents `s` and
`Size() < INT_MAX`, for `0 <= i < Size()`, `InsertAfter(At(i), v)`, in the
overload `InsertAfter(Node*, const T&)` and in the overload
`InsertAfter(Node*, T&&)` alike, returns with contents the first `i + 1`
elements of `s`, then `v`, then the remaining elements of `s`, and with
`Size()` increased by exactly 1; when `i = Size() - 1` the new node is the
tail, so `Back()` has value `v`. -/
theorem InsertAfter_At_contents (l : BiDirectionalList) (h : Heap α) (s : List α) (i : Int)
    (v : α) (hw : WellFormed l h) (hs : ToVector l h = .ok s) (h0 : 0 ≤ i)
    (hi : i < Size l) (hlt : Size l < INT_MAX) :
    ∃ p l' h', At l h i = .ok p ∧ InsertAfter l h p v = .ok (l', h') ∧
      InsertAfter_move l h p v = .ok (l', h') ∧ WellFormed l' h' ∧
      ToVector l' h' = .ok (s.take (i.toNat + 1) ++ v :: s.drop (i.toNat + 1)) ∧
      Size l' = Size l + 1 ∧
      (i = Size l - 1 →
        ∃ q nd, Back l' h' = .ok (some q) ∧ h'.read q = some nd ∧ nd.value = v) := by
  have hr := rep_of_wellFormed hw
  have hsv := contents_of_rep hr hs
  have hsz := rep_size hr
  have hilt : i.toNat < (nodes l h).length := by
    unfold Size at hi
    omega
  obtain ⟨xs, e, ys, hsplit, hxs⟩ := split_at_index _ _ hilt
  rw [hsplit] at hr hsv hsz
  have hix : i = (xs.length : Int) := by omega
  obtain ⟨l', h', hop, hrep, hv, hsz', _, hrq, _⟩ := InsertAfter_rep hr v hlt
  obtain ⟨nd, hrd, hpre, _, _, _, _⟩ := (rep_zip l h xs ys e).1 hr
  have hlx : (vals h (xs ++ [e])).length = i.toNat + 1 := by
    rw [vals_append, vals_cons hrd, List.length_append, vals_length hpre, hxs]
    simp [vals_nil]
  have hsplit2 : vals h (xs ++ e :: ys) = vals h (xs ++ [e]) ++ vals h ys := by
    rw [← vals_append]
    simp
  refine ⟨some e, l', h', by rw [hix]; exact At_rep hr, hop,
    by rw [InsertAfter_move_eq]; exact hop, wellFormed_of_rep hrep, ?_, hsz', ?_⟩
  · rw [ToVector_rep hrep, hv, hsv, hsplit2, List.take_left' hlx, List.drop_left' hlx]
  · intro hlast
    have hys : ys = [] := by
      unfold Size at hlast
      rw [hsz] at hlast
      simp at hlast
      exact List.length_eq_zero.1 (by omega)
    subst hys
    have hb := rep_last hrep
    have hne : l'.size_ ≠ 0 := by
      rw [rep_size hrep]
      simp
      omega
    refine ⟨h.cells.length, _, ?_, hrq, rfl⟩
    unfold Back
    rw [if_neg hne, hb]
    simp [List.getLast?_append]

/-- Witness of C5: inserting `7` after the middle node of `[5, 10, 20]`. -/
theorem InsertAfter_At_contents_witness :
    WellFormed sample3 sampleHeap3 ∧
    ∃ p l' h', At sample3 sampleHeap3
      1 = .ok p ∧
      InsertAfter sample3 sampleHeap3
      p 7 = .ok (l', h') ∧
      InsertAfter_move sample3 sampleHeap3
      p 7 = .ok (l', h') ∧ ToVector l' h' = .ok [5, 10, 7, 20] :=
  ⟨by decide,
    let ⟨p, l', h', hat, hop, hmv, _, hv, _⟩ := InsertAfter_At_contents sample3 sampleHeap3
      [5, 10, 20] 1 7 (by decide) rfl (by decide) (by decide) (by decide)
    ⟨p, l', h', hat, hop, hmv, hv⟩⟩

/-- Counterexample to C5 as stated: on the well-formed list `fullList` of
`INT_MAX` zeros, which 2147483647 calls of `PushBack(0)` build from the empty
list, `At(0)` is the head, at address 0, and `InsertAfter(At(0), 7)`, in either
overload, does not return a list of `Size() + 1` elements: its `size_++`
overflows, which is undefined behaviour. -/
theorem InsertAfter_At_overflow :
    callAll {} (Heap.empty : Heap Int) (List.replicate 2147483647 (Op.PushBack 0)) =
      .ok (fullList, fullHeap) ∧
    WellFormed fullList fullHeap ∧
    ToVector fullList fullHeap = .ok (List.replicate 2147483647 0) ∧
    Size fullList = 2147483647 ∧
    At fullList fullHeap 0 = .ok (some 0) ∧
    InsertAfter fullList fullHeap (some 0) 7 = .error .undefinedBehaviour ∧
    InsertAfter_move fullList fullHeap (some 0) 7 = .error .undefinedBehaviour :=
  ⟨full_built, wellFormed_of_rep full_rep, full_contents, rfl, rfl, rfl, rfl⟩

/-- C6: on a non-empty well-formed list with contents `s`, `PopFront()` returns
with contents `s` without its first element and `PopBack()` returns with
contents `s` without its last element, each decreasing `Size()` by exactly 1,
and if the list had one element `begin_ptr_` and `last_ptr_` are null
afterwards; on an empty list `PushBack(v)` followed by `PopBack()` restores the
empty state, and `PopFront()` and `PopBack()` fail on their assertion in the
unchanged state. -/
theorem PopFront_PopBack_contents (l : BiDirectionalList) (h : Heap α) (s : List α)
    (hw : WellFormed l h) (hs : ToVector l h = .ok s) :
    (IsEmpty l = false →
      (∃ l' h', PopFront l h = .ok (l', h') ∧ WellFormed l' h' ∧
        ToVector l' h' = .ok s.tail ∧ Size l' = Size l - 1 ∧
        (Size l = 1 → l'.begin_ptr_ = none ∧ l'.last_ptr_ = none)) ∧
      (∃ l' h', PopBack l h = .ok (l', h') ∧ WellFormed l' h' ∧
        ToVector l' h' = .ok s.dropLast ∧ Size l' = Size l - 1 ∧
        (Size l = 1 → l'.begin_ptr_ = none ∧ l'.last_ptr_ = none))) ∧
    (IsEmpty l = true →
      PopFront l h = .error (.assertion (l, h)) ∧
      PopBack l h = .error (.assertion (l, h)) ∧
      ∀ v : α, ∃ l1 h1 h2, PushBack l h v = .ok (l1, h1) ∧ PopBack l1 h1 = .ok (l, h2) ∧
        l = ⟨none, none, 0⟩ ∧ ToVector l h2 = .ok [] ∧ ∀ a, h2.read a = h.read a) := by
  have hr := rep_of_wellFormed hw
  have hsv := contents_of_rep hr hs
  have hsz := rep_size hr
  constructor
  · intro hne
    have hne' : l.size_ ≠ 0 := (isEmpty_false_iff l).1 hne
    constructor
    · cases hps : nodes l h with
      | nil =>
        rw [hps] at hr
        exact absurd ((rep_size_zero_iff hr).2 rfl) hne'
      | cons e ys =>
        rw [hps] at hr hsv hsz
        obtain ⟨l', h', hop, hrep, hv, hsz', _⟩ := PopFront_rep hr
        obtain ⟨nd, hrd, _⟩ := rep_read (show Rep l h ([] ++ e :: ys) from hr)
        refine ⟨l', h', hop, wellFormed_of_rep hrep, ?_, hsz', ?_⟩
        · rw [ToVector_rep hrep, hv, hsv, vals_cons hrd]
          rfl
        · intro hone
          unfold Size at hone
          rw [hsz] at hone
          simp at hone
          subst hone
          exact ⟨((rep_nil_iff _ _).1 hrep).1, ((rep_nil_iff _ _).1 hrep).2.1⟩
    · rcases List.eq_nil_or_concat (nodes l h) with hps | ⟨xs, e, hps⟩
      · rw [hps] at hr
        exact absurd ((rep_size_zero_iff hr).2 rfl) hne'
      · rw [List.concat_eq_append] at hps
        rw [hps] at hr hsv hsz
        obtain ⟨l', h', hop, hrep, hv, hsz', _⟩ := PopBack_rep hr
        obtain ⟨nd, hrd, _⟩ := rep_read hr
        refine ⟨l', h', hop, wellFormed_of_rep hrep, ?_, hsz', ?_⟩
        · rw [ToVector_rep hrep, hv, hsv, vals_append, vals_cons hrd, vals_nil,
            List.dropLast_concat]
        · intro hone
          unfold Size at hone
          rw [hsz] at hone
          simp at hone
          subst hone
          exact ⟨((rep_nil_iff _ _).1 hrep).1, ((rep_nil_iff _ _).1 hrep).2.1⟩
  · intro hempty
    have hz : l.size_ = 0 := by simpa [IsEmpty] using hempty
    have hps : nodes l h = [] := by
      rw [← rep_size_zero_iff hr]
      exact hz
    rw [hps] at hr
    obtain ⟨hb, hl, _⟩ := (rep_nil_iff _ _).1 hr
    have hleq : l = ⟨none, none, 0⟩ := eq_empty_of_rep_nil hr
    refine ⟨by simp [PopFront, hb], by simp [PopBack, hl], ?_⟩
    intro v
    obtain ⟨l1, h1, hop, hrep, _, hsz1, hfr1, hlen1⟩ :=
      PushBack_rep hr v (by rw [hz]; decide)
    obtain ⟨l2, h2, hop2, hrep2, _, hsz2, hfr2, hfree, hlen2⟩ := PopBack_rep hrep
    have hl2 : l2 = l := by
      rw [hleq]
      exact eq_empty_of_rep_nil hrep2
    rw [hl2] at hop2 hrep2
    refine ⟨l1, h1, h2, hop, hop2, hleq, ?_, ?_⟩
    · rw [ToVector_rep hrep2, vals_nil]
    · intro a
      by_cases ha : a = h.cells.length
      · rw [ha, hfree, read_length]
      · rw [hfr2 a (by simpa using ha), hfr1 a (by simp) ha]

/-- Witness of C6 on the list `[5, 10, 20]`. -/
theorem PopFront_PopBack_contents_witness :
    WellFormed sample3 sampleHeap3 ∧
    (∃ l' h', PopFront sample3 sampleHeap3
      = .ok (l', h') ∧ ToVector l' h' = .ok [10, 20]) ∧
    (∃ l' h', PopBack sample3 sampleHeap3
      = .ok (l', h') ∧ ToVector l' h' = .ok [5, 10]) :=
  have hp := (PopFront_PopBack_contents sample3 sampleHeap3
      [5, 10, 20] (by decide) rfl).1 (by decide)
  ⟨by decide,
    let ⟨l', h', hop, _, hv, _⟩ := hp.1
    ⟨l', h', hop, hv⟩,
    let ⟨l', h', hop, _, hv, _⟩ := hp.2
    ⟨l', h', hop, hv⟩⟩

/-- C7: on a well-formed list with contents `s`, `Find(v)` returns; the result
is `-1` if and only if no element of `s` equals `v`, and otherwise it is the
index of the first occurrence of `v` in `s`.  On `[10, 20, 10, 30]`,
`Find(10) = 0` and `Find(99) = -1`. -/
theorem Find_first_occurrence :
    (∀ (α : Type) [DecidableEq α] (l : BiDirectionalList) (h : Heap α) (s : List α) (v : α),
      WellFormed l h → ToVector l h = .ok s →
      ∃ r, Find l h v = .ok r ∧ (r = -1 ↔ v ∉ s) ∧
        (r ≠ -1 → 0 ≤ r ∧ r < Size l ∧ s[r.toNat]? = some v ∧
          ∀ j, j < r.toNat → s[j]? ≠ some v)) ∧
    (∃ l h, BiDirectionalList.init_list_ctor (Heap.empty : Heap Int) [10, 20, 10, 30] =
        .ok (l, h) ∧
      ToVector l h = .ok [10, 20, 10, 30] ∧ Find l h 10 = .ok 0 ∧ Find l h 99 = .ok (-1)) := by
  constructor
  · intro α _ l h s v hw hs
    have hr := rep_of_wellFormed hw
    have hsv := contents_of_rep hr hs
    have hsz := rep_size hr
    have hn : l.size_.toNat = (nodes l h).length := by omega
    obtain ⟨r, hres, hcase⟩ := findLoop_path hr.1 v 0
    refine ⟨r, by unfold Find; rw [hn]; exact hres, ?_, ?_⟩
    · rcases hcase with ⟨hr1, hnot⟩ | ⟨k, hrk, hk, hget, _⟩
      · rw [hsv]
        exact ⟨fun _ => hnot, fun _ => hr1⟩
      · constructor
        · intro hneg
          omega
        · intro hnot
          rw [hsv] at hnot
          exact absurd (List.getElem?_mem hget) hnot
    · intro hne
      rcases hcase with ⟨hr1, _⟩ | ⟨k, hrk, hk, hget, hfirst⟩
      · exact absurd hr1 hne
      · have hkr : r.toNat = k := by omega
        rw [hkr, hsv]
        refine ⟨by omega, by unfold Size; omega, hget, hfirst⟩
  · exact ⟨_, _, rfl, rfl, rfl, rfl⟩

/-- Witness of C7: `Find(10)` on the list `[10, 20, 10, 30]`. -/
theorem Find_first_occurrence_witness :
    WellFormed sample4 sampleHeap4 ∧
    ∃ r, Find sample4 sampleHeap4 10 = .ok r ∧
      (r = -1 ↔ (10 : Int) ∉ [10, 20, 10, 30]) :=
  ⟨by decide,
    let ⟨r, hres, hiff, _⟩ := Find_first_occurrence.1 Int sample4 sampleHeap4
      [10, 20, 10, 30] 10 (by decide) rfl
    ⟨r, hres, hiff⟩⟩

/-- C8: on a well-formed list with contents `s`, `FindAll(v)` returns exactly
the strictly ascending list of all indices `i` in `[0, Size())` with
`s[i] == v`; it is empty when `v` does not occur.  On `[10, 20, 10, 30]`,
`FindAll(10) = [0, 2]`. -/
theorem FindAll_all_occurrences :
    (∀ (α : Type) [DecidableEq α] (l : BiDirectionalList) (h : Heap α) (s : List α) (v : α),
      WellFormed l h → ToVector l h = .ok s →
      ∃ r, FindAll l h v = .ok r ∧
        r = ((List.range s.length).filter (fun k => decide (s[k]? = some v))).map Int.ofNat ∧
        r.Pairwise (fun i j => i < j) ∧
        (∀ i : Int, i ∈ r ↔ 0 ≤ i ∧ i < Size l ∧ s[i.toNat]? = some v) ∧
        (v ∉ s → r = [])) ∧
    (∃ l h, BiDirectionalList.init_list_ctor (Heap.empty : Heap Int) [10, 20, 10, 30] =
        .ok (l, h) ∧
      ToVector l h = .ok [10, 20, 10, 30] ∧ FindAll l h 10 = .ok [0, 2]) := by
  constructor
  · intro α _ l h s v hw hs
    have hr := rep_of_wellFormed hw
    have hsv := contents_of_rep hr hs
    have hsz := rep_size hr
    have hn : l.size_.toNat = (nodes l h).length := by omega
    have hlen : s.length = (nodes l h).length := by rw [hsv]; exact rep_length_vals hr
    have hres := findAllLoop_path hr.1 v 0 []
    have hfun : (fun (k : Nat) => (0 : Int) + (k : Int)) = Int.ofNat := by
      funext k
      simp
    rw [hfun, List.nil_append, ← hsv, ← hlen] at hres
    refine ⟨_, by unfold FindAll; rw [hn, ← hlen]; exact hres, rfl, ?_, ?_, ?_⟩
    · refine List.Pairwise.map _ ?_ (List.Pairwise.filter _ (List.pairwise_lt_range s.length))
      intro a b hab
      exact Int.ofNat_lt.2 hab
    · intro i
      simp only [List.mem_map, List.mem_filter, List.mem_range, decide_eq_true_eq]
      constructor
      · rintro ⟨k, ⟨hk, hget⟩, rfl⟩
        refine ⟨Int.ofNat_nonneg k, ?_, by simpa using hget⟩
        unfold Size
        rw [hsz, ← hlen]
        exact Int.ofNat_lt.2 hk
      · rintro ⟨h0, hi, hget⟩
        refine ⟨i.toNat, ⟨?_, hget⟩, ?_⟩
        · unfold Size at hi
          omega
        · simp [h0]
    · intro hnot
      rw [List.map_eq_nil_iff, List.filter_eq_nil_iff]
      intro k _
      simp only [decide_eq_true_eq]
      intro hget
      exact hnot (List.getElem?_mem hget)
  · exact ⟨_, _, rfl, rfl, rfl⟩

/-- Witness of C8: `FindAll(10)` on the list `[10, 20, 10, 30]`. -/
theorem FindAll_all_occurrences_witness :
    WellFormed sample4 sampleHeap4 ∧
    ∃ r, FindAll sample4 sampleHeap4 10 = .ok r ∧
      r.Pairwise (fun i j => i < j) :=
  ⟨by decide,
    let ⟨r, hres, _, hpw, _⟩ := FindAll_all_occurrences.1 Int sample4 sampleHeap4
      [10, 20, 10, 30] 10 (by decide) rfl
    ⟨r, hres, hpw⟩⟩

/-- C9: for well-formed lists `a` and `b` with contents `sa` and `sb`,
`a == b` returns true if and only if `sa` and `sb` have the same length and
are element-wise equal in the same order, and `a != b` returns the negation of
`a == b`.  `[1,2,3] == [1,2,3]` is true, `[1,2,3] == [1,2]` is false and
`[1,2,3] != [3,2,1]` is true. -/
theorem op_eq_contents :
    (∀ (α : Type) [DecidableEq α] (a b : BiDirectionalList) (h : Heap α) (sa sb : List α),
      WellFormed a h → WellFormed b h → ToVector a h = .ok sa → ToVector b h = .ok sb →
      ∃ r, op_eq a b h = .ok r ∧
        (r = true ↔ sa.length = sb.length ∧ ∀ i, i < sa.length → sa[i]? = sb[i]?) ∧
        op_ne a b h = .ok (!r)) ∧
    (∃ a h1 b h2 c h3 d h4,
      BiDirectionalList.init_list_ctor (Heap.empty : Heap Int) [1, 2, 3] = .ok (a, h1) ∧
      BiDirectionalList.init_list_ctor h1 [1, 2, 3] = .ok (b, h2) ∧
      BiDirectionalList.init_list_ctor h2 [1, 2] = .ok (c, h3) ∧
      BiDirectionalList.init_list_ctor h3 [3, 2, 1] = .ok (d, h4) ∧
      ToVector a h4 = .ok [1, 2, 3] ∧ ToVector b h4 = .ok [1, 2, 3] ∧
      ToVector c h4 = .ok [1, 2] ∧ ToVector d h4 = .ok [3, 2, 1] ∧
      op_eq a b h4 = .ok true ∧ op_eq a c h4 = .ok false ∧ op_ne a d h4 = .ok true) := by
  constructor
  · intro α _ a b h sa sb hwa hwb hsa hsb
    have hra := rep_of_wellFormed hwa
    have hrb := rep_of_wellFormed hwb
    have hva := contents_of_rep hra hsa
    have hvb := contents_of_rep hrb hsb
    have hza := rep_size hra
    have hzb := rep_size hrb
    have hla : sa.length = (nodes a h).length := by rw [hva]; exact rep_length_vals hra
    have hlb : sb.length = (nodes b h).length := by rw [hvb]; exact rep_length_vals hrb
    have hext : sa = sb ↔ sa.length = sb.length ∧ ∀ i, i < sa.length → sa[i]? = sb[i]? := by
      constructor
      · rintro rfl
        exact ⟨rfl, fun _ _ => rfl⟩
      · rintro ⟨hlen, hpt⟩
        apply List.ext_getElem?
        intro n
        by_cases hn : n < sa.length
        · exact hpt n hn
        · rw [List.getElem?_eq_none (by omega), List.getElem?_eq_none (by omega)]
    by_cases hsize : a.size_ = b.size_
    · have hlen : (nodes a h).length = (nodes b h).length := by omega
      have hna : a.size_.toNat = (nodes a h).length := by omega
      have hres := eqLoop_path hra.1 hrb.1 hlen
      rw [← hva, ← hvb] at hres
      have heq : op_eq a b h = .ok (decide (sa = sb)) := by
        unfold op_eq
        rw [if_neg (by simpa using hsize), hna]
        exact hres
      refine ⟨decide (sa = sb), heq, ?_, ?_⟩
      · rw [decide_eq_true_eq]
        exact hext
      · unfold op_ne
        rw [heq]
        rfl
    · have heq : op_eq a b h = .ok false := by
        unfold op_eq
        rw [if_pos hsize]
      refine ⟨false, heq, ?_, ?_⟩
      · constructor
        · intro hh
          cases hh
        · rintro ⟨hlen, _⟩
          exfalso
          apply hsize
          omega
      · unfold op_ne
        rw [heq]
        rfl
  · exact ⟨_, _, _, _, _, _, _, _, rfl, rfl, rfl, rfl, rfl, rfl, rfl, rfl, rfl, rfl, rfl⟩

/-- Witness of C9: the lists `[1, 2, 3]` and `[1, 2]` in one heap. -/
theorem op_eq_contents_witness :
    WellFormed sample123 sampleHeap5 ∧
    WellFormed sample12 sampleHeap5 ∧
    ∃ r, op_eq sample123 sample12 sampleHeap5 = .ok r ∧
      op_ne sample123 sample12 sampleHeap5 = .ok (!r) :=
  ⟨by decide, by decide,
    let ⟨r, hres, _, hne⟩ := op_eq_contents.1 Int sample123 sample12 sampleHeap5
      [1, 2, 3] [1, 2]
      (by decide) (by decide) rfl rfl
    ⟨r, hres, hne⟩⟩

/-- C10: on a well-formed list with contents `s`, if `0 <= index < Size()`
then `At(index)` and `operator[](index)` return a non-null node of this list
whose value is `s[index]` (they are `const` and return only the pointer); if
`index < 0` or `index >= Size()` they fail on the assertion, in the unchanged
state. -/
theorem At_contract (l : BiDirectionalList) (h : Heap α) (s : List α) (index : Int)
    (hw : WellFormed l h) (hs : ToVector l h = .ok s) :
    (0 ≤ index ∧ index < Size l →
      ∃ a nd, At l h index = .ok (some a) ∧ subscript l h index = .ok (some a) ∧
        a ∈ nodes l h ∧ h.read a = some nd ∧ s[index.toNat]? = some nd.value) ∧
    (index < 0 ∨ Size l ≤ index →
      At l h index = .error (.assertion (l, h)) ∧
      subscript l h index = .error (.assertion (l, h))) := by
  constructor
  · rintro ⟨h0, hi⟩
    have hr := rep_of_wellFormed hw
    have hsv := contents_of_rep hr hs
    have hilt : index.toNat < (nodes l h).length := by
      have := rep_size hr
      unfold Size at hi
      omega
    obtain ⟨xs, e, ys, hsplit, hxs⟩ := split_at_index _ _ hilt
    rw [hsplit] at hr hsv
    have hix : index = (xs.length : Int) := by omega
    obtain ⟨nd, hrd, hpre, _, _, _, _⟩ := (rep_zip l h xs ys e).1 hr
    have hlx : (vals h xs).length = index.toNat := by rw [vals_length hpre, hxs]
    have hat : At l h index = .ok (some e) := by rw [hix]; exact At_rep hr
    refine ⟨e, nd, hat, hat, by rw [hsplit]; simp, hrd, ?_⟩
    rw [hsv, vals_append, vals_cons hrd, List.getElem?_append_right (by omega), hlx]
    simp
  · intro hout
    have := At_out_of_range l h index hout
    exact ⟨this, this⟩

/-- Witness of C10: `At(2)` on the list `[10, 20, 10, 30]`. -/
theorem At_contract_witness :
    WellFormed sample4 sampleHeap4 ∧
    ∃ a, At sample4 sampleHeap4 2 = .ok (some a) :=
  ⟨by decide,
    let ⟨a, _, hat, _⟩ := (At_contract sample4 sampleHeap4 [10, 20, 10, 30] 2 (by decide) rfl).1
      ⟨by decide, by decide⟩
    ⟨a, hat⟩⟩

/-- C11: on a non-empty well-formed list with contents `s`, `Front()` returns
the node `At(0)` returns, whose value is the first element of `s`, and `Back()`
returns the node `At(Size() - 1)` returns, whose value is the last element of
`s`; on an empty list `Front()` and `Back()` fail on their assertion, in the
unchanged state. -/
theorem Front_Back_contract (l : BiDirectionalList) (h : Heap α) (s : List α)
    (hw : WellFormed l h) (hs : ToVector l h = .ok s) :
    (IsEmpty l = false →
      (∃ a nd, Front l h = .ok (some a) ∧ At l h 0 = .ok (some a) ∧
        h.read a = some nd ∧ s.head? = some nd.value) ∧
      (∃ a nd, Back l h = .ok (some a) ∧ At l h (Size l - 1) = .ok (some a) ∧
        h.read a = some nd ∧ s.getLast? = some nd.value)) ∧
    (IsEmpty l = true →
      Front l h = .error (.assertion (l, h)) ∧ Back l h = .error (.assertion (l, h))) := by
  have hr := rep_of_wellFormed hw
  have hsv := contents_of_rep hr hs
  have hsz := rep_size hr
  constructor
  · intro hne
    have hne' : l.size_ ≠ 0 := (isEmpty_false_iff l).1 hne
    constructor
    · cases hps : nodes l h with
      | nil =>
        rw [hps] at hr
        exact absurd ((rep_size_zero_iff hr).2 rfl) hne'
      | cons e ys =>
        rw [hps] at hr hsv
        obtain ⟨nd, hrd, _⟩ := rep_read (show Rep l h ([] ++ e :: ys) from hr)
        refine ⟨e, nd, ?_, At_rep (show Rep l h ([] ++ e :: ys) from hr), hrd, ?_⟩
        · unfold Front
          rw [if_neg hne', rep_begin hr]
          rfl
        · rw [hsv, vals_cons hrd]
          rfl
    · rcases List.eq_nil_or_concat (nodes l h) with hps | ⟨xs, e, hps⟩
      · rw [hps] at hr
        exact absurd ((rep_size_zero_iff hr).2 rfl) hne'
      · rw [List.concat_eq_append] at hps
        rw [hps] at hr hsv hsz
        obtain ⟨nd, hrd, _⟩ := rep_read hr
        have hidx : Size l - 1 = (xs.length : Int) := by
          unfold Size
          rw [hsz]
          simp
        refine ⟨e, nd, ?_, by rw [hidx]; exact At_rep hr, hrd, ?_⟩
        · unfold Back
          rw [if_neg hne', rep_last hr]
          simp
        · rw [hsv, vals_append, vals_cons hrd, vals_nil]
          simp
  · intro hempty
    have hz : l.size_ = 0 := (isEmpty_true_iff l).1 hempty
    exact ⟨by simp [Front, hz], by simp [Back, hz]⟩

/-- Witness of C11 on the list `[5, 10, 20]`. -/
theorem Front_Back_contract_witness :
    WellFormed sample3 sampleHeap3 ∧
    (∃ a nd, Front sample3 sampleHeap3 = .ok (some a) ∧ sampleHeap3.read a = some nd ∧
      nd.value = 5) ∧
    (∃ a nd, Back sample3 sampleHeap3 = .ok (some a) ∧ sampleHeap3.read a = some nd ∧
      nd.value = 20) :=
  have hp := (Front_Back_contract sample3 sampleHeap3 [5, 10, 20] (by decide) rfl).1
    (by decide)
  ⟨by decide,
    let ⟨a, nd, hf, _, hrd, hv⟩ := hp.1
    ⟨a, nd, hf, hrd, (Option.some.inj hv).symm⟩,
    let ⟨a, nd, hf, _, hrd, hv⟩ := hp.2
    ⟨a, nd, hf, hrd, (Option.some.inj hv).symm⟩⟩

/-- C12: the list `b` copy-constructed from a well-formed list `a` is
well-formed, has the contents and the `Size()` of `a` (so `b == a`), shares no
node with `a`, and no cell allocated before the call is changed, so `a` is
unchanged; every admissible sequence of mutating calls on `b` afterwards
returns and leaves the nodes, the contents and the well-formedness of `a`
unchanged. -/
theorem copy_ctor_independent [DecidableEq α] (a : BiDirectionalList) (h : Heap α)
    (s : List α) (hw : WellFormed a h) (hs : ToVector a h = .ok s) :
    ∃ b h', BiDirectionalList.copy_ctor a h = .ok (b, h') ∧ WellFormed b h' ∧
      ToVector b h' = .ok s ∧ Size b = Size a ∧ op_eq b a h' = .ok true ∧
      (∀ x, x < h.cells.length → h'.read x = h.read x) ∧
      WellFormed a h' ∧ ToVector a h' = .ok s ∧ nodes a h' = nodes a h ∧
      (∀ x ∈ nodes b h', x ∉ nodes a h') ∧
      (∀ ops : List (Op α), Admissible b h' ops →
        ∃ b' h'', callAll b h' ops = .ok (b', h'') ∧ WellFormed b' h'' ∧
          WellFormed a h'' ∧ ToVector a h'' = .ok s ∧ nodes a h'' = nodes a h ∧
          (∀ x ∈ nodes a h, h''.read x = h.read x)) := by
  have hr := rep_of_wellFormed hw
  have hsv := contents_of_rep hr hs
  obtain ⟨b, h', ns, hop, hrep, hv, hsz, hnew, hfr, hlen⟩ := copy_ctor_rep hr
  have hfa : ∀ x ∈ nodes a h, h'.read x = h.read x := fun x hx => hfr x (rep_lt hr hx)
  obtain ⟨hra', hva'⟩ := rep_frame hr hfa
  have hdis : ∀ x ∈ nodes a h, x ∉ ns := by
    intro x hx hmem
    have h1 := hnew x hmem
    have h2 := rep_lt hr hx
    omega
  refine ⟨b, h', hop, wellFormed_of_rep hrep, ?_, hsz, ?_, hfr, wellFormed_of_rep hra', ?_,
    rep_nodes hra', ?_, ?_⟩
  · rw [ToVector_rep hrep, hv, hsv]
  · have hlen2 : ns.length = (nodes a h).length := by
      have h1 := rep_size hrep
      have h2 := rep_size hr
      omega
    have hres := eqLoop_path hrep.1 hra'.1 hlen2
    unfold op_eq
    rw [if_neg (by simpa using hsz), rep_size hrep]
    simp only [Int.toNat_ofNat]
    rw [hres, hv, hva']
    simp
  · rw [ToVector_rep hra', hva', hsv]
  · rw [rep_nodes hrep, rep_nodes hra']
    intro x hx hxa
    exact hdis x hxa hx
  · intro ops hadm
    obtain ⟨b', h'', ps', hall, hrep', hra'', hva'', _, hfr''⟩ :=
      callAll_frame ops hrep hra' hdis hadm
    refine ⟨b', h'', hall, wellFormed_of_rep hrep', wellFormed_of_rep hra'', ?_,
      rep_nodes hra'', ?_⟩
    · rw [ToVector_rep hra'', hva'', hva', hsv]
    · intro x hx
      rw [hfr'' x hx, hfa x hx]

/-- Witness of C12: the copy of `[5, 10, 20]`. -/
theorem copy_ctor_independent_witness :
    WellFormed sample3 sampleHeap3 ∧
    ∃ b h', BiDirectionalList.copy_ctor sample3 sampleHeap3 = .ok (b, h') ∧
      ToVector b h' = .ok [5, 10, 20] ∧ ToVector sample3 h' = .ok [5, 10, 20] :=
  ⟨by decide,
    let ⟨b, h', hop, _, hv, _, _, _, _, hva, _⟩ :=
      copy_ctor_independent sample3 sampleHeap3 [5, 10, 20] (by decide) rfl
    ⟨b, h', hop, hv, hva⟩⟩

/-- C13: for well-formed lists `a` and `b`, the copy assignment `a = b`
returns; afterwards `a` is well-formed with the contents and the `Size()` that
`b` had, `b` and its nodes are unchanged, and if `a` and `b` shared no node
before they share none afterwards.  When the `begin_ptr_` of both are equal,
as in a self-assignment, the call changes nothing. -/
theorem copy_assign_contract (a b : BiDirectionalList) (h : Heap α) (sb : List α)
    (hwa : WellFormed a h) (hwb : WellFormed b h) (hsb : ToVector b h = .ok sb) :
    (∃ a' h', copy_assign a b h = .ok (a', h') ∧ WellFormed a' h' ∧
      ToVector a' h' = .ok sb ∧ Size a' = Size b ∧
      WellFormed b h' ∧ ToVector b h' = .ok sb ∧ nodes b h' = nodes b h ∧
      (∀ x ∈ nodes b h, h'.read x = h.read x) ∧
      ((∀ x ∈ nodes a h, x ∉ nodes b h) → ∀ x ∈ nodes a' h', x ∉ nodes b h')) ∧
    (a.begin_ptr_ = b.begin_ptr_ → copy_assign a b h = .ok (a, h)) ∧
    copy_assign a a h = .ok (a, h) := by
  have hra := rep_of_wellFormed hwa
  have hrb := rep_of_wellFormed hwb
  have hsv := contents_of_rep hrb hsb
  have hearly : ∀ c : BiDirectionalList, a.begin_ptr_ = c.begin_ptr_ →
      copy_assign a c h = .ok (a, h) := by
    intro c hc
    unfold copy_assign
    rw [if_pos hc]
  refine ⟨?_, hearly b, hearly a rfl⟩
  by_cases hbeg : a.begin_ptr_ = b.begin_ptr_
  · have hnodes : nodes a h = nodes b h := rep_eq_of_begin_eq hra hrb hbeg
    refine ⟨a, h, hearly b hbeg, hwa, ?_, ?_, hwb, hsb, rfl, fun _ _ => rfl, fun hd => hd⟩
    · rw [ToVector_rep hra, hnodes, hsv]
    · unfold Size
      rw [rep_size hra, rep_size hrb, hnodes]
  · obtain ⟨a', h', ns, hop, hrep, hv, hsz, hnew, _, hfr, _⟩ := copy_assign_rep hra hrb hbeg
    have hdis := rep_disjoint_of_begin_ne hra hrb hbeg
    have hfb : ∀ x ∈ nodes b h, h'.read x = h.read x := fun x hx =>
      hfr x (fun hxa => hdis x hxa hx) (rep_lt hrb hx)
    obtain ⟨hrb', hvb'⟩ := rep_frame hrb hfb
    refine ⟨a', h', hop, wellFormed_of_rep hrep, ?_, hsz, wellFormed_of_rep hrb', ?_,
      rep_nodes hrb', hfb, ?_⟩
    · rw [ToVector_rep hrep, hv, hsv]
    · rw [ToVector_rep hrb', hvb', hsv]
    · intro _ x hx hxb
      rw [rep_nodes hrep] at hx
      rw [rep_nodes hrb'] at hxb
      have h1 := hnew x hx
      have h2 := rep_lt hrb hxb
      omega

/-- Witness of C13: assigning `[1, 2, 3]` to the list `[1, 2]`. -/
theorem copy_assign_contract_witness :
    WellFormed sample12 sampleHeap5 ∧ WellFormed sample123 sampleHeap5 ∧
    ∃ a' h', copy_assign sample12 sample123 sampleHeap5 = .ok (a', h') ∧
      ToVector a' h' = .ok [1, 2, 3] ∧ ToVector sample123 h' = .ok [1, 2, 3] :=
  ⟨by decide, by decide,
    let ⟨a', h', hop, _, hv, _, _, hvb, _⟩ :=
      (copy_assign_contract sample12 sample123 sampleHeap5 [1, 2, 3] (by decide) (by decide)
        rfl).1
    ⟨a', h', hop, hv, hvb⟩⟩

/-- C14: for a well-formed list `a` with contents `s`, the list `b`
move-constructed from `a` holds exactly the former `begin_ptr_`, `last_ptr_`
and `size_` of `a` (the heap is not touched, so no node is copied or created),
`b.ToVector()` is `s` and `b.Size()` is the length of `s`; `a` is left with
`begin_ptr_` and `last_ptr_` null and `Size() == 0`. -/
theorem move_ctor_contract (a : BiDirectionalList) (h : Heap α) (s : List α)
    (hw : WellFormed a h) (hs : ToVector a h = .ok s) :
    (BiDirectionalList.move_ctor a).1 = a ∧
    WellFormed (BiDirectionalList.move_ctor a).1 h ∧
    ToVector (BiDirectionalList.move_ctor a).1 h = .ok s ∧
    Size (BiDirectionalList.move_ctor a).1 = s.length ∧
    (BiDirectionalList.move_ctor a).2.begin_ptr_ = none ∧
    (BiDirectionalList.move_ctor a).2.last_ptr_ = none ∧
    Size (BiDirectionalList.move_ctor a).2 = 0 ∧
    ToVector (BiDirectionalList.move_ctor a).2 h = .ok [] := by
  have hr := rep_of_wellFormed hw
  have hsv := contents_of_rep hr hs
  have h1 : (BiDirectionalList.move_ctor a).1 = a := rfl
  have h2 : (BiDirectionalList.move_ctor a).2 = ⟨none, none, 0⟩ := rfl
  have hempty : Rep (⟨none, none, 0⟩ : BiDirectionalList) h [] :=
    (rep_nil_iff _ _).2 ⟨rfl, rfl, rfl⟩
  rw [h1, h2]
  refine ⟨rfl, hw, hs, ?_, rfl, rfl, rfl, ?_⟩
  · unfold Size
    rw [rep_size hr, hsv, rep_length_vals hr]
  · rw [ToVector_rep hempty, vals_nil]

/-- Witness of C14 on the list `[5, 10, 20]`. -/
theorem move_ctor_contract_witness :
    WellFormed sample3 sampleHeap3 ∧
    ToVector (BiDirectionalList.move_ctor sample3).1 sampleHeap3 = .ok [5, 10, 20] ∧
    Size (BiDirectionalList.move_ctor sample3).2 = 0 :=
  have hp := move_ctor_contract sample3 sampleHeap3 [5, 10, 20] (by decide) rfl
  ⟨by decide, hp.2.2.1, hp.2.2.2.2.2.2.1⟩

/-- C15: for well-formed lists `a` and `b` that share no node, the move
assignment `a = std::move(b)` returns; afterwards `a` is well-formed with the
contents and the `Size()` that `b` had, `b` is in the empty state, and every
node `a` had before is destroyed.  When the `begin_ptr_` of both are equal, as
in a self-move-assignment, the call changes nothing. -/
theorem move_assign_contract (a b : BiDirectionalList) (h : Heap α) (sb : List α)
    (hwa : WellFormed a h) (hwb : WellFormed b h) (hsb : ToVector b h = .ok sb) :
    ((∀ x ∈ nodes a h, x ∉ nodes b h) →
      ∃ a' b' h', move_assign a b h = .ok (a', b', h') ∧ WellFormed a' h' ∧
        ToVector a' h' = .ok sb ∧ Size a' = Size b ∧
        b'.begin_ptr_ = none ∧ b'.last_ptr_ = none ∧ Size b' = 0 ∧
        ToVector b' h' = .ok [] ∧
        (∀ x ∈ nodes a h, h'.read x = none) ∧
        (∀ x, x ∉ nodes a h → h'.read x = h.read x)) ∧
    (a.begin_ptr_ = b.begin_ptr_ → move_assign a b h = .ok (a, b, h)) ∧
    move_assign a a h = .ok (a, a, h) := by
  have hra := rep_of_wellFormed hwa
  have hrb := rep_of_wellFormed hwb
  have hsv := contents_of_rep hrb hsb
  have hearly : ∀ c : BiDirectionalList, a.begin_ptr_ = c.begin_ptr_ →
      move_assign a c h = .ok (a, c, h) := by
    intro c hc
    unfold move_assign
    rw [if_pos hc]
  refine ⟨?_, hearly b, hearly a rfl⟩
  intro hdis
  by_cases hbeg : a.begin_ptr_ = b.begin_ptr_
  · have hnodes : nodes a h = nodes b h := rep_eq_of_begin_eq hra hrb hbeg
    have hnil : nodes b h = [] := by
      cases hq : nodes b h with
      | nil => rfl
      | cons e ys =>
        exfalso
        rw [hq] at hnodes
        exact hdis e (by rw [hnodes]; simp) (by rw [hq]; simp)
    rw [hnil] at hrb hsv
    have hanil : nodes a h = [] := by rw [hnodes, hnil]
    rw [hanil] at hra
    obtain ⟨hb1, hb2, hb3⟩ := (rep_nil_iff _ _).1 hrb
    refine ⟨a, b, h, hearly b hbeg, hwa, ?_, ?_, hb1, hb2, hb3, ?_, ?_, fun _ _ => rfl⟩
    · rw [ToVector_rep hra, hsv]
    · unfold Size
      rw [rep_size hra, rep_size hrb]
    · rw [ToVector_rep hrb, vals_nil]
    · rw [hanil]
      simp
  · obtain ⟨h1, hc, hnone, hfr, hlen⟩ := CleanTheList_rep hra
    have hfb : ∀ x ∈ nodes b h, h1.read x = h.read x := fun x hx =>
      hfr x (fun hxa => hdis x hxa hx)
    obtain ⟨hrb', hvb'⟩ := rep_frame hrb hfb
    have hbeq : (⟨b.begin_ptr_, b.last_ptr_, b.size_⟩ : BiDirectionalList) = b := rfl
    have hempty : Rep (⟨none, none, 0⟩ : BiDirectionalList) h1 [] :=
      (rep_nil_iff _ _).2 ⟨rfl, rfl, rfl⟩
    refine ⟨b, ⟨none, none, 0⟩, h1, ?_, wellFormed_of_rep hrb', ?_, rfl, rfl, rfl, rfl, ?_,
      hnone, hfr⟩
    · unfold move_assign
      rw [if_neg hbeg, hc]
    · rw [ToVector_rep hrb', hvb', hsv]
    · rw [ToVector_rep hempty, vals_nil]

/-- Witness of C15: move-assigning `[1, 2, 3]` to the list `[1, 2]`. -/
theorem move_assign_contract_witness :
    WellFormed sample12 sampleHeap5 ∧ WellFormed sample123 sampleHeap5 ∧
    (∀ x ∈ nodes sample12 sampleHeap5, x ∉ nodes sample123 sampleHeap5) ∧
    ∃ a' b' h', move_assign sample12 sample123 sampleHeap5 = .ok (a', b', h') ∧
      ToVector a' h' = .ok [1, 2, 3] ∧ ToVector b' h' = .ok [] :=
  ⟨by decide, by decide, by decide,
    let ⟨a', b', h', hop, _, hv, _, _, _, _, hvb, _⟩ :=
      (move_assign_contract sample12 sample123 sampleHeap5 [1, 2, 3] (by decide) (by decide)
        rfl).1 (by decide)
    ⟨a', b', h', hop, hv, hvb⟩⟩

/-- C16, as amended: `Erase`, `InsertBefore` and `InsertAfter` called with a
null node reference fail on the assertion before any pointer or `size_` is
modified, the fault carrying the unchanged state; a non-null node reference is
never stopped by the assertion, whether or not the node belongs to the list. -/
theorem null_reference_stopped (l : BiDirectionalList) (h : Heap α) (v : α) :
    Erase l h none = .error (.assertion (l, h)) ∧
    InsertBefore l h none v = .error (.assertion (l, h)) ∧
    InsertBefore_move l h none v = .error (.assertion (l, h)) ∧
    InsertAfter l h none v = .error (.assertion (l, h)) ∧
    InsertAfter_move l h none v = .error (.assertion (l, h)) ∧
    ∀ e : Nat, NoAssert (Erase l h (some e)) ∧ NoAssert (InsertBefore l h (some e) v) ∧
      NoAssert (InsertAfter l h (some e) v) :=
  ⟨rfl, rfl, rfl, rfl, rfl,
    fun e => ⟨noAssert_Erase l h e, noAssert_InsertBefore l h e v,
      noAssert_InsertAfter l h e v⟩⟩

/-- Counterexample to C16 as stated: in `sampleHeap5` the lists `[1, 2]` and
`[1, 2, 3]` are well-formed and address 1 is the middle node of `[1, 2, 3]`,
not a node of `[1, 2]`; called on `[1, 2]` with that node, `InsertBefore`,
`InsertAfter` and `Erase` are not stopped: they return, with `size_` of
`[1, 2]` and the chain of `[1, 2, 3]` changed, and neither list is well-formed
afterwards. -/
theorem foreign_reference_not_stopped :
    WellFormed sample12 sampleHeap5 ∧ WellFormed sample123 sampleHeap5 ∧
    IsNodeOf sample123 sampleHeap5 (some 1) ∧ ¬ IsNodeOf sample12 sampleHeap5 (some 1) ∧
    InsertBefore sample12 sampleHeap5 (some 1) 7 = .ok foreignInsertBefore ∧
    foreignInsertBefore ≠ (sample12, sampleHeap5) ∧
    ¬ WellFormed foreignInsertBefore.1 foreignInsertBefore.2 ∧
    ¬ WellFormed sample123 foreignInsertBefore.2 ∧
    InsertAfter sample12 sampleHeap5 (some 1) 7 = .ok foreignInsertAfter ∧
    foreignInsertAfter ≠ (sample12, sampleHeap5) ∧
    ¬ WellFormed foreignInsertAfter.1 foreignInsertAfter.2 ∧
    ¬ WellFormed sample123 foreignInsertAfter.2 ∧
    Erase sample12 sampleHeap5 (some 1) = .ok foreignErase ∧
    foreignErase ≠ (sample12, sampleHeap5) ∧
    ¬ WellFormed foreignErase.1 foreignErase.2 ∧
    ¬ WellFormed sample123 foreignErase.2 :=
  ⟨by decide, by decide, by decide, by decide, rfl, by decide, by decide, by decide,
    rfl, by decide, by decide, by decide, rfl, by decide, by decide, by decide⟩

/-- C17: for a well-formed list with `n = Size()` nodes the destructor returns:
it is the call `PopBack()` made exactly `n` times (after fewer calls the list
is not empty yet, and no call trips the assertion), it leaves the list in the
empty state, the cell of each of the `n` distinct nodes of the chain is freed,
once, and every other cell is unchanged; `CleanTheList` returns the same list
and the same heap. -/
theorem destructor_releases (l : BiDirectionalList) (h : Heap α) (hw : WellFormed l h) :
    ∃ h', BiDirectionalList.destructor l h = .ok (⟨none, none, 0⟩, h') ∧
      popBackTimes (Size l).toNat l h = .ok (⟨none, none, 0⟩, h') ∧
      (∀ k, k < (Size l).toNat →
        ∃ lk hk, popBackTimes k l h = .ok (lk, hk) ∧ IsEmpty lk = false) ∧
      (nodes l h).Nodup ∧ (nodes l h).length = (Size l).toNat ∧
      (∀ x ∈ nodes l h, h.read x ≠ none ∧ h'.read x = none) ∧
      (∀ x, x ∉ nodes l h → h'.read x = h.read x) ∧
      CleanTheList l h = .ok (⟨none, none, 0⟩, h') := by
  have hr := rep_of_wellFormed hw
  have hsz := rep_size hr
  have hn : (Size l).toNat = (nodes l h).length := by
    unfold Size
    omega
  obtain ⟨h', hd, hpop, hnone, hfr, _⟩ := destructor_rep hr
  refine ⟨h', hd, by rw [hn]; exact hpop, ?_, rep_nodup hr, hn.symm, ?_, hfr, ?_⟩
  · intro k hk
    exact popBackTimes_nonempty hr k (by omega)
  · intro x hx
    obtain ⟨nd, hrd⟩ := path_read hr.1 hx
    exact ⟨by rw [hrd]; simp, hnone x hx⟩
  · rw [CleanTheList_eq_destructor hr, hd]

/-- Witness of C17: destroying the list `[5, 10, 20]`. -/
theorem destructor_releases_witness :
    WellFormed sample3 sampleHeap3 ∧
    ∃ h', BiDirectionalList.destructor sample3 sampleHeap3 = .ok (⟨none, none, 0⟩, h') ∧
      CleanTheList sample3 sampleHeap3 = .ok (⟨none, none, 0⟩, h') :=
  ⟨by decide,
    let ⟨h', hd, _, _, _, _, _, _, hc⟩ := destructor_releases sample3 sampleHeap3 (by decide)
    ⟨h', hd, hc⟩⟩

/-- C18, as amended: on a non-empty well-formed list with contents `s` and
`Size() < INT_MAX`, `InsertBefore(Front(), v)` returns with contents `v`
followed by `s`, and the `PopFront()` that follows returns with contents `s`
and the old `Size()`: it removes the inserted value, not the old head.  From a
one-element list `[a]` the calls give `[v, a]`, then `[a]`, and a second
`PopFront()` gives `[]`. -/
theorem InsertBefore_Front_PopFront (l : BiDirectionalList) (h : Heap α) (s : List α) (v : α)
    (hw : WellFormed l h) (hs : ToVector l h = .ok s) (hne : IsEmpty l = false)
    (hlt : Size l < INT_MAX) :
    ∃ p l1 h1 l2 h2, Front l h = .ok p ∧ InsertBefore l h p v = .ok (l1, h1) ∧
      ToVector l1 h1 = .ok (v :: s) ∧ PopFront l1 h1 = .ok (l2, h2) ∧
      WellFormed l2 h2 ∧ ToVector l2 h2 = .ok s ∧ Size l2 = Size l ∧
      (Size l = 1 → ∃ l3 h3, PopFront l2 h2 = .ok (l3, h3) ∧ ToVector l3 h3 = .ok [] ∧
        Size l3 = 0) := by
  have hr := rep_of_wellFormed hw
  have hsv := contents_of_rep hr hs
  have hne' : l.size_ ≠ 0 := (isEmpty_false_iff l).1 hne
  cases hps : nodes l h with
  | nil =>
    rw [hps] at hr
    exact absurd ((rep_size_zero_iff hr).2 rfl) hne'
  | cons e ys =>
    rw [hps] at hr hsv
    have hr0 : Rep l h ([] ++ e :: ys) := hr
    obtain ⟨l1, h1, hop1, hrep1, hv1, hsz1, _⟩ := InsertBefore_rep hr0 v hlt
    simp only [List.nil_append, vals_nil] at hrep1 hv1
    obtain ⟨l2, h2, hop2, hrep2, hv2, hsz2, _⟩ := PopFront_rep hrep1
    have hvs : vals h1 (e :: ys) = vals h (e :: ys) := by
      obtain ⟨nq, hrq, _⟩ := rep_read (show Rep l1 h1 ([] ++ h.cells.length :: e :: ys)
        from hrep1)
      rw [vals_cons hrq] at hv1
      exact (List.cons.inj hv1).2
    refine ⟨some e, l1, h1, l2, h2, ?_, hop1, ?_, hop2, wellFormed_of_rep hrep2, ?_, ?_, ?_⟩
    · unfold Front
      rw [if_neg hne', rep_begin hr]
      rfl
    · rw [ToVector_rep hrep1, hv1, hsv]
    · rw [ToVector_rep hrep2, hv2, hvs, hsv]
    · unfold Size
      rw [hsz2, hsz1]
      ring
    · intro hone
      have hys : ys = [] := by
        unfold Size at hone
        rw [rep_size hr] at hone
        simp at hone
        exact hone
      subst hys
      obtain ⟨l3, h3, hop3, hrep3, _, _⟩ := PopFront_rep hrep2
      refine ⟨l3, h3, hop3, ?_, ?_⟩
      · rw [ToVector_rep hrep3, vals_nil]
      · exact rep_size hrep3

/-- Witness of C18 on the list `[5, 10, 20]`. -/
theorem InsertBefore_Front_PopFront_witness :
    WellFormed sample3 sampleHeap3 ∧
    ∃ p l1 h1 l2 h2, Front sample3 sampleHeap3 = .ok p ∧
      InsertBefore sample3 sampleHeap3 p 7 = .ok (l1, h1) ∧
      ToVector l1 h1 = .ok [7, 5, 10, 20] ∧ PopFront l1 h1 = .ok (l2, h2) ∧
      ToVector l2 h2 = .ok [5, 10, 20] :=
  ⟨by decide,
    let ⟨p, l1, h1, l2, h2, hf, hop1, hv1, hop2, _, hv2, _⟩ :=
      InsertBefore_Front_PopFront sample3 sampleHeap3 [5, 10, 20] 7 (by decide) rfl
        (by decide) (by decide)
    ⟨p, l1, h1, l2, h2, hf, hop1, hv1, hop2, hv2⟩⟩

/-- Counterexample to C18 as stated: the list `fullList` of `INT_MAX` zeros,
which 2147483647 calls of `PushBack(0)` build from the empty list, is
well-formed and not empty, `Front()` is the node at address 0, and
`InsertBefore(Front(), 7)` does not return the list with `7` in front: its
`size_++` overflows, which is undefined behaviour (where the overflow wraps
around, `size_ == -2147483648` after the call and `ToVector()` throws
`std::length_error`). -/
theorem InsertBefore_Front_overflow :
    callAll {} (Heap.empty : Heap Int) (List.replicate 2147483647 (Op.PushBack 0)) =
      .ok (fullList, fullHeap) ∧
    WellFormed fullList fullHeap ∧
    ToVector fullList fullHeap = .ok (List.replicate 2147483647 0) ∧
    IsEmpty fullList = false ∧
    Front fullList fullHeap = .ok (some 0) ∧
    InsertBefore fullList fullHeap (some 0) 7 = .error .undefinedBehaviour :=
  ⟨full_built, wellFormed_of_rep full_rep, full_contents, rfl, rfl, rfl⟩

/-- C19, as amended: for every sequence `init` of at most `INT_MAX` values (and
every heap), the list constructed from the initializer list `init` is
well-formed, its `ToVector()` is `init` and its `Size()` is the length of
`init`; the empty initializer list gives the empty list. -/
theorem init_list_ctor_contents (h : Heap α) (init : List α)
    (hlen : (init.length : Int) ≤ INT_MAX) :
    ∃ l h', BiDirectionalList.init_list_ctor h init = .ok (l, h') ∧ WellFormed l h' ∧
      ToVector l h' = .ok init ∧ Size l = init.length ∧
      (init = [] → l = ⟨none, none, 0⟩ ∧ h' = h) := by
  have hempty : Rep ({} : BiDirectionalList) h [] := (rep_nil_iff _ _).2 ⟨rfl, rfl, rfl⟩
  obtain ⟨l, h', ns, hop, hrep, hv, hsz, _⟩ := pushBackAll_rep init hempty (by
    show (0 : Int) + _ ≤ _
    simpa using hlen)
  refine ⟨l, h', hop, wellFormed_of_rep hrep, ?_, ?_, ?_⟩
  · rw [ToVector_rep hrep, hv, vals_nil]
    rfl
  · unfold Size
    rw [hsz]
    show (0 : Int) + _ = _
    simp
  · rintro rfl
    have : pushBackAll ({} : BiDirectionalList) h ([] : List α) = .ok ({}, h) := rfl
    rw [this] at hop
    cases hop
    exact ⟨rfl, rfl⟩

/-- Witness of C19 on the initializer list `{10, 20, 10, 30}`. -/
theorem init_list_ctor_contents_witness :
    ∃ l h', BiDirectionalList.init_list_ctor (Heap.empty : Heap Int) [10, 20, 10, 30] =
        .ok (l, h') ∧ ToVector l h' = .ok [10, 20, 10, 30] ∧ Size l = 4 :=
  let ⟨l, h', hop, _, hv, hsz, _⟩ :=
    init_list_ctor_contents (Heap.empty : Heap Int) [10, 20, 10, 30] (by decide)
  ⟨l, h', hop, hv, hsz⟩

/-- Counterexample to C19 as stated: the constructor called with an initializer
list of 2147483648 zeros does not return a list: it calls `PushBack(0)` for
every element, and the last of these calls finds `size_ == INT_MAX`, so that
its `size_++` overflows, which is undefined behaviour. -/
theorem init_list_ctor_overflow :
    BiDirectionalList.init_list_ctor (Heap.empty : Heap Int) (List.replicate 2147483648 0) =
      .error .undefinedBehaviour := by
  have hsucc : (2147483648 : Nat) = 2147483647 + 1 := by norm_num
  rw [hsucc]
  exact replicate_succ_overflow 2147483647 (by decide)

/-- C20: on a well-formed list `Find(v)` and `FindAll(v)` both return and
agree: `Find(v) == -1` exactly when `FindAll(v)` is empty, otherwise `Find(v)`
is the first element of `FindAll(v)`; `FindAll(v)` is not longer than `Size()`
and `At` accepts every index in it. -/
theorem Find_FindAll_agree [DecidableEq α] (l : BiDirectionalList) (h : Heap α) (v : α)
    (hw : WellFormed l h) :
    ∃ r rs, Find l h v = .ok r ∧ FindAll l h v = .ok rs ∧
      (r = -1 ↔ rs = []) ∧ (r ≠ -1 → rs.head? = some r) ∧
      (rs.length : Int) ≤ Size l ∧
      ∀ j ∈ rs, ∃ a, At l h j = .ok (some a) ∧ a ∈ nodes l h := by
  have hr := rep_of_wellFormed hw
  have hsz := rep_size hr
  have hn : l.size_.toNat = (nodes l h).length := by omega
  obtain ⟨r, rs, hf, hfa, hiff, hhead, hlen, hmem⟩ := findLoop_findAllLoop hr.1 v 0 (le_refl _)
  refine ⟨r, rs, ?_, ?_, hiff, hhead, ?_, ?_⟩
  · unfold Find
    rw [hn]
    exact hf
  · unfold FindAll
    rw [hn, hfa]
    simp
  · unfold Size
    omega
  · intro j hj
    obtain ⟨h0, hlt⟩ := hmem j hj
    have hjlt : j.toNat < (nodes l h).length := by omega
    obtain ⟨xs, e, ys, hsplit, hxs⟩ := split_at_index _ _ hjlt
    have hr' := hr
    rw [hsplit] at hr'
    have hjx : j = (xs.length : Int) := by omega
    refine ⟨e, by rw [hjx]; exact At_rep hr', ?_⟩
    rw [hsplit]
    simp

/-- Witness of C20: `Find(10)` and `FindAll(10)` on `[10, 20, 10, 30]`. -/
theorem Find_FindAll_agree_witness :
    WellFormed sample4 sampleHeap4 ∧
    ∃ r rs, Find sample4 sampleHeap4 10 = .ok r ∧ FindAll sample4 sampleHeap4 10 = .ok rs ∧
      (r = -1 ↔ rs = []) ∧ (r ≠ -1 → rs.head? = some r) :=
  ⟨by decide,
    let ⟨r, rs, hf, hfa, hiff, hhead, _⟩ :=
      Find_FindAll_agree sample4 sampleHeap4 10 (by decide)
    ⟨r, rs, hf, hfa, hiff, hhead⟩⟩

end Contract

end containers
